import Mathlib

/-!
Verification of the tree-to-tensor compilation core of the hummingbird repository
(file hummingbird/operator_converters/_tree_commons.py) against its natural-language
specification.

Modelling conventions.  Python lists are Lean lists; numpy float arrays are lists of
rationals (floating-point rounding is not modelled, only the decision outcomes, which
is all the specification promises); Python dictionaries keyed by node ids are functions
from Int to Option; a Python call that raises an exception is modelled by an
Option-valued result equal to none.  Python object references stored in node fields are
modelled by the integer id keying the object in the id-to-node dictionary, which is
adequate as long as no key is ever overwritten while an older object is still linked
(the well-formedness predicate used by every theorem rules that out, and the concrete
inputs of the witnesses and counterexamples have been checked by hand).
-/

namespace TreeCommons

/-- Python list read l[i]: a negative index addresses from the end of the list, an
out-of-range index raises IndexError (modelled by none). -/
def pyGet {α : Type} (l : List α) (i : Int) : Option α :=
  let j : Int := if i < 0 then i + l.length else i
  if 0 ≤ j then l[j.toNat]? else none

/-- Python list write l[i] = a, same index conventions as pyGet. -/
def pySet {α : Type} (l : List α) (i : Int) (a : α) : Option (List α) :=
  let j : Int := if i < 0 then i + l.length else i
  if 0 ≤ j ∧ j < l.length then some (l.set j.toNat a) else none

/-- Python list slice l[:i] (a negative bound counts from the end, clipped at 0). -/
def pyTake {α : Type} (l : List α) (i : Int) : List α :=
  let j : Int := if i < 0 then i + l.length else i
  l.take j.toNat

/-- The size of the last axis of np.array(values): equal-length rows form a
two-dimensional array whose last axis is the row length; ragged rows form a
one-dimensional object array whose only axis is the number of rows. -/
def npShapeLast (values : List (List Rat)) : Nat :=
  match values with
  | [] => 0
  | v :: vs => if vs.all (fun w => w.length == v.length) then v.length else values.length

/-- np.transpose of a row-major two-dimensional array. -/
def npTranspose (m : List (List Rat)) : List (List Rat) :=
  (List.range (m.headD []).length).map (fun c => m.map (fun row => row.getD c 0))

/-- Dot product of two equally long numeric vectors (zip truncates at the shorter). -/
def dot (x w : List Rat) : Rat := (List.zipWith (· * ·) x w).sum

/-- The three evaluation strategies of the TreeImpl enumeration. -/
inductive TreeImpl where
  | gemm : TreeImpl
  | tree_trav : TreeImpl
  | perf_tree_trav : TreeImpl
deriving DecidableEq

/-- The class TreeParameters: one tree's raw parallel attribute arrays. -/
structure TreeParameters where
  lefts : List Int
  rights : List Int
  features : List Int
  thresholds : List Rat
  values : List (List Rat)
deriving DecidableEq

/-- get_tree_implementation_by_config_or_depth.  The extra_config dictionary is
modelled by its optional tree_implementation entry; max_depth is an optional integer
(Python None).  The Python default arguments are low=3 and high=10; callers inside the
file pass them implicitly, which the theorems make explicit.  The raised ValueError
message formats the configuration dictionary, whose text contains the offending
strategy name; the model keeps just that name in the message. -/
def get_tree_implementation_by_config_or_depth (extra_config : Option String)
    (max_depth : Option Int) (low high : Int) : Except String TreeImpl :=
  match extra_config with
  | none =>
    match max_depth with
    | some d =>
      if d ≤ low then Except.ok TreeImpl.gemm
      else if d ≤ high then Except.ok TreeImpl.tree_trav
      else Except.ok TreeImpl.perf_tree_trav
    | none => Except.ok TreeImpl.perf_tree_trav
  | some impl =>
    if impl = "gemm" then Except.ok TreeImpl.gemm
    else if impl = "tree_trav" then Except.ok TreeImpl.tree_trav
    else if impl = "perf_tree_trav" then Except.ok TreeImpl.perf_tree_trav
    else Except.error ("Tree implementation " ++ impl ++ " not found")

end TreeCommons

namespace TreeCommons

/-- C2: with no explicit strategy in the configuration and the default thresholds
low=3 and high=10, the selector returns gemm for every depth at most 3, tree_trav for
every depth strictly between 3 and 11, and perf_tree_trav for every depth above 10. -/
theorem config_default_depth_thresholds (d : Int) :
    (d ≤ 3 → get_tree_implementation_by_config_or_depth none (some d) 3 10 =
      Except.ok TreeImpl.gemm) ∧
    (3 < d → d ≤ 10 → get_tree_implementation_by_config_or_depth none (some d) 3 10 =
      Except.ok TreeImpl.tree_trav) ∧
    (10 < d → get_tree_implementation_by_config_or_depth none (some d) 3 10 =
      Except.ok TreeImpl.perf_tree_trav) := by
  refine ⟨fun h => ?_, fun h1 h2 => ?_, fun h => ?_⟩
  · simp only [get_tree_implementation_by_config_or_depth]
    rw [if_pos h]
  · simp only [get_tree_implementation_by_config_or_depth]
    rw [if_neg (by omega), if_pos h2]
  · simp only [get_tree_implementation_by_config_or_depth]
    rw [if_neg (by omega), if_neg (by omega)]

/-- C2 witness: the three threshold regimes at the concrete depths 3, 7 and 11. -/
theorem config_default_depth_thresholds_witness :
    get_tree_implementation_by_config_or_depth none (some 3) 3 10 =
      Except.ok TreeImpl.gemm ∧
    get_tree_implementation_by_config_or_depth none (some 7) 3 10 =
      Except.ok TreeImpl.tree_trav ∧
    get_tree_implementation_by_config_or_depth none (some 11) 3 10 =
      Except.ok TreeImpl.perf_tree_trav :=
  ⟨(config_default_depth_thresholds 3).1 (by decide),
   (config_default_depth_thresholds 7).2.1 (by decide) (by decide),
   (config_default_depth_thresholds 11).2.2 (by decide)⟩

/-- C7: an explicit tree_implementation setting is honored verbatim for each of the
three recognized names, at every depth and for any thresholds, and every other name
produces a configuration error whose message names the offending value. -/
theorem config_explicit_strategy (s : String) (d : Option Int) (low high : Int) :
    (get_tree_implementation_by_config_or_depth (some "gemm") d low high =
      Except.ok TreeImpl.gemm) ∧
    (get_tree_implementation_by_config_or_depth (some "tree_trav") d low high =
      Except.ok TreeImpl.tree_trav) ∧
    (get_tree_implementation_by_config_or_depth (some "perf_tree_trav") d low high =
      Except.ok TreeImpl.perf_tree_trav) ∧
    (s ≠ "gemm" → s ≠ "tree_trav" → s ≠ "perf_tree_trav" →
      get_tree_implementation_by_config_or_depth (some s) d low high =
        Except.error ("Tree implementation " ++ s ++ " not found")) := by
  refine ⟨rfl, rfl, rfl, fun h1 h2 h3 => ?_⟩
  simp [get_tree_implementation_by_config_or_depth, h1, h2, h3]

/-- C7 witness: the three valid names at depth 5, and the invalid name bogus, whose
error message contains the offending value. -/
theorem config_explicit_strategy_witness :
    (get_tree_implementation_by_config_or_depth (some "gemm") (some 5) 3 10 =
      Except.ok TreeImpl.gemm) ∧
    (get_tree_implementation_by_config_or_depth (some "bogus") (some 5) 3 10 =
      Except.error ("Tree implementation " ++ "bogus" ++ " not found")) :=
  ⟨(config_explicit_strategy "bogus" (some 5) 3 10).1,
   (config_explicit_strategy "bogus" (some 5) 3 10).2.2.2
     (by decide) (by decide) (by decide)⟩

end TreeCommons

namespace TreeCommons

/-- The class Node: a field may be unassigned (Python None, modelled none), the
integer -1, or a reference to another node, modelled by the id keying that node in the
nodes_map dictionary (some id); the value some (-1) unambiguously denotes the integer
-1 because Node(-1) is never constructed. -/
structure PNode where
  left : Option Int
  right : Option Int
  feature : Option Int
  threshold : Option Rat
  value : Option (List Rat)
deriving DecidableEq

def PNode.blank : PNode := ⟨none, none, none, none, none⟩

/-- The nodes_map dictionary from node id to node. -/
abbrev NodeMap := Int → Option PNode

def mapSet (m : NodeMap) (k : Int) (v : PNode) : NodeMap :=
  fun j => if j = k then some v else m j

def mapEmpty : NodeMap := fun _ => none

/-- One iteration of the nodes_map building loop of _find_max_depth.  The state is the
dictionary plus the two mutated child arrays; the entry (id, left, right) is the
snapshot taken by zip before the loop, so in-loop mutation never feeds back into the
iteration.  Writing nodes_map[current_node] raises KeyError (none) when the key is
absent; current_node always equals the entry id. -/
def depthBuildStep (st : Option (NodeMap × List Int × List Int)) (entry : Nat × Int × Int) :
    Option (NodeMap × List Int × List Int) :=
  match st with
  | none => none
  | some (m, ls, rs) =>
    let (id, left, right) := entry
    let m1 := if left ≠ -1 then mapSet m left PNode.blank else m
    let ls1 := if left ≠ -1 then ls else ls.set id (id : Int)
    let m2 := if right ≠ -1 then mapSet m1 right PNode.blank else m1
    let rs1 := if right ≠ -1 then rs else rs.set id (id : Int)
    match m2 id with
    | none => none
    | some nd => some (mapSet m2 id { nd with left := some left, right := some right }, ls1, rs1)

def depthBuildLoop (entries : List (Nat × Int × Int))
    (st : Option (NodeMap × List Int × List Int)) : Option (NodeMap × List Int × List Int) :=
  match entries with
  | [] => st
  | e :: rest => depthBuildLoop rest (depthBuildStep st e)

/-- The nodes_map construction of _find_max_depth for one tree (the deepcopy of the
caller's arrays is implicit in the functional model). -/
def buildDepthNodes (lefts rights : List Int) : Option (NodeMap × List Int × List Int) :=
  let ids := List.range lefts.length
  let nodes := ids.zip (lefts.zip rights)
  depthBuildLoop nodes (some (mapSet mapEmpty 0 PNode.blank, lefts, rights))

/-- _find_depth.  The two one-sided branches of the source access node.l and node.r,
attributes that do not exist on the Node class (its fields are left and right), so
Python raises AttributeError there: modelled by none.  A node with an unassigned
(None) child field falls into the both-children branch and then fails attribute access
on None, also none.  Recursion into a child passes the id of the linked node; a
missing key models a dangling reference and cannot occur on well-formed input.  Fuel
makes the recursion structural; the exact result is reached whenever fuel exceeds the
tree height. -/
def findDepth (m : NodeMap) : Nat → Int → Int → Option Int
  | 0, _, _ => none
  | fuel + 1, nid, current_depth =>
    match m nid with
    | none => none
    | some nd =>
      match nd.left, nd.right with
      | some l, some r =>
        if l = -1 ∧ r = -1 then some (current_depth + 1)
        else if l ≠ -1 ∧ r = -1 then none
        else if r ≠ -1 ∧ l = -1 then none
        else
          match findDepth m fuel l (current_depth + 1), findDepth m fuel r (current_depth + 1) with
          | some a, some b => some (max a b)
          | _, _ => none
      | _, _ => none

/-- _find_max_depth restricted to a single tree: build the node graph, then recurse
from the root with current depth -1. -/
def findMaxDepthOne (t : TreeParameters) : Option Int :=
  match buildDepthNodes t.lefts t.rights with
  | none => none
  | some (m, _, _) => findDepth m (t.lefts.length + 1) 0 (-1)

/-- _find_max_depth: the running maximum over all trees, starting from 0; any failure
while processing a tree aborts the whole computation. -/
def findMaxDepth (trees : List TreeParameters) : Option Int :=
  trees.foldl
    (fun acc t =>
      match acc, findMaxDepthOne t with
      | some d, some d2 => some (max d d2)
      | _, _ => none)
    (some 0)

/-- get_tree_params_and_type, over already extracted per-tree parameters (the
extraction function of the source is a pluggable external collaborator and is
modelled by the identity); an exception anywhere gives none. -/
def get_tree_params_and_type (tree_parameters : List TreeParameters)
    (extra_config : Option String) : Option (List TreeParameters × Int × TreeImpl) :=
  match findMaxDepth tree_parameters with
  | none => none
  | some d0 =>
    let max_depth := max 1 d0
    match get_tree_implementation_by_config_or_depth extra_config (some max_depth) 3 10 with
    | Except.error _ => none
    | Except.ok ty => some (tree_parameters, max_depth, ty)

/-- Specification-level root-to-leaf depth of the tree described by the raw child
arrays: number of edges on the longest root-to-leaf path.  Fuel-based recursion; any
fuel at least the node count computes the exact value on well-formed trees. -/
def treeDepthFrom (lefts rights : List Int) : Nat → Nat → Nat
  | 0, _ => 0
  | fuel + 1, i =>
    if lefts.getD i (-1) = -1 then 0
    else 1 + max (treeDepthFrom lefts rights fuel (lefts.getD i (-1)).toNat)
                 (treeDepthFrom lefts rights fuel (rights.getD i (-1)).toNat)

def treeDepth (t : TreeParameters) : Nat :=
  treeDepthFrom t.lefts t.rights t.lefts.length 0

/-- Well-formedness of one tree's raw arrays, as assumed throughout the specification:
equal lengths, strictly binary-or-leaf nodes, children indexed after their parent (the
layout produced by the supported tree libraries, and what the id-keyed node-graph
construction requires), every non-root node the child of exactly one parent, and
non-negative split features on internal nodes. -/
def WF (t : TreeParameters) : Prop :=
  t.rights.length = t.lefts.length ∧
  t.features.length = t.lefts.length ∧
  t.thresholds.length = t.lefts.length ∧
  t.values.length = t.lefts.length ∧
  0 < t.lefts.length ∧
  (∀ i, i < t.lefts.length → (t.lefts.getD i (-1) = -1 ↔ t.rights.getD i (-1) = -1)) ∧
  (∀ i, i < t.lefts.length → t.lefts.getD i (-1) ≠ -1 →
    ((i : Int) < t.lefts.getD i (-1) ∧ t.lefts.getD i (-1) < (t.lefts.length : Int)) ∧
    ((i : Int) < t.rights.getD i (-1) ∧ t.rights.getD i (-1) < (t.lefts.length : Int)) ∧
    0 ≤ t.features.getD i 0) ∧
  (∀ j, 0 < j → j < t.lefts.length → (t.lefts ++ t.rights).count ((j : Nat) : Int) = 1)

/-- C6: the specification says a one-sided node (exactly one child self-referencing or
absent) is defensively handled by recursing only into the real child.  The code
instead accesses node.l and node.r, attributes that do not exist on the Node class
(whose fields are named left and right), so the branch raises AttributeError: on the
one-sided tree with arrays lefts=[1,-1], rights=[-1,-1], depth analysis fails instead
of returning a depth. -/
theorem one_sided_child_depth_fails :
    findMaxDepthOne ⟨[1, -1], [-1, -1], [0, 0], [0, 0], [[0], [0]]⟩ = none := by
  decide

end TreeCommons

namespace TreeCommons

lemma mapSet_self (m : NodeMap) (k : Int) (v : PNode) : mapSet m k v k = some v := by
  simp [mapSet]

lemma mapSet_ne (m : NodeMap) (k j : Int) (v : PNode) (h : j ≠ k) : mapSet m k v j = m j := by
  simp [mapSet, h]

/-- The node constructed for index k by the build loops: both child fields assigned
from the snapshot arrays, the remaining fields untouched. -/
def doneNode (lefts rights : List Int) (k : Nat) : PNode :=
  ⟨some (lefts.getD k (-1)), some (rights.getD k (-1)), none, none, none⟩

lemma entries_drop (lefts rights : List Int) (hr : rights.length = lefts.length)
    (i : Nat) (hi : i < lefts.length) :
    (((List.range lefts.length).zip (lefts.zip rights)).drop i) =
      (i, lefts.getD i (-1), rights.getD i (-1)) ::
        (((List.range lefts.length).zip (lefts.zip rights)).drop (i + 1)) := by
  have hzlen : ((List.range lefts.length).zip (lefts.zip rights)).length = lefts.length := by
    simp [List.length_zip, hr]
  rw [List.drop_eq_getElem_cons (by omega)]
  congr 1
  have h2 : i < ((List.range lefts.length).zip (lefts.zip rights)).length := by omega
  rw [List.getElem_zip, List.getElem_zip]
  simp [List.getElem_range, List.getD_eq_getElem, hi, hr]

end TreeCommons

namespace TreeCommons

lemma depthBuildStep_eq_leaf (m : NodeMap) (ls rs : List Int) (id : Nat) (L R : Int)
    (hL : L = -1) (hR : R = -1) (nd : PNode) (hm : m (id : Int) = some nd) :
    depthBuildStep (some (m, ls, rs)) (id, L, R) =
      some (mapSet m (id : Int) { nd with left := some L, right := some R },
        ls.set id (id : Int), rs.set id (id : Int)) := by
  subst hL
  subst hR
  simp [depthBuildStep, hm]

lemma depthBuildStep_eq_internal (m : NodeMap) (ls rs : List Int) (id : Nat) (L R : Int)
    (hL : L ≠ -1) (hR : R ≠ -1) (hidL : (id : Int) ≠ L) (hidR : (id : Int) ≠ R)
    (nd : PNode) (hm : m (id : Int) = some nd) :
    depthBuildStep (some (m, ls, rs)) (id, L, R) =
      some (mapSet (mapSet (mapSet m L PNode.blank) R PNode.blank) (id : Int)
        { nd with left := some L, right := some R }, ls, rs) := by
  simp only [depthBuildStep, if_pos hL, if_pos hR]
  rw [mapSet_ne _ _ _ _ hidR, mapSet_ne _ _ _ _ hidL, hm]

/-- Loop invariant of the nodes_map construction in _find_max_depth: once the entries
from index i on are processed, every node id below the node count is mapped to its
fully assigned node.  Requires children to come after their parent and every non-root
node to have some parent below it. -/
lemma depthBuildLoop_inv (lefts rights : List Int) (hr : rights.length = lefts.length)
    (hch : ∀ p, p < lefts.length → lefts.getD p (-1) ≠ -1 →
      ((p : Int) < lefts.getD p (-1) ∧ lefts.getD p (-1) < (lefts.length : Int)) ∧
      ((p : Int) < rights.getD p (-1) ∧ rights.getD p (-1) < (lefts.length : Int)))
    (hleaf : ∀ p, p < lefts.length → (lefts.getD p (-1) = -1 ↔ rights.getD p (-1) = -1))
    (hpar : ∀ j : Nat, 0 < j → j < lefts.length → ∃ p : Nat, p < j ∧ p < lefts.length ∧
      (lefts.getD p (-1) = (j : Int) ∨ rights.getD p (-1) = (j : Int))) :
    ∀ rem i m ls rs, i + rem = lefts.length →
      (∀ k : Nat, k < i → m (k : Int) = some (doneNode lefts rights k)) →
      (∀ k : Nat, i ≤ k → k < lefts.length →
        (k = 0 ∨ ∃ p : Nat, p < i ∧
          (lefts.getD p (-1) = (k : Int) ∨ rights.getD p (-1) = (k : Int))) →
        m (k : Int) = some PNode.blank) →
      ∃ m2 ls2 rs2,
        depthBuildLoop (((List.range lefts.length).zip (lefts.zip rights)).drop i)
          (some (m, ls, rs)) = some (m2, ls2, rs2) ∧
        ∀ k : Nat, k < lefts.length → m2 (k : Int) = some (doneNode lefts rights k) := by
  intro rem
  induction rem with
  | zero =>
    intro i m ls rs hin h1 h2
    have hi : i = lefts.length := by omega
    subst hi
    have hnil : (((List.range lefts.length).zip (lefts.zip rights)).drop lefts.length) = [] := by
      apply List.drop_eq_nil_of_le
      simp [List.length_zip, hr]
    rw [hnil]
    exact ⟨m, ls, rs, rfl, fun k hk => h1 k hk⟩
  | succ rem ih =>
    intro i m ls rs hin h1 h2
    have hi : i < lefts.length := by omega
    rw [entries_drop lefts rights hr i hi]
    have hcondi : i = 0 ∨ ∃ p : Nat, p < i ∧
        (lefts.getD p (-1) = (i : Int) ∨ rights.getD p (-1) = (i : Int)) := by
      rcases Nat.eq_zero_or_pos i with h0 | h0
      · exact Or.inl h0
      · obtain ⟨p, hp1, _, hp3⟩ := hpar i h0 hi
        exact Or.inr ⟨p, hp1, hp3⟩
    have hmi : m (i : Int) = some PNode.blank := h2 i le_rfl hi hcondi
    by_cases hL : lefts.getD i (-1) = -1
    · -- leaf entry: both child slots rewritten to self-reference, no blank inserted
      have hRR : rights.getD i (-1) = -1 := (hleaf i hi).1 hL
      have hstep : depthBuildStep (some (m, ls, rs)) (i, lefts.getD i (-1), rights.getD i (-1)) =
          some (mapSet m (i : Int) (doneNode lefts rights i),
            ls.set i (i : Int), rs.set i (i : Int)) := by
        rw [depthBuildStep_eq_leaf m ls rs i _ _ hL hRR PNode.blank hmi]
        rfl
      rw [depthBuildLoop, hstep]
      apply ih (i + 1) _ _ _ (by omega)
      · intro k hk
        rcases Nat.lt_succ_iff_lt_or_eq.mp hk with hk' | hk'
        · rw [mapSet_ne _ _ _ _ (by exact_mod_cast Nat.ne_of_lt hk')]
          exact h1 k hk'
        · subst hk'
          exact mapSet_self _ _ _
      · intro k hk1 hk2 hcond
        have hki : (k : Int) ≠ (i : Int) := by exact_mod_cast Nat.ne_of_gt hk1
        rw [mapSet_ne _ _ _ _ hki]
        apply h2 k (by omega) hk2
        rcases hcond with h0 | ⟨p, hp1, hp3⟩
        · exact Or.inl h0
        · rcases Nat.lt_succ_iff_lt_or_eq.mp hp1 with hp' | hp'
          · exact Or.inr ⟨p, hp', hp3⟩
          · subst hp'
            rcases hp3 with h | h
            · rw [hL] at h
              omega
            · rw [hRR] at h
              omega
    · -- internal entry: blank nodes inserted for both children
      have hRR : rights.getD i (-1) ≠ -1 := fun hc => hL ((hleaf i hi).2 hc)
      obtain ⟨⟨hL1, hL2⟩, hR1, hR2⟩ := hch i hi hL
      have hiL : (i : Int) ≠ lefts.getD i (-1) := by omega
      have hiR : (i : Int) ≠ rights.getD i (-1) := by omega
      have hstep : depthBuildStep (some (m, ls, rs)) (i, lefts.getD i (-1), rights.getD i (-1)) =
          some (mapSet (mapSet (mapSet m (lefts.getD i (-1)) PNode.blank)
              (rights.getD i (-1)) PNode.blank) (i : Int) (doneNode lefts rights i), ls, rs) := by
        rw [depthBuildStep_eq_internal m ls rs i _ _ hL hRR hiL hiR PNode.blank hmi]
        rfl
      rw [depthBuildLoop, hstep]
      apply ih (i + 1) _ _ _ (by omega)
      · intro k hk
        rcases Nat.lt_succ_iff_lt_or_eq.mp hk with hk' | hk'
        · have hkI : (k : Int) ≠ (i : Int) := by exact_mod_cast Nat.ne_of_lt hk'
          have hkL : (k : Int) ≠ lefts.getD i (-1) := by omega
          have hkR : (k : Int) ≠ rights.getD i (-1) := by omega
          rw [mapSet_ne _ _ _ _ hkI, mapSet_ne _ _ _ _ hkR, mapSet_ne _ _ _ _ hkL]
          exact h1 k hk'
        · subst hk'
          exact mapSet_self _ _ _
      · intro k hk1 hk2 hcond
        have hki : (k : Int) ≠ (i : Int) := by exact_mod_cast Nat.ne_of_gt hk1
        rw [mapSet_ne _ _ _ _ hki]
        by_cases hkR : (k : Int) = rights.getD i (-1)
        · rw [hkR]
          exact mapSet_self _ _ _
        · rw [mapSet_ne _ _ _ _ hkR]
          by_cases hkL : (k : Int) = lefts.getD i (-1)
          · rw [hkL]
            exact mapSet_self _ _ _
          · rw [mapSet_ne _ _ _ _ hkL]
            apply h2 k (by omega) hk2
            rcases hcond with h0 | ⟨p, hp1, hp3⟩
            · exact Or.inl h0
            · rcases Nat.lt_succ_iff_lt_or_eq.mp hp1 with hp' | hp'
              · exact Or.inr ⟨p, hp', hp3⟩
              · subst hp'
                rcases hp3 with h | h
                · exact absurd h.symm hkL
                · exact absurd h.symm hkR

end TreeCommons

namespace TreeCommons

/-- Under ordered unique parenthood, every non-root node below the count has a parent
at a strictly smaller index. -/
lemma parent_exists_of_wf {t : TreeParameters} (h : WF t) (j : Nat) (hj : 0 < j)
    (hjn : j < t.lefts.length) : ∃ p : Nat, p < j ∧ p < t.lefts.length ∧
      (t.lefts.getD p (-1) = (j : Int) ∨ t.rights.getD p (-1) = (j : Int)) := by
  obtain ⟨hr, hf, hth, hv, hpos, hleaf, hch, huniq⟩ := h
  have hcnt := huniq j hj hjn
  have hmem : ((j : Nat) : Int) ∈ t.lefts ++ t.rights := by
    rw [← List.count_pos_iff]
    omega
  rcases List.mem_append.mp hmem with hm | hm
  · obtain ⟨p, hp, hpe⟩ := List.getElem_of_mem hm
    have hgd : t.lefts.getD p (-1) = (j : Int) := by rw [List.getD_eq_getElem _ _ hp, hpe]
    have hne : t.lefts.getD p (-1) ≠ -1 := by rw [hgd]; omega
    obtain ⟨⟨h1, _⟩, _⟩ := hch p hp hne
    rw [hgd] at h1
    exact ⟨p, by omega, hp, Or.inl hgd⟩
  · obtain ⟨p, hp, hpe⟩ := List.getElem_of_mem hm
    have hp' : p < t.lefts.length := by omega
    have hgd : t.rights.getD p (-1) = (j : Int) := by rw [List.getD_eq_getElem _ _ hp, hpe]
    have hne : t.lefts.getD p (-1) ≠ -1 := by
      intro hc
      have := (hleaf p hp').1 hc
      rw [hgd] at this
      omega
    obtain ⟨_, ⟨h1, _⟩⟩ := hch p hp' hne
    rw [hgd] at h1
    exact ⟨p, by omega, hp', Or.inr hgd⟩

/-- Child bounds in the form used by the loop lemmas. -/
lemma child_bounds_of_wf {t : TreeParameters} (h : WF t) :
    ∀ p, p < t.lefts.length → t.lefts.getD p (-1) ≠ -1 →
      ((p : Int) < t.lefts.getD p (-1) ∧ t.lefts.getD p (-1) < (t.lefts.length : Int)) ∧
      ((p : Int) < t.rights.getD p (-1) ∧ t.rights.getD p (-1) < (t.lefts.length : Int)) := by
  obtain ⟨hr, hf, hth, hv, hpos, hleaf, hch, huniq⟩ := h
  intro p hp hne
  exact ⟨(hch p hp hne).1, (hch p hp hne).2.1⟩

/-- On well-formed input the nodes_map construction of _find_max_depth succeeds and
assigns every node id its two child slots from the snapshot arrays. -/
lemma buildDepthNodes_done (t : TreeParameters) (hwf : WF t) :
    ∃ m2 ls2 rs2, buildDepthNodes t.lefts t.rights = some (m2, ls2, rs2) ∧
      ∀ k : Nat, k < t.lefts.length → m2 (k : Int) = some (doneNode t.lefts t.rights k) := by
  have hr : t.rights.length = t.lefts.length := hwf.1
  have hleaf := hwf.2.2.2.2.2.1
  have hch := child_bounds_of_wf hwf
  have hpar := fun j hj hjn => parent_exists_of_wf hwf j hj hjn
  have hinv := depthBuildLoop_inv t.lefts t.rights hr hch hleaf hpar t.lefts.length 0
    (mapSet mapEmpty 0 PNode.blank) t.lefts t.rights (by omega)
    (fun k hk => absurd hk (Nat.not_lt_zero k))
    (by
      intro k _ hk2 hcond
      rcases hcond with h0 | ⟨p, hp, _⟩
      · subst h0
        simp [mapSet]
      · omega)
  rw [List.drop_zero] at hinv
  exact hinv

/-- The fuel argument of the specification depth is irrelevant once it reaches the
number of nodes at or after the current index. -/
lemma treeDepthFrom_congr (lefts rights : List Int)
    (hch : ∀ p, p < lefts.length → lefts.getD p (-1) ≠ -1 →
      ((p : Int) < lefts.getD p (-1) ∧ lefts.getD p (-1) < (lefts.length : Int)) ∧
      ((p : Int) < rights.getD p (-1) ∧ rights.getD p (-1) < (lefts.length : Int))) :
    ∀ f1 f2 i, i < lefts.length → lefts.length - i ≤ f1 → lefts.length - i ≤ f2 →
      treeDepthFrom lefts rights f1 i = treeDepthFrom lefts rights f2 i := by
  intro f1
  induction f1 with
  | zero =>
    intro f2 i hi h1 h2
    omega
  | succ f1 ih =>
    intro f2 i hi h1 h2
    cases f2 with
    | zero => omega
    | succ f2 =>
      by_cases hL : lefts.getD i (-1) = -1
      · rw [treeDepthFrom, treeDepthFrom, if_pos hL, if_pos hL]
      · obtain ⟨⟨hL1, hL2⟩, hR1, hR2⟩ := hch i hi hL
        rw [treeDepthFrom, treeDepthFrom, if_neg hL, if_neg hL]
        congr 1
        rw [ih f2 (lefts.getD i (-1)).toNat (by omega) (by omega) (by omega)]
        rw [ih f2 (rights.getD i (-1)).toNat (by omega) (by omega) (by omega)]

end TreeCommons

namespace TreeCommons

/-- _find_depth computes current depth plus one plus the specification depth of the
subtree, on a fully built node map of a well-formed tree. -/
lemma findDepth_eq (lefts rights : List Int) (m : NodeMap)
    (hch : ∀ p, p < lefts.length → lefts.getD p (-1) ≠ -1 →
      ((p : Int) < lefts.getD p (-1) ∧ lefts.getD p (-1) < (lefts.length : Int)) ∧
      ((p : Int) < rights.getD p (-1) ∧ rights.getD p (-1) < (lefts.length : Int)))
    (hleaf : ∀ p, p < lefts.length → (lefts.getD p (-1) = -1 ↔ rights.getD p (-1) = -1))
    (hm : ∀ k : Nat, k < lefts.length → m (k : Int) = some (doneNode lefts rights k)) :
    ∀ fuel i cur, i < lefts.length → lefts.length - i ≤ fuel →
      findDepth m fuel (i : Int) cur =
        some (cur + 1 + (treeDepthFrom lefts rights (lefts.length - i) i : Int)) := by
  intro fuel
  induction fuel with
  | zero =>
    intro i cur hi hf
    omega
  | succ fuel ih =>
    intro i cur hi hf
    rw [findDepth, hm i hi]
    by_cases hL : lefts.getD i (-1) = -1
    · have hR := (hleaf i hi).1 hL
      simp only [doneNode]
      rw [if_pos ⟨hL, hR⟩]
      have hzero : treeDepthFrom lefts rights (lefts.length - i) i = 0 := by
        have hni : lefts.length - i = (lefts.length - i - 1) + 1 := by omega
        rw [hni, treeDepthFrom, if_pos hL]
      rw [hzero]
      simp
    · have hR : rights.getD i (-1) ≠ -1 := fun hc => hL ((hleaf i hi).2 hc)
      obtain ⟨⟨hL1, hL2⟩, hR1, hR2⟩ := hch i hi hL
      simp only [doneNode]
      rw [if_neg (by tauto), if_neg (by tauto), if_neg (by tauto)]
      have hcastl : (((lefts.getD i (-1)).toNat : Nat) : Int) = lefts.getD i (-1) := by omega
      have hcastr : (((rights.getD i (-1)).toNat : Nat) : Int) = rights.getD i (-1) := by omega
      have hlrec := ih (lefts.getD i (-1)).toNat (cur + 1) (by omega) (by omega)
      have hrrec := ih (rights.getD i (-1)).toNat (cur + 1) (by omega) (by omega)
      rw [hcastl] at hlrec
      rw [hcastr] at hrrec
      rw [hlrec, hrrec]
      have hstep : treeDepthFrom lefts rights (lefts.length - i) i =
          1 + max (treeDepthFrom lefts rights
                    (lefts.length - (lefts.getD i (-1)).toNat) (lefts.getD i (-1)).toNat)
                  (treeDepthFrom lefts rights
                    (lefts.length - (rights.getD i (-1)).toNat) (rights.getD i (-1)).toNat) := by
        have hni : lefts.length - i = (lefts.length - i - 1) + 1 := by omega
        rw [hni, treeDepthFrom, if_neg hL]
        congr 1
        rw [treeDepthFrom_congr lefts rights hch (lefts.length - i - 1)
          (lefts.length - (lefts.getD i (-1)).toNat) (lefts.getD i (-1)).toNat
          (by omega) (by omega) (by omega)]
        rw [treeDepthFrom_congr lefts rights hch (lefts.length - i - 1)
          (lefts.length - (rights.getD i (-1)).toNat) (rights.getD i (-1)).toNat
          (by omega) (by omega) (by omega)]
      rw [hstep]
      have := Nat.cast_max (α := Int)
      simp only [Option.some.injEq]
      push_cast
      omega

end TreeCommons

namespace TreeCommons

/-- On a well-formed tree, _find_max_depth restricted to that tree returns exactly the
specification root-to-leaf depth. -/
lemma findMaxDepthOne_eq (t : TreeParameters) (hwf : WF t) :
    findMaxDepthOne t = some ((treeDepth t : Nat) : Int) := by
  obtain ⟨m2, ls2, rs2, hbuild, hdone⟩ := buildDepthNodes_done t hwf
  have hch := child_bounds_of_wf hwf
  have hleaf := hwf.2.2.2.2.2.1
  have hpos := hwf.2.2.2.2.1
  simp only [findMaxDepthOne, hbuild]
  have heq := findDepth_eq t.lefts t.rights m2 hch hleaf hdone (t.lefts.length + 1) 0 (-1)
    hpos (by omega)
  have hz : (((0 : Nat)) : Int) = 0 := rfl
  rw [hz] at heq
  rw [heq]
  rw [treeDepth]
  congr 1
  have : t.lefts.length - 0 = t.lefts.length := by omega
  rw [this]
  omega

/-- Specification maximum depth over an ensemble: running maximum from zero. -/
def specMaxDepth (ts : List TreeParameters) : Nat :=
  ts.foldl (fun a t => max a (treeDepth t)) 0

lemma findMaxDepth_aux (ts : List TreeParameters) (h : ∀ t ∈ ts, WF t) :
    ∀ acc : Nat,
      ts.foldl (fun acc t =>
        match acc, findMaxDepthOne t with
        | some d, some d2 => some (max d d2)
        | _, _ => none) (some ((acc : Nat) : Int)) =
      some (((ts.foldl (fun a t => max a (treeDepth t)) acc : Nat)) : Int) := by
  induction ts with
  | nil => intro acc; rfl
  | cons t rest ih =>
    intro acc
    have hwt : WF t := h t (List.mem_cons_self t rest)
    have hrest : ∀ u ∈ rest, WF u := fun u hu => h u (List.mem_cons_of_mem t hu)
    rw [List.foldl_cons, List.foldl_cons]
    rw [findMaxDepthOne_eq t hwt]
    have hmax : (match (some ((acc : Nat) : Int)), (some ((treeDepth t : Nat) : Int)) with
        | some d, some d2 => some (max d d2)
        | _, _ => none) = some (((max acc (treeDepth t) : Nat)) : Int) := by
      simp [Nat.cast_max]
    rw [hmax]
    exact ih hrest (max acc (treeDepth t))

/-- _find_max_depth over a well-formed ensemble computes the specification maximum. -/
lemma findMaxDepth_eq (ts : List TreeParameters) (h : ∀ t ∈ ts, WF t) :
    findMaxDepth ts = some ((specMaxDepth ts : Nat) : Int) := by
  have := findMaxDepth_aux ts h 0
  simpa [findMaxDepth, specMaxDepth] using this

end TreeCommons

namespace TreeCommons

/-- A perfect binary tree of height h in heap layout: 2 to the h minus 1 internal
nodes 0 .. 2^h-2 with children 2i+1 and 2i+2, followed by 2^h leaves; split features
and thresholds all zero, unit leaf values. -/
def perfectTree (h : Nat) : TreeParameters :=
  ⟨(List.range (2 ^ h - 1)).map (fun i : Nat => (2 * i + 1 : Int)) ++
     List.replicate (2 ^ h) (-1),
   (List.range (2 ^ h - 1)).map (fun i : Nat => (2 * i + 2 : Int)) ++
     List.replicate (2 ^ h) (-1),
   List.replicate (2 ^ h - 1 + 2 ^ h) 0,
   List.replicate (2 ^ h - 1 + 2 ^ h) 0,
   List.replicate (2 ^ h - 1 + 2 ^ h) [0]⟩

lemma perfect_length (h : Nat) :
    (perfectTree h).lefts.length = 2 ^ h - 1 + 2 ^ h := by
  show ((List.range (2 ^ h - 1)).map (fun i : Nat => (2 * i + 1 : Int)) ++
     List.replicate (2 ^ h) (-1)).length = 2 ^ h - 1 + 2 ^ h
  rw [List.length_append, List.length_map, List.length_range, List.length_replicate]

lemma perfect_lefts_getD (h i : Nat) (hi : i < 2 ^ h - 1) :
    (perfectTree h).lefts.getD i (-1) = (2 * i + 1 : Int) := by
  have hlen : ((List.range (2 ^ h - 1)).map (fun k : Nat => (2 * k + 1 : Int))).length =
      2 ^ h - 1 := by
    rw [List.length_map, List.length_range]
  show ((List.range (2 ^ h - 1)).map (fun k : Nat => (2 * k + 1 : Int)) ++
      List.replicate (2 ^ h) (-1)).getD i (-1) = (2 * i + 1 : Int)
  rw [List.getD_eq_getElem?_getD, List.getElem?_append, if_pos (by rw [hlen]; exact hi)]
  rw [List.getElem?_map, List.getElem?_range hi]
  rfl

lemma perfect_rights_getD (h i : Nat) (hi : i < 2 ^ h - 1) :
    (perfectTree h).rights.getD i (-1) = (2 * i + 2 : Int) := by
  have hlen : ((List.range (2 ^ h - 1)).map (fun k : Nat => (2 * k + 2 : Int))).length =
      2 ^ h - 1 := by
    rw [List.length_map, List.length_range]
  show ((List.range (2 ^ h - 1)).map (fun k : Nat => (2 * k + 2 : Int)) ++
      List.replicate (2 ^ h) (-1)).getD i (-1) = (2 * i + 2 : Int)
  rw [List.getD_eq_getElem?_getD, List.getElem?_append, if_pos (by rw [hlen]; exact hi)]
  rw [List.getElem?_map, List.getElem?_range hi]
  rfl

lemma perfect_lefts_getD_leaf (h i : Nat) (hi : 2 ^ h - 1 ≤ i) :
    (perfectTree h).lefts.getD i (-1) = -1 := by
  have hlen : ((List.range (2 ^ h - 1)).map (fun k : Nat => (2 * k + 1 : Int))).length =
      2 ^ h - 1 := by
    rw [List.length_map, List.length_range]
  show ((List.range (2 ^ h - 1)).map (fun k : Nat => (2 * k + 1 : Int)) ++
      List.replicate (2 ^ h) (-1)).getD i (-1) = -1
  rw [List.getD_eq_getElem?_getD, List.getElem?_append_right (by rw [hlen]; exact hi)]
  rw [List.getElem?_replicate]
  split
  · rfl
  · rfl

lemma perfect_rights_getD_leaf (h i : Nat) (hi : 2 ^ h - 1 ≤ i) :
    (perfectTree h).rights.getD i (-1) = -1 := by
  have hlen : ((List.range (2 ^ h - 1)).map (fun k : Nat => (2 * k + 2 : Int))).length =
      2 ^ h - 1 := by
    rw [List.length_map, List.length_range]
  show ((List.range (2 ^ h - 1)).map (fun k : Nat => (2 * k + 2 : Int)) ++
      List.replicate (2 ^ h) (-1)).getD i (-1) = -1
  rw [List.getD_eq_getElem?_getD, List.getElem?_append_right (by rw [hlen]; exact hi)]
  rw [List.getElem?_replicate]
  split
  · rfl
  · rfl

lemma perfect_depth_aux (h : Nat) :
    ∀ k l i fuel, l + k = h → 2 ^ l ≤ i + 1 → i + 1 < 2 ^ (l + 1) → k < fuel →
      treeDepthFrom (perfectTree h).lefts (perfectTree h).rights fuel i = k := by
  intro k
  induction k with
  | zero =>
    intro l i fuel hl hlo hhi hf
    cases fuel with
    | zero => omega
    | succ fuel =>
      have hlh : l = h := by omega
      subst hlh
      have hil : 2 ^ l - 1 ≤ i := by omega
      rw [treeDepthFrom, if_pos (perfect_lefts_getD_leaf l i hil)]
  | succ k ih =>
    intro l i fuel hl hlo hhi hf
    cases fuel with
    | zero => omega
    | succ fuel =>
      have hpow : 2 ^ (l + 1) ≤ 2 ^ h := Nat.pow_le_pow_right (by norm_num) (by omega)
      have hpow1 : 2 ^ (l + 1) = 2 * 2 ^ l := by ring
      have hpow2 : 2 ^ (l + 1 + 1) = 2 * 2 ^ (l + 1) := by ring
      have him : i < 2 ^ h - 1 := by omega
      rw [treeDepthFrom, if_neg (by rw [perfect_lefts_getD h i him]; omega)]
      rw [perfect_lefts_getD h i him, perfect_rights_getD h i him]
      have htl : ((2 * (i : Int) + 1)).toNat = 2 * i + 1 := by omega
      have htr : ((2 * (i : Int) + 2)).toNat = 2 * i + 2 := by omega
      rw [htl, htr]
      rw [ih (l + 1) (2 * i + 1) fuel (by omega) (by omega) (by omega) (by omega)]
      rw [ih (l + 1) (2 * i + 2) fuel (by omega) (by omega) (by omega) (by omega)]
      omega

lemma perfect_treeDepth (h : Nat) : treeDepth (perfectTree h) = h := by
  have hfuel : h < 2 ^ h - 1 + 2 ^ h := by
    have := Nat.lt_two_pow (h + 1)
    have h2 : 2 ^ (h + 1) = 2 * 2 ^ h := by ring
    have h3 : 0 < 2 ^ h := pow_pos (by norm_num) h
    omega
  rw [treeDepth, perfect_length]
  exact perfect_depth_aux h h 0 0 _ (by omega) (by simp) (by norm_num) hfuel

end TreeCommons

namespace TreeCommons

lemma count_map_range_eq_one (m j : Nat) (f : Nat → Int) (hinj : ∀ x y, f x = f y → x = y)
    (a : Nat) (ha : a < m) (he : f a = (j : Int)) :
    List.count ((j : Nat) : Int) ((List.range m).map f) = 1 := by
  apply List.count_eq_one_of_mem
  · exact List.Nodup.map (fun x y hxy => hinj x y hxy) (List.nodup_range m)
  · rw [List.mem_map]
    exact ⟨a, List.mem_range.mpr ha, he⟩

lemma count_map_range_eq_zero (m j : Nat) (f : Nat → Int)
    (hne : ∀ a, a < m → f a ≠ (j : Int)) :
    List.count ((j : Nat) : Int) ((List.range m).map f) = 0 := by
  apply List.count_eq_zero_of_not_mem
  rw [List.mem_map]
  rintro ⟨a, hmem, he⟩
  exact hne a (List.mem_range.mp hmem) he

lemma count_replicate_neg (c j : Nat) (hj : 0 < j) :
    List.count ((j : Nat) : Int) (List.replicate c (-1)) = 0 := by
  apply List.count_eq_zero_of_not_mem
  intro hmem
  have := (List.mem_replicate.mp hmem).2
  omega

lemma perfect_rights_length (h : Nat) :
    (perfectTree h).rights.length = 2 ^ h - 1 + 2 ^ h := by
  show ((List.range (2 ^ h - 1)).map (fun i : Nat => (2 * i + 2 : Int)) ++
     List.replicate (2 ^ h) (-1)).length = 2 ^ h - 1 + 2 ^ h
  rw [List.length_append, List.length_map, List.length_range, List.length_replicate]

lemma perfect_wf (h : Nat) : WF (perfectTree h) := by
  have hp : 0 < 2 ^ h := pow_pos (by norm_num) h
  have hlen := perfect_length h
  have hrlen := perfect_rights_length h
  refine ⟨by rw [hlen, hrlen], ?_, ?_, ?_, by rw [hlen]; omega, ?_, ?_, ?_⟩
  · show (List.replicate (2 ^ h - 1 + 2 ^ h) (0 : Int)).length = _
    rw [List.length_replicate, hlen]
  · show (List.replicate (2 ^ h - 1 + 2 ^ h) (0 : Rat)).length = _
    rw [List.length_replicate, hlen]
  · show (List.replicate (2 ^ h - 1 + 2 ^ h) ([0] : List Rat)).length = _
    rw [List.length_replicate, hlen]
  · intro i hi
    rcases lt_or_ge i (2 ^ h - 1) with him | him
    · rw [perfect_lefts_getD h i him, perfect_rights_getD h i him]
      constructor
      · intro hc; omega
      · intro hc; omega
    · rw [perfect_lefts_getD_leaf h i him, perfect_rights_getD_leaf h i him]
  · intro i hi hne
    rcases lt_or_ge i (2 ^ h - 1) with him | him
    · rw [perfect_lefts_getD h i him, perfect_rights_getD h i him]
      rw [hlen] at hi ⊢
      refine ⟨⟨by omega, by omega⟩, ⟨by omega, by omega⟩, ?_⟩
      show 0 ≤ (List.replicate (2 ^ h - 1 + 2 ^ h) (0 : Int)).getD i 0
      rw [List.getD_eq_getElem?_getD, List.getElem?_replicate]
      split
      · norm_num
      · norm_num
    · exact absurd (perfect_lefts_getD_leaf h i him) hne
  · intro j hj hjn
    rw [hlen] at hjn
    show List.count ((j : Nat) : Int)
      (((List.range (2 ^ h - 1)).map (fun i : Nat => (2 * i + 1 : Int)) ++
        List.replicate (2 ^ h) (-1)) ++
       ((List.range (2 ^ h - 1)).map (fun i : Nat => (2 * i + 2 : Int)) ++
        List.replicate (2 ^ h) (-1))) = 1
    rw [List.count_append, List.count_append, List.count_append]
    rw [count_replicate_neg _ j hj]
    rcases Nat.even_or_odd j with ⟨a, hae⟩ | ⟨a, hao⟩
    · rw [count_map_range_eq_zero _ j _ (fun b hb hc => by omega)]
      rw [count_map_range_eq_one _ j _ (fun x y hxy => by omega) (a - 1) (by omega)
        (by omega)]
    · rw [count_map_range_eq_one _ j _ (fun x y hxy => by omega) a (by omega) (by omega)]
      rw [count_map_range_eq_zero _ j _ (fun b hb hc => by omega)]

end TreeCommons

namespace TreeCommons

/-- A tree that is a single leaf yields depth 0 from _find_max_depth regardless of the
remaining attribute arrays. -/
lemma findMaxDepthOne_single (t : TreeParameters) (hl : t.lefts = [-1])
    (hr : t.rights = [-1]) : findMaxDepthOne t = some 0 := by
  rw [findMaxDepthOne, hl, hr]
  decide

lemma findMaxDepth_single (ts : List TreeParameters)
    (h : ∀ t ∈ ts, t.lefts = [-1] ∧ t.rights = [-1]) : findMaxDepth ts = some 0 := by
  rw [findMaxDepth]
  have aux : ∀ us : List TreeParameters, (∀ t ∈ us, t.lefts = [-1] ∧ t.rights = [-1]) →
      ∀ acc : Int, 0 ≤ acc →
      us.foldl (fun acc t =>
        match acc, findMaxDepthOne t with
        | some d, some d2 => some (max d d2)
        | _, _ => none) (some acc) = some acc := by
    intro us
    induction us with
    | nil => intro _ acc _; rfl
    | cons u rest ih =>
      intro hu acc hacc
      rw [List.foldl_cons]
      obtain ⟨hul, hur⟩ := hu u (List.mem_cons_self u rest)
      rw [findMaxDepthOne_single u hul hur]
      have hmax : (match (some acc), (some (0 : Int)) with
          | some d, some d2 => some (max d d2)
          | _, _ => none) = some acc := by
        simp
        omega
      rw [hmax]
      exact ih (fun v hv => hu v (List.mem_cons_of_mem u hv)) acc hacc
  exact aux ts h 0 le_rfl

/-- The strategy selector with no explicit configuration always succeeds. -/
lemma selector_none_ok (d : Int) :
    ∃ ty, get_tree_implementation_by_config_or_depth none (some d) 3 10 = Except.ok ty := by
  rw [get_tree_implementation_by_config_or_depth]
  split
  · exact ⟨_, rfl⟩
  · split
    · exact ⟨_, rfl⟩
    · exact ⟨_, rfl⟩

/-- C5: the depth reported by get_tree_params_and_type is the maximum over the
ensemble of the specification root-to-leaf depth, floored at 1; on a balanced binary
tree of height h at least 1 (2 to the h minus 1 internal nodes) the reported depth is
exactly h; on an ensemble of single-leaf trees it is 1. -/
theorem ensemble_depth_reported :
    (∀ ts : List TreeParameters, (∀ t ∈ ts, WF t) →
      ∃ ty, get_tree_params_and_type ts none =
        some (ts, max 1 ((specMaxDepth ts : Nat) : Int), ty)) ∧
    (∀ h : Nat, 1 ≤ h →
      treeDepth (perfectTree h) = h ∧
      ∃ ty, get_tree_params_and_type [perfectTree h] none =
        some ([perfectTree h], (h : Int), ty)) ∧
    (∀ ts : List TreeParameters, (∀ t ∈ ts, t.lefts = [-1] ∧ t.rights = [-1]) →
      ∃ ty, get_tree_params_and_type ts none = some (ts, 1, ty)) := by
  have main : ∀ ts : List TreeParameters,
      findMaxDepth ts = some (((specMaxDepth ts : Nat)) : Int) →
      ∃ ty, get_tree_params_and_type ts none =
        some (ts, max 1 ((specMaxDepth ts : Nat) : Int), ty) := by
    intro ts hmd
    obtain ⟨ty, hty⟩ := selector_none_ok (max 1 ((specMaxDepth ts : Nat) : Int))
    refine ⟨ty, ?_⟩
    rw [get_tree_params_and_type, hmd]
    simp only [hty]
  refine ⟨fun ts h => main ts (findMaxDepth_eq ts h), fun h hh => ?_, fun ts h => ?_⟩
  · refine ⟨perfect_treeDepth h, ?_⟩
    have hspec : specMaxDepth [perfectTree h] = h := by
      rw [specMaxDepth, List.foldl_cons, List.foldl_nil, perfect_treeDepth]
      omega
    have hmain := main [perfectTree h] (findMaxDepth_eq [perfectTree h] (by
      intro t ht
      rw [List.mem_singleton] at ht
      rw [ht]
      exact perfect_wf h))
    obtain ⟨ty, hty⟩ := hmain
    refine ⟨ty, ?_⟩
    rw [hty, hspec]
    have hmax : (1 : Int) ⊔ ((h : Nat) : Int) = ((h : Nat) : Int) := by omega
    rw [hmax]
  · obtain ⟨ty, hty⟩ := selector_none_ok 1
    refine ⟨ty, ?_⟩
    rw [get_tree_params_and_type, findMaxDepth_single ts h]
    simp only [show max (1 : Int) 0 = 1 by omega, hty]

/-- C5 witness: a perfect tree of height 2 as a one-tree ensemble, and a single-leaf
ensemble, evaluated concretely. -/
theorem ensemble_depth_reported_witness :
    (∃ ty, get_tree_params_and_type [perfectTree 2] none =
      some ([perfectTree 2], (2 : Int), ty)) ∧
    (∃ ty, get_tree_params_and_type [⟨[-1], [-1], [0], [0], [[0]]⟩] none =
      some ([⟨[-1], [-1], [0], [0], [[0]]⟩], 1, ty)) :=
  ⟨(ensemble_depth_reported.2.1 2 (by norm_num)).2,
   ensemble_depth_reported.2.2 [⟨[-1], [-1], [0], [0], [[0]]⟩]
     (by
       intro t ht
       rw [List.mem_singleton] at ht
       rw [ht]
       exact ⟨rfl, rfl⟩)⟩

end TreeCommons

namespace TreeCommons

/-- The single-leaf correction block, textually identical at the top of both
get_parameters_for_tree_trav_common and get_parameters_for_gemm_common: a one-node
tree is replaced by an internal root splitting on feature 0 at threshold 0 whose two
leaf children carry the original leaf value (Python reads values[0], which assumes the
values array is non-empty on this path; the model reads a default for an empty list,
a corner no theorem relies on). -/
def correct_single_leaf (t : TreeParameters) : TreeParameters :=
  if t.lefts.length = 1 then
    ⟨[1, -1, -1], [2, -1, -1], [0, 0, 0], [0, 0, 0],
     [[0], t.values.getD 0 [], t.values.getD 0 []]⟩
  else t

/-- The state mutated by the loop of get_parameters_for_tree_trav_common. -/
structure TravState where
  map : NodeMap
  lefts : List Int
  rights : List Int

/-- One iteration of the tree_trav loop.  The local variable feature is rewritten to
-1 when either child is absent, and that local is stored in the node object; the
features list itself is never written back.  All five fields of the node object are
assigned, so the updated record is written out in full (the lookup that Python
performs before the field assignments is kept, since a missing key raises). -/
def travStep (st : Option TravState) (entry : Nat × Int × Int × Int × Rat × List Rat) :
    Option TravState :=
  match st with
  | none => none
  | some s =>
    let (id, left, right, feature, threshold, value) := entry
    let m1 := if left ≠ -1 then mapSet s.map left PNode.blank else s.map
    let ls1 := if left ≠ -1 then s.lefts else s.lefts.set id (id : Int)
    let feat1 := if left ≠ -1 then feature else -1
    let m2 := if right ≠ -1 then mapSet m1 right PNode.blank else m1
    let rs1 := if right ≠ -1 then s.rights else s.rights.set id (id : Int)
    let feat2 := if right ≠ -1 then feat1 else -1
    match m2 (id : Int) with
    | none => none
    | some _ =>
      some ⟨mapSet m2 (id : Int)
        ⟨some left, some right, some feat2, some threshold, some value⟩, ls1, rs1⟩

def travBuildLoop (entries : List (Nat × Int × Int × Int × Rat × List Rat))
    (st : Option TravState) : Option TravState :=
  match entries with
  | [] => st
  | e :: rest => travBuildLoop rest (travStep st e)

/-- The value returned by get_parameters_for_tree_trav_common: the node dictionary,
the id list, the two mutated child arrays, and the feature, threshold and value arrays
passed through. -/
structure TravResult where
  nodes_map : NodeMap
  ids : List Nat
  lefts : List Int
  rights : List Int
  features : List Int
  thresholds : List Rat
  values : List (List Rat)

/-- get_parameters_for_tree_trav_common.  The zip snapshot is taken before the loop,
so in-loop mutation of the child arrays does not feed the iteration; the feature,
threshold and value arrays are returned exactly as received (after the single-leaf
correction). -/
def get_parameters_for_tree_trav_common (t0 : TreeParameters) : Option TravResult :=
  let t := correct_single_leaf t0
  let ids := List.range t.lefts.length
  let nodes := ids.zip (t.lefts.zip (t.rights.zip (t.features.zip (t.thresholds.zip t.values))))
  match travBuildLoop nodes (some ⟨mapSet mapEmpty 0 PNode.blank, t.lefts, t.rights⟩) with
  | none => none
  | some s => some ⟨s.map, ids, s.lefts, s.rights, t.features, t.thresholds, t.values⟩

/-- The node stored for index k by the tree_trav loop on length-consistent input. -/
def travDoneNode (t : TreeParameters) (k : Nat) : PNode :=
  ⟨some (t.lefts.getD k (-1)), some (t.rights.getD k (-1)),
   some (if t.lefts.getD k (-1) = -1 ∨ t.rights.getD k (-1) = -1 then -1
         else t.features.getD k (-1)),
   some (t.thresholds.getD k 0), some (t.values.getD k [])⟩

lemma getD_set_self {α : Type} (l : List α) (i : Nat) (a d : α) (hi : i < l.length) :
    (l.set i a).getD i d = a := by
  rw [List.getD_eq_getElem?_getD, List.getElem?_set_self hi]
  rfl

lemma getD_set_ne {α : Type} (l : List α) (i k : Nat) (a d : α) (h : i ≠ k) :
    (l.set i a).getD k d = l.getD k d := by
  rw [List.getD_eq_getElem?_getD, List.getElem?_set_ne h, ← List.getD_eq_getElem?_getD]

end TreeCommons

namespace TreeCommons

lemma entries6_drop (t : TreeParameters) (hr : t.rights.length = t.lefts.length)
    (hf : t.features.length = t.lefts.length) (hth : t.thresholds.length = t.lefts.length)
    (hv : t.values.length = t.lefts.length) (i : Nat) (hi : i < t.lefts.length) :
    (((List.range t.lefts.length).zip (t.lefts.zip (t.rights.zip (t.features.zip
        (t.thresholds.zip t.values))))).drop i) =
      (i, t.lefts.getD i (-1), t.rights.getD i (-1), t.features.getD i (-1),
        t.thresholds.getD i 0, t.values.getD i []) ::
      (((List.range t.lefts.length).zip (t.lefts.zip (t.rights.zip (t.features.zip
        (t.thresholds.zip t.values))))).drop (i + 1)) := by
  have hzlen : ((List.range t.lefts.length).zip (t.lefts.zip (t.rights.zip (t.features.zip
      (t.thresholds.zip t.values))))).length = t.lefts.length := by
    simp [List.length_zip, hr, hf, hth, hv]
  rw [List.drop_eq_getElem_cons (by omega)]
  congr 1
  rw [List.getElem_zip, List.getElem_zip, List.getElem_zip, List.getElem_zip, List.getElem_zip]
  simp [List.getElem_range, List.getD_eq_getElem, hi, hr, hf, hth, hv]

lemma travStep_eq_leaf (s : TravState) (id : Nat) (L R F : Int) (T : Rat) (V : List Rat)
    (hL : L = -1) (hR : R = -1) (nd : PNode) (hm : s.map (id : Int) = some nd) :
    travStep (some s) (id, L, R, F, T, V) =
      some ⟨mapSet s.map (id : Int) ⟨some L, some R, some (-1), some T, some V⟩,
        s.lefts.set id (id : Int), s.rights.set id (id : Int)⟩ := by
  subst hL
  subst hR
  simp [travStep, hm]

lemma travStep_eq_internal (s : TravState) (id : Nat) (L R F : Int) (T : Rat) (V : List Rat)
    (hL : L ≠ -1) (hR : R ≠ -1) (hidL : (id : Int) ≠ L) (hidR : (id : Int) ≠ R)
    (nd : PNode) (hm : s.map (id : Int) = some nd) :
    travStep (some s) (id, L, R, F, T, V) =
      some ⟨mapSet (mapSet (mapSet s.map L PNode.blank) R PNode.blank) (id : Int)
        ⟨some L, some R, some F, some T, some V⟩, s.lefts, s.rights⟩ := by
  simp only [travStep, if_pos hL, if_pos hR]
  rw [mapSet_ne _ _ _ _ hidR, mapSet_ne _ _ _ _ hidL, hm]

end TreeCommons

namespace TreeCommons

/-- Loop invariant of get_parameters_for_tree_trav_common: after the remaining entries
are processed, the dictionary holds the fully assigned node for every id, and the two
child arrays are the originals with every absent-child slot rewritten to the node's
own id. -/
lemma travBuildLoop_inv (t : TreeParameters) (hwf : WF t) :
    ∀ rem i (m : NodeMap) (ls rs : List Int), i + rem = t.lefts.length →
      (∀ k : Nat, k < i → m (k : Int) = some (travDoneNode t k)) →
      (∀ k : Nat, i ≤ k → k < t.lefts.length →
        (k = 0 ∨ ∃ p : Nat, p < i ∧
          (t.lefts.getD p (-1) = (k : Int) ∨ t.rights.getD p (-1) = (k : Int))) →
        m (k : Int) = some PNode.blank) →
      ls.length = t.lefts.length → rs.length = t.lefts.length →
      (∀ k : Nat, k < t.lefts.length → ls.getD k (-1) =
        (if k < i ∧ t.lefts.getD k (-1) = -1 then (k : Int) else t.lefts.getD k (-1))) →
      (∀ k : Nat, k < t.lefts.length → rs.getD k (-1) =
        (if k < i ∧ t.rights.getD k (-1) = -1 then (k : Int) else t.rights.getD k (-1))) →
      ∃ s : TravState,
        travBuildLoop ((((List.range t.lefts.length).zip (t.lefts.zip (t.rights.zip
          (t.features.zip (t.thresholds.zip t.values)))))).drop i) (some ⟨m, ls, rs⟩) =
          some s ∧
        (∀ k : Nat, k < t.lefts.length → s.map (k : Int) = some (travDoneNode t k)) ∧
        s.lefts.length = t.lefts.length ∧ s.rights.length = t.lefts.length ∧
        (∀ k : Nat, k < t.lefts.length → s.lefts.getD k (-1) =
          (if t.lefts.getD k (-1) = -1 then (k : Int) else t.lefts.getD k (-1))) ∧
        (∀ k : Nat, k < t.lefts.length → s.rights.getD k (-1) =
          (if t.rights.getD k (-1) = -1 then (k : Int) else t.rights.getD k (-1))) := by
  have hr : t.rights.length = t.lefts.length := hwf.1
  have hf : t.features.length = t.lefts.length := hwf.2.1
  have hth : t.thresholds.length = t.lefts.length := hwf.2.2.1
  have hv : t.values.length = t.lefts.length := hwf.2.2.2.1
  have hleaf := hwf.2.2.2.2.2.1
  have hch := child_bounds_of_wf hwf
  have hpar := fun j hj hjn => parent_exists_of_wf hwf j hj hjn
  intro rem
  induction rem with
  | zero =>
    intro i m ls rs hin h1 h2 hlsl hrsl hlsc hrsc
    have hi : i = t.lefts.length := by omega
    subst hi
    have hnil : ((((List.range t.lefts.length).zip (t.lefts.zip (t.rights.zip
        (t.features.zip (t.thresholds.zip t.values)))))).drop t.lefts.length) = [] := by
      apply List.drop_eq_nil_of_le
      simp [List.length_zip, hr, hf, hth, hv]
    rw [hnil]
    refine ⟨⟨m, ls, rs⟩, rfl, fun k hk => h1 k hk, hlsl, hrsl, ?_, ?_⟩
    · intro k hk
      rw [hlsc k hk]
      by_cases hc : t.lefts.getD k (-1) = -1
      · rw [if_pos ⟨hk, hc⟩, if_pos hc]
      · rw [if_neg (by tauto), if_neg hc]
    · intro k hk
      rw [hrsc k hk]
      by_cases hc : t.rights.getD k (-1) = -1
      · rw [if_pos ⟨hk, hc⟩, if_pos hc]
      · rw [if_neg (by tauto), if_neg hc]
  | succ rem ih =>
    intro i m ls rs hin h1 h2 hlsl hrsl hlsc hrsc
    have hi : i < t.lefts.length := by omega
    rw [entries6_drop t hr hf hth hv i hi]
    have hcondi : i = 0 ∨ ∃ p : Nat, p < i ∧
        (t.lefts.getD p (-1) = (i : Int) ∨ t.rights.getD p (-1) = (i : Int)) := by
      rcases Nat.eq_zero_or_pos i with h0 | h0
      · exact Or.inl h0
      · obtain ⟨p, hp1, _, hp3⟩ := hpar i h0 hi
        exact Or.inr ⟨p, hp1, hp3⟩
    have hmi : m (i : Int) = some PNode.blank := h2 i le_rfl hi hcondi
    by_cases hL : t.lefts.getD i (-1) = -1
    · have hRR : t.rights.getD i (-1) = -1 := (hleaf i hi).1 hL
      rw [travBuildLoop, travStep_eq_leaf ⟨m, ls, rs⟩ i _ _ _ _ _ hL hRR PNode.blank hmi]
      have hdn : (⟨some (t.lefts.getD i (-1)), some (t.rights.getD i (-1)), some (-1),
          some (t.thresholds.getD i 0), some (t.values.getD i [])⟩ : PNode) =
          travDoneNode t i := by
        rw [travDoneNode, if_pos (Or.inl hL)]
      have hres := ih (i + 1) (mapSet m (i : Int) ⟨some (t.lefts.getD i (-1)),
          some (t.rights.getD i (-1)), some (-1), some (t.thresholds.getD i 0),
          some (t.values.getD i [])⟩) (ls.set i (i : Int)) (rs.set i (i : Int))
        (by omega)
        (by
          intro k hk
          rcases Nat.lt_succ_iff_lt_or_eq.mp hk with hk' | hk'
          · rw [mapSet_ne _ _ _ _ (by exact_mod_cast Nat.ne_of_lt hk')]
            exact h1 k hk'
          · subst hk'
            rw [mapSet_self, hdn]
        )
        (by
          intro k hk1 hk2 hcond
          have hki : (k : Int) ≠ (i : Int) := by exact_mod_cast Nat.ne_of_gt hk1
          rw [mapSet_ne _ _ _ _ hki]
          apply h2 k (by omega) hk2
          rcases hcond with h0 | ⟨p, hp1, hp3⟩
          · exact Or.inl h0
          · rcases Nat.lt_succ_iff_lt_or_eq.mp hp1 with hp' | hp'
            · exact Or.inr ⟨p, hp', hp3⟩
            · subst hp'
              rcases hp3 with hcc | hcc
              · rw [hL] at hcc
                omega
              · rw [hRR] at hcc
                omega)
        (by rw [List.length_set]; exact hlsl)
        (by rw [List.length_set]; exact hrsl)
        (by
          intro k hk
          by_cases hki : k = i
          · subst hki
            rw [getD_set_self _ _ _ _ (by omega), if_pos ⟨by omega, hL⟩]
          · rw [getD_set_ne _ _ _ _ _ (fun hc => hki hc.symm), hlsc k hk]
            by_cases hc : k < i ∧ t.lefts.getD k (-1) = -1
            · rw [if_pos hc, if_pos ⟨by omega, hc.2⟩]
            · rw [if_neg hc, if_neg (by
                rintro ⟨hk1, hk2⟩
                exact hc ⟨by omega, hk2⟩)])
        (by
          intro k hk
          by_cases hki : k = i
          · subst hki
            rw [getD_set_self _ _ _ _ (by omega), if_pos ⟨by omega, hRR⟩]
          · rw [getD_set_ne _ _ _ _ _ (fun hc => hki hc.symm), hrsc k hk]
            by_cases hc : k < i ∧ t.rights.getD k (-1) = -1
            · rw [if_pos hc, if_pos ⟨by omega, hc.2⟩]
            · rw [if_neg hc, if_neg (by
                rintro ⟨hk1, hk2⟩
                exact hc ⟨by omega, hk2⟩)])
      exact hres
    · have hRR : t.rights.getD i (-1) ≠ -1 := fun hc => hL ((hleaf i hi).2 hc)
      obtain ⟨⟨hL1, hL2⟩, hR1, hR2⟩ := hch i hi hL
      have hiL : (i : Int) ≠ t.lefts.getD i (-1) := by omega
      have hiR : (i : Int) ≠ t.rights.getD i (-1) := by omega
      rw [travBuildLoop,
        travStep_eq_internal ⟨m, ls, rs⟩ i _ _ _ _ _ hL hRR hiL hiR PNode.blank hmi]
      have hdn : (⟨some (t.lefts.getD i (-1)), some (t.rights.getD i (-1)),
          some (t.features.getD i (-1)), some (t.thresholds.getD i 0),
          some (t.values.getD i [])⟩ : PNode) = travDoneNode t i := by
        rw [travDoneNode, if_neg (by tauto)]
      have hres := ih (i + 1)
        (mapSet (mapSet (mapSet m (t.lefts.getD i (-1)) PNode.blank)
          (t.rights.getD i (-1)) PNode.blank) (i : Int)
          ⟨some (t.lefts.getD i (-1)), some (t.rights.getD i (-1)),
            some (t.features.getD i (-1)), some (t.thresholds.getD i 0),
            some (t.values.getD i [])⟩) ls rs
        (by omega)
        (by
          intro k hk
          rcases Nat.lt_succ_iff_lt_or_eq.mp hk with hk' | hk'
          · have hkI : (k : Int) ≠ (i : Int) := by exact_mod_cast Nat.ne_of_lt hk'
            have hkL : (k : Int) ≠ t.lefts.getD i (-1) := by omega
            have hkR : (k : Int) ≠ t.rights.getD i (-1) := by omega
            rw [mapSet_ne _ _ _ _ hkI, mapSet_ne _ _ _ _ hkR, mapSet_ne _ _ _ _ hkL]
            exact h1 k hk'
          · subst hk'
            rw [mapSet_self, hdn])
        (by
          intro k hk1 hk2 hcond
          have hki : (k : Int) ≠ (i : Int) := by exact_mod_cast Nat.ne_of_gt hk1
          rw [mapSet_ne _ _ _ _ hki]
          by_cases hkR : (k : Int) = t.rights.getD i (-1)
          · rw [hkR]
            exact mapSet_self _ _ _
          · rw [mapSet_ne _ _ _ _ hkR]
            by_cases hkL : (k : Int) = t.lefts.getD i (-1)
            · rw [hkL]
              exact mapSet_self _ _ _
            · rw [mapSet_ne _ _ _ _ hkL]
              apply h2 k (by omega) hk2
              rcases hcond with h0 | ⟨p, hp1, hp3⟩
              · exact Or.inl h0
              · rcases Nat.lt_succ_iff_lt_or_eq.mp hp1 with hp' | hp'
                · exact Or.inr ⟨p, hp', hp3⟩
                · subst hp'
                  rcases hp3 with hcc | hcc
                  · exact absurd hcc.symm hkL
                  · exact absurd hcc.symm hkR)
        hlsl hrsl
        (by
          intro k hk
          rw [hlsc k hk]
          by_cases hki : k = i
          · subst hki
            rw [if_neg (by tauto), if_neg (by
              rintro ⟨_, hk2⟩
              exact hL hk2)]
          · by_cases hc : k < i ∧ t.lefts.getD k (-1) = -1
            · rw [if_pos hc, if_pos ⟨by omega, hc.2⟩]
            · rw [if_neg hc, if_neg (by
                rintro ⟨hk1, hk2⟩
                exact hc ⟨by omega, hk2⟩)])
        (by
          intro k hk
          rw [hrsc k hk]
          by_cases hki : k = i
          · subst hki
            rw [if_neg (by tauto), if_neg (by
              rintro ⟨_, hk2⟩
              exact hRR hk2)]
          · by_cases hc : k < i ∧ t.rights.getD k (-1) = -1
            · rw [if_pos hc, if_pos ⟨by omega, hc.2⟩]
            · rw [if_neg hc, if_neg (by
                rintro ⟨hk1, hk2⟩
                exact hc ⟨by omega, hk2⟩)])
      exact hres

end TreeCommons

namespace TreeCommons

lemma correct_single_leaf_of_ne (t : TreeParameters) (h : ¬ t.lefts.length = 1) :
    correct_single_leaf t = t := by
  rw [correct_single_leaf, if_neg h]

lemma corrected_wf_aux (vs : List (List Rat)) (hl : vs.length = 3) :
    WF ⟨[1, -1, -1], [2, -1, -1], [0, 0, 0], [0, 0, 0], vs⟩ := by
  refine ⟨rfl, rfl, rfl, by simpa using hl, by norm_num, ?_, ?_, ?_⟩
  · show ∀ i, i < ([1, -1, -1] : List Int).length →
      (([1, -1, -1] : List Int).getD i (-1) = -1 ↔ ([2, -1, -1] : List Int).getD i (-1) = -1)
    decide
  · show ∀ i, i < ([1, -1, -1] : List Int).length →
      ([1, -1, -1] : List Int).getD i (-1) ≠ -1 →
      (((i : Int) < ([1, -1, -1] : List Int).getD i (-1) ∧
        ([1, -1, -1] : List Int).getD i (-1) < (([1, -1, -1] : List Int).length : Int)) ∧
       ((i : Int) < ([2, -1, -1] : List Int).getD i (-1) ∧
        ([2, -1, -1] : List Int).getD i (-1) < (([1, -1, -1] : List Int).length : Int)) ∧
       0 ≤ ([0, 0, 0] : List Int).getD i 0)
    decide
  · show ∀ j, 0 < j → j < ([1, -1, -1] : List Int).length →
      (([1, -1, -1] : List Int) ++ [2, -1, -1]).count ((j : Nat) : Int) = 1
    intro j hj hjn
    have hj3 : j < 3 := by simpa using hjn
    interval_cases j
    · decide
    · decide

lemma correct_single_leaf_wf (t : TreeParameters) (hwf : WF t) :
    WF (correct_single_leaf t) := by
  rw [correct_single_leaf]
  split
  · exact corrected_wf_aux [[0], t.values.getD 0 [], t.values.getD 0 []] rfl
  · exact hwf

lemma correct_single_leaf_length_ne_one (t : TreeParameters) :
    t.lefts.length = 1 ∨ ¬ (correct_single_leaf t).lefts.length = 1 := by
  by_cases h : t.lefts.length = 1
  · exact Or.inl h
  · rw [correct_single_leaf_of_ne t h]
    exact Or.inr h

/-- With at least two nodes, unique ordered parenthood forces the root to be an
internal node. -/
lemma root_internal (t : TreeParameters) (hwf : WF t) (hn : t.lefts.length ≠ 1) :
    t.lefts.getD 0 (-1) ≠ -1 := by
  have hpos := hwf.2.2.2.2.1
  have hn2 : 2 ≤ t.lefts.length := by omega
  obtain ⟨p, hp1, hp2, hp3⟩ := parent_exists_of_wf hwf 1 (by omega) (by omega)
  have hp0 : p = 0 := by omega
  subst hp0
  intro hc
  have hleaf := hwf.2.2.2.2.2.1
  have hrc := (hleaf 0 (by omega)).1 hc
  rcases hp3 with h | h
  · rw [hc] at h
    omega
  · rw [hrc] at h
    omega

/-- Characterization of get_parameters_for_tree_trav_common on well-formed input:
the loop succeeds; the dictionary holds fully assigned nodes (leaves with feature -1);
the returned child arrays have absent slots rewritten to self-references; the feature,
threshold and value arrays are returned unchanged. -/
lemma tree_trav_common_spec (t : TreeParameters) (hwf : WF t) :
    ∃ r : TravResult, get_parameters_for_tree_trav_common t = some r ∧
      r.ids = List.range (correct_single_leaf t).lefts.length ∧
      (∀ k : Nat, k < (correct_single_leaf t).lefts.length →
        r.nodes_map (k : Int) = some (travDoneNode (correct_single_leaf t) k)) ∧
      r.lefts.length = (correct_single_leaf t).lefts.length ∧
      r.rights.length = (correct_single_leaf t).lefts.length ∧
      (∀ k : Nat, k < (correct_single_leaf t).lefts.length → r.lefts.getD k (-1) =
        (if (correct_single_leaf t).lefts.getD k (-1) = -1 then (k : Int)
         else (correct_single_leaf t).lefts.getD k (-1))) ∧
      (∀ k : Nat, k < (correct_single_leaf t).lefts.length → r.rights.getD k (-1) =
        (if (correct_single_leaf t).rights.getD k (-1) = -1 then (k : Int)
         else (correct_single_leaf t).rights.getD k (-1))) ∧
      r.features = (correct_single_leaf t).features ∧
      r.thresholds = (correct_single_leaf t).thresholds ∧
      r.values = (correct_single_leaf t).values := by
  have hwfc := correct_single_leaf_wf t hwf
  have hinv := travBuildLoop_inv (correct_single_leaf t) hwfc
    (correct_single_leaf t).lefts.length 0
    (mapSet mapEmpty 0 PNode.blank) (correct_single_leaf t).lefts
    (correct_single_leaf t).rights (by omega)
    (fun k hk => absurd hk (Nat.not_lt_zero k))
    (by
      intro k _ hk2 hcond
      rcases hcond with h0 | ⟨p, hp, _⟩
      · subst h0
        simp [mapSet]
      · omega)
    rfl hwfc.1
    (by
      intro k hk
      rw [if_neg (by rintro ⟨h1, _⟩; omega)])
    (by
      intro k hk
      rw [if_neg (by rintro ⟨h1, _⟩; omega)])
  rw [List.drop_zero] at hinv
  obtain ⟨s, hloop, hmap, hll, hrl, hlc, hrc⟩ := hinv
  refine ⟨⟨s.map, List.range (correct_single_leaf t).lefts.length, s.lefts, s.rights,
    (correct_single_leaf t).features, (correct_single_leaf t).thresholds,
    (correct_single_leaf t).values⟩, ?_, rfl, hmap, hll, hrl, hlc, hrc, rfl, rfl, rfl⟩
  rw [get_parameters_for_tree_trav_common]
  simp only [hloop]

end TreeCommons

namespace TreeCommons

/-- C9 counterexample: on the well-formed tree with lefts=[1,-1,-1], rights=[2,-1,-1]
and features=[0,5,7], get_parameters_for_tree_trav_common returns the feature array
unchanged: node 1 is a leaf (its returned child slots self-reference, no -1 remains)
yet the returned feature array holds 5 there, not the -1 sentinel the claim promises
(the loop assigns -1 only to a local variable stored in the node objects, never back
into the list). -/
theorem trav_features_not_rewritten :
    (get_parameters_for_tree_trav_common
        ⟨[1, -1, -1], [2, -1, -1], [0, 5, 7], [0, 0, 0], [[0], [1], [2]]⟩).map
      TravResult.features = some [0, 5, 7] ∧
    (get_parameters_for_tree_trav_common
        ⟨[1, -1, -1], [2, -1, -1], [0, 5, 7], [0, 0, 0], [[0], [1], [2]]⟩).map
      TravResult.lefts = some [1, 1, 2] ∧
    (get_parameters_for_tree_trav_common
        ⟨[1, -1, -1], [2, -1, -1], [0, 5, 7], [0, 0, 0], [[0], [1], [2]]⟩).map
      TravResult.rights = some [2, 1, 2] := by
  refine ⟨?_, ?_, ?_⟩ <;> rfl

/-- C9 amended: in the arrays returned by get_parameters_for_tree_trav_common on a
well-formed tree, every leaf id self-references in both child arrays and no -1 remains
in either child array; the -1 leaf sentinel for features survives only in the node
dictionary (every leaf node object carries feature -1), while the returned flattened
feature array is the input feature array unchanged. -/
theorem trav_arrays_amended (t : TreeParameters) (hwf : WF t) :
    ∃ r, get_parameters_for_tree_trav_common t = some r ∧
      (∀ k : Nat, k < (correct_single_leaf t).lefts.length →
        ((correct_single_leaf t).lefts.getD k (-1) = -1 →
          r.lefts.getD k (-1) = (k : Int) ∧ r.rights.getD k (-1) = (k : Int) ∧
          (∃ nd, r.nodes_map (k : Int) = some nd ∧ nd.feature = some (-1))) ∧
        r.lefts.getD k (-1) ≠ -1 ∧ r.rights.getD k (-1) ≠ -1) ∧
      r.features = (correct_single_leaf t).features := by
  obtain ⟨r, hr, hids, hmap, hll, hrl, hlc, hrc, hfe, hth, hv⟩ := tree_trav_common_spec t hwf
  have hwfc := correct_single_leaf_wf t hwf
  have hleafc := hwfc.2.2.2.2.2.1
  have hchc := child_bounds_of_wf hwfc
  have hne1 : ¬ (correct_single_leaf t).lefts.length = 1 := by
    rw [correct_single_leaf]
    split
    · norm_num
    · next hcond => exact hcond
  refine ⟨r, hr, ?_, hfe⟩
  intro k hk
  refine ⟨?_, ?_, ?_⟩
  · intro hleafk
    have hrleafk := (hleafc k hk).1 hleafk
    refine ⟨by rw [hlc k hk, if_pos hleafk], by rw [hrc k hk, if_pos hrleafk],
      travDoneNode (correct_single_leaf t) k, hmap k hk, ?_⟩
    rw [travDoneNode, if_pos (Or.inl hleafk)]
  · rw [hlc k hk]
    by_cases hleafk : (correct_single_leaf t).lefts.getD k (-1) = -1
    · rw [if_pos hleafk]
      rcases Nat.eq_zero_or_pos k with h0 | h0
      · subst h0
        exact absurd hleafk (root_internal (correct_single_leaf t) hwfc hne1)
      · omega
    · rw [if_neg hleafk]
      exact hleafk
  · rw [hrc k hk]
    by_cases hleafk : (correct_single_leaf t).rights.getD k (-1) = -1
    · rw [if_pos hleafk]
      rcases Nat.eq_zero_or_pos k with h0 | h0
      · subst h0
        have hlk : (correct_single_leaf t).lefts.getD 0 (-1) = -1 := (hleafc 0 hk).2 hleafk
        exact absurd hlk (root_internal (correct_single_leaf t) hwfc hne1)
      · omega
    · rw [if_neg hleafk]
      exact hleafk

/-- C9 amended witness: the amended statement evaluated on a concrete three-node
tree. -/
theorem trav_arrays_amended_witness :
    ∃ r, get_parameters_for_tree_trav_common
        ⟨[1, -1, -1], [2, -1, -1], [0, 0, 0], [0, 0, 0], [[0], [1], [2]]⟩ = some r ∧
      (∀ k : Nat, k < (correct_single_leaf
          ⟨[1, -1, -1], [2, -1, -1], [0, 0, 0], [0, 0, 0], [[0], [1], [2]]⟩).lefts.length →
        ((correct_single_leaf
            ⟨[1, -1, -1], [2, -1, -1], [0, 0, 0], [0, 0, 0],
              [[0], [1], [2]]⟩).lefts.getD k (-1) = -1 →
          r.lefts.getD k (-1) = (k : Int) ∧ r.rights.getD k (-1) = (k : Int) ∧
          (∃ nd, r.nodes_map (k : Int) = some nd ∧ nd.feature = some (-1))) ∧
        r.lefts.getD k (-1) ≠ -1 ∧ r.rights.getD k (-1) ≠ -1) ∧
      r.features = (correct_single_leaf
        ⟨[1, -1, -1], [2, -1, -1], [0, 0, 0], [0, 0, 0], [[0], [1], [2]]⟩).features :=
  trav_arrays_amended ⟨[1, -1, -1], [2, -1, -1], [0, 0, 0], [0, 0, 0], [[0], [1], [2]]⟩
    (by
      refine ⟨rfl, rfl, rfl, rfl, by norm_num, ?_, ?_, ?_⟩
      · show ∀ i, i < ([1, -1, -1] : List Int).length →
          (([1, -1, -1] : List Int).getD i (-1) = -1 ↔
           ([2, -1, -1] : List Int).getD i (-1) = -1)
        decide
      · show ∀ i, i < ([1, -1, -1] : List Int).length →
          ([1, -1, -1] : List Int).getD i (-1) ≠ -1 →
          (((i : Int) < ([1, -1, -1] : List Int).getD i (-1) ∧
            ([1, -1, -1] : List Int).getD i (-1) < (([1, -1, -1] : List Int).length : Int)) ∧
           ((i : Int) < ([2, -1, -1] : List Int).getD i (-1) ∧
            ([2, -1, -1] : List Int).getD i (-1) < (([1, -1, -1] : List Int).length : Int)) ∧
           0 ≤ ([0, 0, 0] : List Int).getD i 0)
        decide
      · show ∀ j, 0 < j → j < ([1, -1, -1] : List Int).length →
          (([1, -1, -1] : List Int) ++ [2, -1, -1]).count ((j : Nat) : Int) = 1
        intro j hj hjn
        have hj3 : j < 3 := by simpa using hjn
        interval_cases j
        · decide
        · decide)

end TreeCommons

namespace TreeCommons

/-- One-hot comparison row of the first GEMM layer. -/
def oneHot (n_features : Nat) (f : Int) : List Rat :=
  (List.range n_features).map (fun i : Nat => if (i : Int) = f then 1 else 0)

/-- Body of the layer-1 construction loop: append a one-hot row and a threshold when
the node is internal, skip leaves. -/
def layer1Step (n_features : Nat) (acc : List (List Rat) × List Rat)
    (p : Int × Int × Rat) : List (List Rat) × List Rat :=
  if p.1 ≠ -1 then (acc.1 ++ [oneHot n_features p.2.1], acc.2 ++ [p.2.2]) else acc

/-- Layer-1 construction loop of get_parameters_for_gemm_common: one one-hot row and
one threshold per internal node, in index order; zip truncates at the shortest of the
three arrays, and no length validation is performed. -/
def gemmLayer1 (lefts features : List Int) (thresholds : List Rat) (n_features : Nat) :
    List (List Rat) × List Rat :=
  (lefts.zip (features.zip thresholds)).foldl (layer1Step n_features) ([], [])

/-- The inner loop reconstructing one leaf's signed row from the node-id stack:
consecutive stack entries are classified by membership in the left or right child
arrays, the affected column is the node id minus the number of leaves before it, and
positive assignments are counted for the bias.  The RuntimeError (inconsistent state)
and an out-of-range write are both modelled by none. -/
def leafRowAux (lefts rights : List Int) :
    List Int → List Rat × Nat → Option (List Rat × Nat)
  | p :: nxt :: rest, (vec, num_positive) =>
    let num_leaves_before_p := (pyTake lefts p).count (-1)
    if nxt ∈ lefts then
      match pySet vec (p - (num_leaves_before_p : Int)) 1 with
      | none => none
      | some vec2 => leafRowAux lefts rights (nxt :: rest) (vec2, num_positive + 1)
    else if nxt ∈ rights then
      match pySet vec (p - (num_leaves_before_p : Int)) (-1) with
      | none => none
      | some vec2 => leafRowAux lefts rights (nxt :: rest) (vec2, num_positive)
    else none
  | _, acc => some acc

def leafRow (lefts rights : List Int) (n_splits : Nat) (path : List Int) :
    Option (List Rat × Nat) :=
  leafRowAux lefts rights path (List.replicate n_splits 0, 0)

/-- The state of the iterative depth-first enumeration in
get_parameters_for_gemm_common: the explicit stack (root at the head, top at the
back, as in the Python list), the visited flags, and the three accumulators. -/
structure GemmState where
  path : List Int
  visited : List Bool
  hidden_weights : List (List Rat)
  hidden_biases : List Rat
  class_proba : List (List Rat)
deriving DecidableEq

/-- One iteration of the depth-first loop body of get_parameters_for_gemm_common.
The per-leaf class column divides the leaf value by its sum when the last axis of the
value array exceeds one (rational division by a zero sum yields zeros where numpy
would produce non-finite entries; every theorem touching that case assumes a nonzero
sum).  The bias is the count of positive entries; weights and biases are kept as
rationals, absorbing the final float32 casts. -/
def gemmStep (lefts rights : List Int) (values : List (List Rat)) (n_splits : Nat)
    (nodes : List (Int × Int × Int × Rat × List Rat)) (st : GemmState) :
    Option GemmState :=
  match st.path.getLast? with
  | none => none
  | some i =>
    match pySet st.visited i true with
    | none => none
    | some visited1 =>
      match pyGet nodes i with
      | none => none
      | some (left, right, _, _, _) =>
        if left = -1 ∧ right = -1 then
          match leafRow lefts rights n_splits st.path with
          | none => none
          | some (vec, num_positive) =>
            match pyGet values i with
            | none => none
            | some v =>
              let proba := if 1 < npShapeLast values then v.map (fun x => x / v.sum) else v
              some ⟨st.path.dropLast, visited1,
                st.hidden_weights ++ [vec], st.hidden_biases ++ [(num_positive : Rat)],
                st.class_proba ++ [proba]⟩
        else
          match pyGet visited1 left with
          | none => none
          | some vl =>
            if vl = false then
              some ⟨st.path ++ [left], visited1, st.hidden_weights,
                st.hidden_biases, st.class_proba⟩
            else
              match pyGet visited1 right with
              | none => none
              | some vr =>
                if vr = false then
                  some ⟨st.path ++ [right], visited1, st.hidden_weights,
                    st.hidden_biases, st.class_proba⟩
                else
                  some ⟨st.path.dropLast, visited1, st.hidden_weights,
                    st.hidden_biases, st.class_proba⟩

/-- The while-loop over a non-empty stack, with fuel standing in for the unbounded
Python loop; the caller passes fuel exceeding the iteration count of every run that
terminates (each iteration pushes an unvisited node, at most n times, or pops). -/
def gemmLoop (lefts rights : List Int) (values : List (List Rat)) (n_splits : Nat)
    (nodes : List (Int × Int × Int × Rat × List Rat)) :
    Nat → GemmState → Option GemmState
  | fuel, st =>
    if st.path = [] then some st
    else
      match fuel with
      | 0 => none
      | fuel + 1 =>
        match gemmStep lefts rights values n_splits nodes st with
        | none => none
        | some st2 => gemmLoop lefts rights values n_splits nodes fuel st2

/-- The pair of tensor lists returned by get_parameters_for_gemm_common. -/
structure GemmParams where
  weights : List (List (List Rat))
  biases : List (Option (List Rat))
deriving DecidableEq

/-- get_parameters_for_gemm_common: single-leaf correction, comparison layer,
depth-first path layer and class layer.  No shape validation of any kind is performed
before compilation; the zips take the arrays only up to the shortest length, while
the depth-first loop indexes the zipped node list at positions drawn from the
untruncated child arrays (a lookup past the zipped length is the IndexError path,
returned here as none). -/
def get_parameters_for_gemm_common (t0 : TreeParameters) (n_features : Nat) :
    Option GemmParams :=
  let t := correct_single_leaf t0
  let layer1 := gemmLayer1 t.lefts t.features t.thresholds n_features
  let n_splits := layer1.1.length
  let n_nodes := t.lefts.length
  let nodes := t.lefts.zip (t.rights.zip (t.features.zip (t.thresholds.zip t.values)))
  match gemmLoop t.lefts t.rights t.values n_splits nodes (4 * n_nodes + 1)
      ⟨[0], List.replicate n_nodes false, [], [], []⟩ with
  | none => none
  | some st =>
    some ⟨[layer1.1, st.hidden_weights, npTranspose st.class_proba],
          [some layer1.2, some st.hidden_biases, none]⟩

end TreeCommons

namespace TreeCommons

lemma zip_append_right_of_le {α β : Type} (A : List α) (B C : List β)
    (h : A.length ≤ B.length) : A.zip (B ++ C) = A.zip B := by
  induction A generalizing B with
  | nil => simp
  | cons a A ih =>
    cases B with
    | nil => simp at h
    | cons b B =>
      simp only [List.cons_append, List.zip_cons_cons]
      rw [ih B (by simpa using h)]

lemma zip_append_left_of_le {α β : Type} (A B : List α) (C : List β)
    (h : C.length ≤ A.length) : (A ++ B).zip C = A.zip C := by
  induction A generalizing C with
  | nil =>
    cases C with
    | nil => simp
    | cons c C => simp at h
  | cons a A ih =>
    cases C with
    | nil => simp
    | cons c C =>
      simp only [List.cons_append, List.zip_cons_cons]
      rw [ih C (by simpa using h)]

/-- C10 counterexample: with three-element child, feature and threshold arrays but a
four-element values array, get_parameters_for_gemm_common neither raises nor rejects:
it returns compiled parameters (the zips silently drop the extra row). -/
theorem gemm_no_length_check :
    (get_parameters_for_gemm_common
      ⟨[1, -1, -1], [2, -1, -1], [0, 0, 0], [0, 0, 0], [[5], [7], [9], [11]]⟩ 1).isSome =
    true := by
  rfl

/-- C10 amended: get_parameters_for_gemm_common performs no length validation at all;
a longer thresholds array is silently truncated by the zips, producing exactly the
output of the length-consistent input rather than an error. -/
theorem gemm_length_mismatch_truncated (l r f : List Int) (th extra : List Rat)
    (v : List (List Rat)) (nf : Nat) (hth : th.length = l.length)
    (hf : f.length = l.length) (hv : v.length = l.length) :
    get_parameters_for_gemm_common ⟨l, r, f, th ++ extra, v⟩ nf =
    get_parameters_for_gemm_common ⟨l, r, f, th, v⟩ nf := by
  by_cases h1 : l.length = 1
  · rw [get_parameters_for_gemm_common, get_parameters_for_gemm_common]
    have hcor : correct_single_leaf ⟨l, r, f, th ++ extra, v⟩ =
        correct_single_leaf ⟨l, r, f, th, v⟩ := by
      rw [correct_single_leaf, correct_single_leaf]
      rw [if_pos (show (⟨l, r, f, th ++ extra, v⟩ : TreeParameters).lefts.length = 1
        from h1)]
      rw [if_pos (show (⟨l, r, f, th, v⟩ : TreeParameters).lefts.length = 1 from h1)]
    rw [hcor]
  · simp only [get_parameters_for_gemm_common]
    rw [correct_single_leaf_of_ne ⟨l, r, f, th ++ extra, v⟩ (by simpa using h1)]
    rw [correct_single_leaf_of_ne ⟨l, r, f, th, v⟩ (by simpa using h1)]
    simp only []
    rw [show gemmLayer1 l f (th ++ extra) nf = gemmLayer1 l f th nf by
      rw [gemmLayer1, gemmLayer1, zip_append_right_of_le f th extra (by omega)]]
    rw [zip_append_left_of_le th extra v (by omega)]

end TreeCommons

namespace TreeCommons

/-- C10 amended witness: a concrete length-consistent tree with one extra threshold
appended; compilation output is unchanged. -/
theorem gemm_length_mismatch_truncated_witness :
    get_parameters_for_gemm_common
      ⟨[1, -1, -1], [2, -1, -1], [0, 0, 0], ([0, 0, 0] : List Rat) ++ [42],
        [[5], [7], [9]]⟩ 1 =
    get_parameters_for_gemm_common
      ⟨[1, -1, -1], [2, -1, -1], [0, 0, 0], [0, 0, 0], [[5], [7], [9]]⟩ 1 :=
  gemm_length_mismatch_truncated [1, -1, -1] [2, -1, -1] [0, 0, 0] [0, 0, 0] [42]
    [[5], [7], [9]] 1 rfl rfl rfl

/-- Modelled from the spec: the decision semantics of a tree given by raw arrays with
the -1 absent-child sentinel.  Section 4.4 fixes the comparison convention: an input
whose feature value is at most the threshold takes the left branch.  The numeric
evaluator itself is not part of the provided sources (it lives in the operator
implementations), so it is written from the specification.  Fuel bounds the walk; any
fuel at least the node count is enough on well-formed trees. -/
def treeEvalFrom (lefts rights features : List Int) (thresholds : List Rat)
    (values : List (List Rat)) (x : List Rat) : Nat → Nat → List Rat
  | 0, i => values.getD i []
  | fuel + 1, i =>
    if lefts.getD i (-1) = -1 then values.getD i []
    else if x.getD (features.getD i 0).toNat 0 ≤ thresholds.getD i 0 then
      treeEvalFrom lefts rights features thresholds values x fuel (lefts.getD i (-1)).toNat
    else
      treeEvalFrom lefts rights features thresholds values x fuel (rights.getD i (-1)).toNat

def treeEval (t : TreeParameters) (x : List Rat) : List Rat :=
  treeEvalFrom t.lefts t.rights t.features t.thresholds t.values x t.lefts.length 0

/-- Modelled from the spec: the traversal-strategy evaluator steps through the
flattened arrays returned by the tree-traversal builder, recognizing a leaf by the
self-referencing child convention of section 3 and branching left when the input
feature value is at most the threshold. -/
def travEvalFrom (lefts rights features : List Int) (thresholds : List Rat)
    (values : List (List Rat)) (x : List Rat) : Nat → Nat → List Rat
  | 0, i => values.getD i []
  | fuel + 1, i =>
    if lefts.getD i (-1) = (i : Int) then values.getD i []
    else if x.getD (features.getD i 0).toNat 0 ≤ thresholds.getD i 0 then
      travEvalFrom lefts rights features thresholds values x fuel (lefts.getD i (-1)).toNat
    else
      travEvalFrom lefts rights features thresholds values x fuel (rights.getD i (-1)).toNat

def travEval (r : TravResult) (x : List Rat) : List Rat :=
  travEvalFrom r.lefts r.rights r.features r.thresholds r.values x r.lefts.length 0

/-- Modelled from the spec: evaluation of the three GEMM layers per section 4.4.  The
comparison layer thresholds input times weight minus bias at zero (nonpositive
encodes a left decision), the path layer tests its output against the bias for
equality, and the class layer multiplies the resulting indicator with the transposed
class matrix, with no bias. -/
def gemmEval (p : GemmParams) (x : List Rat) : List Rat :=
  let w1 := p.weights.getD 0 []
  let b1 := (p.biases.getD 0 none).getD []
  let s := List.zipWith (fun row t => if dot x row - t ≤ 0 then (1 : Rat) else 0) w1 b1
  let w2 := p.weights.getD 1 []
  let b2 := (p.biases.getD 1 none).getD []
  let ind := List.zipWith (fun row b => if dot s row = b then (1 : Rat) else 0) w2 b2
  let w3 := p.weights.getD 2 []
  w3.map (fun row => dot ind row)

/-- C8: a single-leaf input tree (length-one arrays, leaf value v) is replaced, by
both strategy compilers, with the three-node tree whose internal root splits on
feature 0 at threshold 0 and whose two leaf children both carry v, and that corrected
tree evaluates to v on every input. -/
theorem single_leaf_correction (t : TreeParameters) (h1 : t.lefts.length = 1)
    (nf : Nat) :
    correct_single_leaf t = ⟨[1, -1, -1], [2, -1, -1], [0, 0, 0], [0, 0, 0],
      [[0], t.values.getD 0 [], t.values.getD 0 []]⟩ ∧
    get_parameters_for_tree_trav_common t =
      get_parameters_for_tree_trav_common (correct_single_leaf t) ∧
    get_parameters_for_gemm_common t nf =
      get_parameters_for_gemm_common (correct_single_leaf t) nf ∧
    (∀ x : List Rat, treeEval (correct_single_leaf t) x = t.values.getD 0 []) := by
  have hc : correct_single_leaf t = ⟨[1, -1, -1], [2, -1, -1], [0, 0, 0], [0, 0, 0],
      [[0], t.values.getD 0 [], t.values.getD 0 []]⟩ := by
    rw [correct_single_leaf, if_pos h1]
  have hcc : correct_single_leaf (correct_single_leaf t) = correct_single_leaf t := by
    rw [hc]
    rw [correct_single_leaf_of_ne _ (by norm_num)]
  refine ⟨hc, ?_, ?_, ?_⟩
  · rw [get_parameters_for_tree_trav_common, get_parameters_for_tree_trav_common, hcc]
  · rw [get_parameters_for_gemm_common, get_parameters_for_gemm_common, hcc]
  · intro x
    rw [hc, treeEval]
    show treeEvalFrom [1, -1, -1] [2, -1, -1] [0, 0, 0] [0, 0, 0]
      [[0], t.values.getD 0 [], t.values.getD 0 []] x 3 0 = t.values.getD 0 []
    rw [treeEvalFrom]
    rw [if_neg (by decide)]
    by_cases hx : x.getD (([0, 0, 0] : List Int).getD 0 0).toNat 0 ≤
        ([0, 0, 0] : List Rat).getD 0 0
    · rw [if_pos hx, treeEvalFrom, if_pos (by decide)]
      rfl
    · rw [if_neg hx, treeEvalFrom, if_pos (by decide)]
      rfl

/-- C8 witness: the single-leaf tree with value [7], corrected and evaluated at the
input [5]. -/
theorem single_leaf_correction_witness :
    correct_single_leaf ⟨[-1], [-1], [0], [0], [[7]]⟩ =
      ⟨[1, -1, -1], [2, -1, -1], [0, 0, 0], [0, 0, 0],
        [[0], (⟨[-1], [-1], [0], [0], [[7]]⟩ : TreeParameters).values.getD 0 [],
          (⟨[-1], [-1], [0], [0], [[7]]⟩ : TreeParameters).values.getD 0 []]⟩ ∧
    treeEval (correct_single_leaf ⟨[-1], [-1], [0], [0], [[7]]⟩) [5] =
      (⟨[-1], [-1], [0], [0], [[7]]⟩ : TreeParameters).values.getD 0 [] :=
  ⟨(single_leaf_correction ⟨[-1], [-1], [0], [0], [[7]]⟩ rfl 1).1,
   (single_leaf_correction ⟨[-1], [-1], [0], [0], [[7]]⟩ rfl 1).2.2.2 [5]⟩

end TreeCommons

namespace TreeCommons

/-- The column assigned to the split of internal node m by the code's
p minus count of -1 in lefts up to p: the number of internal nodes before m. -/
def numInt (lefts : List Int) (m : Nat) : Nat := m - (lefts.take m).count (-1)

lemma count_take_le (lefts : List Int) (m : Nat) : (lefts.take m).count (-1) ≤ m := by
  calc (lefts.take m).count (-1) ≤ (lefts.take m).length := List.count_le_length _ _
  _ ≤ m := by rw [List.length_take]; omega

lemma numInt_succ (lefts : List Int) (m : Nat) (hm : m < lefts.length) :
    numInt lefts (m + 1) = numInt lefts m + (if lefts.getD m (-1) = -1 then 0 else 1) := by
  have h1 := count_take_le lefts m
  have hsome : lefts[m]? = some lefts[m] := List.getElem?_eq_getElem hm
  rw [numInt, numInt, List.take_succ, hsome, List.count_append]
  rw [List.getD_eq_getElem lefts (-1) hm]
  show m + 1 - ((lefts.take m).count (-1) + List.count (-1) [lefts[m]]) = _
  rw [List.count_singleton]
  by_cases hx : lefts[m] = -1
  · rw [if_pos (by simp [hx]), if_pos hx]
    omega
  · rw [if_neg (by simp [hx]), if_neg hx]
    omega

lemma numInt_le_mono (lefts : List Int) :
    ∀ m, m ≤ lefts.length → ∀ q, q ≤ m → numInt lefts q ≤ numInt lefts m := by
  intro m
  induction m with
  | zero =>
    intro _ q hq
    have hq0 : q = 0 := by omega
    subst hq0
    exact le_rfl
  | succ m ih =>
    intro hm q hq
    rcases Nat.lt_succ_iff_lt_or_eq.mp (Nat.lt_succ_of_le hq) with h | h
    · have := ih (by omega) q (by omega)
      rw [numInt_succ lefts m (by omega)]
      omega
    · subst h
      exact le_rfl

lemma numInt_lt_of_internal (lefts : List Int) :
    ∀ m, m ≤ lefts.length → ∀ q, q < m → lefts.getD q (-1) ≠ -1 →
      numInt lefts q < numInt lefts m := by
  intro m
  induction m with
  | zero =>
    intro _ q hq
    omega
  | succ m ih =>
    intro hm q hq hint
    rcases Nat.lt_succ_iff_lt_or_eq.mp hq with h | h
    · have := ih (by omega) q h hint
      rw [numInt_succ lefts m (by omega)]
      omega
    · subst h
      rw [numInt_succ lefts q (by omega), if_neg hint]
      omega

end TreeCommons

namespace TreeCommons

lemma getD_append_left {α : Type} (A B : List α) (i : Nat) (d : α) (h : i < A.length) :
    (A ++ B).getD i d = A.getD i d := by
  rw [List.getD_eq_getElem?_getD, List.getElem?_append, if_pos h,
    ← List.getD_eq_getElem?_getD]

lemma getD_append_self {α : Type} (A : List α) (x d : α) :
    (A ++ [x]).getD A.length d = x := by
  rw [List.getD_eq_getElem?_getD, List.getElem?_append_right le_rfl]
  simp

lemma layer1_foldl_append (nf : Nat) (entries : List (Int × Int × Rat))
    (A : List (List Rat)) (B : List Rat) :
    entries.foldl (layer1Step nf) (A, B) =
      (A ++ (entries.foldl (layer1Step nf) ([], [])).1,
       B ++ (entries.foldl (layer1Step nf) ([], [])).2) := by
  induction entries generalizing A B with
  | nil => simp
  | cons e rest ih =>
    rw [List.foldl_cons, List.foldl_cons]
    by_cases he : e.1 ≠ -1
    · rw [show layer1Step nf (A, B) e = (A ++ [oneHot nf e.2.1], B ++ [e.2.2]) by
        rw [layer1Step, if_pos he]]
      rw [show layer1Step nf ([], []) e =
          (([] : List (List Rat)) ++ [oneHot nf e.2.1], ([] : List Rat) ++ [e.2.2]) by
        rw [layer1Step, if_pos he]]
      rw [ih (A ++ [oneHot nf e.2.1]) (B ++ [e.2.2])]
      rw [ih ([] ++ [oneHot nf e.2.1]) ([] ++ [e.2.2])]
      simp
    · rw [show layer1Step nf (A, B) e = (A, B) by rw [layer1Step, if_neg he]]
      rw [show layer1Step nf ([], []) e = (([] : List (List Rat)), ([] : List Rat)) by
        rw [layer1Step, if_neg he]]
      exact ih A B

lemma getElem?_zip_pair {α β : Type} (A : List α) (B : List β) (i : Nat) (da : α)
    (db : β) (hA : i < A.length) (hB : i < B.length) :
    (A.zip B)[i]? = some (A.getD i da, B.getD i db) := by
  have hz : i < (A.zip B).length := by rw [List.length_zip]; omega
  rw [List.getElem?_eq_getElem hz, List.getD_eq_getElem A da hA,
    List.getD_eq_getElem B db hB]
  rw [List.getElem_zip]

lemma getD_zip_pair {α β : Type} (A : List α) (B : List β) (i : Nat) (da : α)
    (db : β) (hA : i < A.length) (hB : i < B.length) :
    (A.zip B).getD i (da, db) = (A.getD i da, B.getD i db) := by
  have hz : i < (A.zip B).length := by rw [List.length_zip]; omega
  rw [List.getD_eq_getElem _ _ hz, List.getD_eq_getElem A da hA,
    List.getD_eq_getElem B db hB]
  rw [List.getElem_zip]

lemma gemmLayer1_take_spec (lefts features : List Int) (thresholds : List Rat) (nf : Nat)
    (hf : features.length = lefts.length) (hth : thresholds.length = lefts.length) :
    ∀ m, m ≤ lefts.length →
      ((((lefts.zip (features.zip thresholds)).take m).foldl (layer1Step nf)
        ([], [])).1.length = numInt lefts m) ∧
      ((((lefts.zip (features.zip thresholds)).take m).foldl (layer1Step nf)
        ([], [])).2.length = numInt lefts m) ∧
      (∀ q, q < m → lefts.getD q (-1) ≠ -1 →
        ((((lefts.zip (features.zip thresholds)).take m).foldl (layer1Step nf)
          ([], [])).1.getD (numInt lefts q) [] = oneHot nf (features.getD q (-1)) ∧
        (((lefts.zip (features.zip thresholds)).take m).foldl (layer1Step nf)
          ([], [])).2.getD (numInt lefts q) 0 = thresholds.getD q 0)) := by
  have hzlen : (lefts.zip (features.zip thresholds)).length = lefts.length := by
    simp [List.length_zip, hf, hth]
  intro m
  induction m with
  | zero =>
    intro _
    refine ⟨by simp [numInt], by simp [numInt], ?_⟩
    intro q hq
    omega
  | succ m ih =>
    intro hm
    obtain ⟨ih1, ih2, ih3⟩ := ih (by omega)
    have hzm : (lefts.zip (features.zip thresholds))[m]? =
        some (lefts.getD m (-1), features.getD m (-1), thresholds.getD m 0) := by
      have h2 : m < (features.zip thresholds).length := by
        rw [List.length_zip]; omega
      rw [getElem?_zip_pair lefts _ m (-1) ((-1 : Int), (0 : Rat)) (by omega) h2]
      rw [getD_zip_pair features thresholds m (-1) 0 (by omega) (by omega)]
    rw [List.take_succ, hzm]
    rw [show (some (lefts.getD m (-1), features.getD m (-1),
      thresholds.getD m 0)).toList = [(lefts.getD m (-1), features.getD m (-1),
      thresholds.getD m 0)] from rfl]
    rw [List.foldl_append, List.foldl_cons, List.foldl_nil]
    by_cases hint : lefts.getD m (-1) = -1
    · rw [show layer1Step nf ((((lefts.zip (features.zip thresholds)).take m).foldl
          (layer1Step nf) ([], []))) (lefts.getD m (-1), features.getD m (-1),
          thresholds.getD m 0) = (((lefts.zip (features.zip thresholds)).take m).foldl
          (layer1Step nf) ([], [])) by
        rw [layer1Step, if_neg (by simpa using hint)]]
      rw [numInt_succ lefts m (by omega), if_pos hint]
      refine ⟨by omega, by omega, ?_⟩
      intro q hq hqint
      rcases Nat.lt_succ_iff_lt_or_eq.mp hq with h | h
      · exact ih3 q h hqint
      · subst h
        exact absurd hint hqint
    · rw [show layer1Step nf ((((lefts.zip (features.zip thresholds)).take m).foldl
          (layer1Step nf) ([], []))) (lefts.getD m (-1), features.getD m (-1),
          thresholds.getD m 0) = ((((lefts.zip (features.zip thresholds)).take m).foldl
          (layer1Step nf) ([], [])).1 ++ [oneHot nf (features.getD m (-1))],
          (((lefts.zip (features.zip thresholds)).take m).foldl
          (layer1Step nf) ([], [])).2 ++ [thresholds.getD m 0]) by
        rw [layer1Step, if_pos (by simpa using hint)]]
      rw [numInt_succ lefts m (by omega), if_neg hint]
      refine ⟨by rw [List.length_append]; simp [ih1], by rw [List.length_append]; simp [ih2], ?_⟩
      intro q hq hqint
      rcases Nat.lt_succ_iff_lt_or_eq.mp hq with h | h
      · have hlt : numInt lefts q < numInt lefts m :=
          numInt_lt_of_internal lefts m (by omega) q h hqint
        refine ⟨?_, ?_⟩
        · rw [getD_append_left _ _ _ _ (by omega)]
          exact (ih3 q h hqint).1
        · rw [getD_append_left _ _ _ _ (by omega)]
          exact (ih3 q h hqint).2
      · subst h
        refine ⟨?_, ?_⟩
        · rw [show numInt lefts q = ((((lefts.zip (features.zip thresholds)).take q).foldl
            (layer1Step nf) ([], [])).1).length by omega]
          exact getD_append_self _ _ _
        · rw [show numInt lefts q = ((((lefts.zip (features.zip thresholds)).take q).foldl
            (layer1Step nf) ([], [])).2).length by omega]
          exact getD_append_self _ _ _

/-- Characterization of the first GEMM layer on length-consistent arrays: the rows
and biases enumerate the internal nodes in index order, the row of internal node q
standing at column position numInt q with the one-hot of its split feature, the bias
with its threshold. -/
lemma gemmLayer1_spec (lefts features : List Int) (thresholds : List Rat) (nf : Nat)
    (hf : features.length = lefts.length) (hth : thresholds.length = lefts.length) :
    (gemmLayer1 lefts features thresholds nf).1.length = numInt lefts lefts.length ∧
    (gemmLayer1 lefts features thresholds nf).2.length = numInt lefts lefts.length ∧
    (∀ q, q < lefts.length → lefts.getD q (-1) ≠ -1 →
      (gemmLayer1 lefts features thresholds nf).1.getD (numInt lefts q) [] =
        oneHot nf (features.getD q (-1)) ∧
      (gemmLayer1 lefts features thresholds nf).2.getD (numInt lefts q) 0 =
        thresholds.getD q 0) := by
  have hzlen : (lefts.zip (features.zip thresholds)).length = lefts.length := by
    simp [List.length_zip, hf, hth]
  have h := gemmLayer1_take_spec lefts features thresholds nf hf hth lefts.length le_rfl
  rw [List.take_of_length_le (by omega)] at h
  exact h

end TreeCommons

namespace TreeCommons

lemma dot_cons (a : Rat) (x : List Rat) (b : Rat) (w : List Rat) :
    dot (a :: x) (b :: w) = a * b + dot x w := by
  rw [dot, dot, List.zipWith_cons_cons, List.sum_cons]

lemma oneHot_succ (k : Nat) (f : Int) :
    oneHot (k + 1) f = (if 0 = f then (1 : Rat) else 0) :: oneHot k (f - 1) := by
  rw [oneHot, List.range_succ_eq_map, List.map_cons, List.map_map]
  congr 1
  rw [oneHot]
  apply List.map_congr_left
  intro i _
  show (if ((Nat.succ i : Nat) : Int) = f then (1 : Rat) else 0) =
    (if (i : Int) = f - 1 then (1 : Rat) else 0)
  rw [if_congr (show ((Nat.succ i : Nat) : Int) = f ↔ (i : Int) = f - 1 by omega) rfl rfl]

/-- The dot product of an input with a one-hot row selects the feature value (zero
when the feature index is out of range, matching a zero row). -/
lemma dot_oneHot (x : List Rat) : ∀ (k : Nat) (f : Int), x.length = k →
    dot x (oneHot k f) = if 0 ≤ f ∧ f.toNat < k then x.getD f.toNat 0 else 0 := by
  induction x with
  | nil =>
    intro k f hx
    have hk : k = 0 := by simpa using hx.symm
    subst hk
    rw [if_neg (by omega)]
    rfl
  | cons a x ih =>
    intro k f hx
    cases k with
    | zero => simp at hx
    | succ k =>
      rw [oneHot_succ, dot_cons]
      rw [ih k (f - 1) (by simpa using hx)]
      by_cases hf : f = 0
      · subst hf
        rw [if_pos rfl, if_neg (by omega), if_pos (by constructor <;> omega)]
        show a * 1 + 0 = (a :: x).getD (Int.toNat 0) 0
        rw [show Int.toNat 0 = 0 from rfl, List.getD_cons_zero]
        ring
      · rw [if_neg (fun hc => hf hc.symm)]
        by_cases hf2 : 0 ≤ f - 1
        · by_cases hf3 : (f - 1).toNat < k
          · rw [if_pos ⟨hf2, hf3⟩, if_pos (by omega)]
            have hft : f.toNat = (f - 1).toNat + 1 := by omega
            rw [hft, List.getD_cons_succ]
            ring
          · rw [if_neg (by tauto), if_neg (by omega)]
            ring
        · rw [if_neg (by tauto), if_neg (by omega)]
          ring

lemma zipWith_getD {α β γ : Type} (f : α → β → γ) (A : List α) (B : List β) (i : Nat)
    (dA : α) (dB : β) (d : γ) (hA : i < A.length) (hB : i < B.length) :
    (List.zipWith f A B).getD i d = f (A.getD i dA) (B.getD i dB) := by
  rw [List.getD_eq_getElem?_getD, List.getElem?_zipWith,
    List.getElem?_eq_getElem hA, List.getElem?_eq_getElem hB]
  rw [List.getD_eq_getElem _ _ hA, List.getD_eq_getElem _ _ hB]
  rfl

lemma dot_set (s : List Rat) : ∀ (vec : List Rat) (c : Nat) (a : Rat),
    c < vec.length → c < s.length →
    dot s (vec.set c a) = dot s vec + (a - vec.getD c 0) * s.getD c 0 := by
  induction s with
  | nil =>
    intro vec c a _ hc
    simp at hc
  | cons s0 s ih =>
    intro vec c a hcv hcs
    cases vec with
    | nil => simp at hcv
    | cons v0 vec =>
      cases c with
      | zero =>
        rw [List.set_cons_zero, dot_cons, dot_cons, List.getD_cons_zero, List.getD_cons_zero]
        ring
      | succ c =>
        rw [List.set_cons_succ, dot_cons, dot_cons, List.getD_cons_succ, List.getD_cons_succ]
        rw [ih vec c a (by simpa using hcv) (by simpa using hcs)]
        ring

end TreeCommons

namespace TreeCommons

/-- Proof-side predicate: the list is a chain of parent-to-child steps, each parent an
in-range internal node whose successor is one of its two children. -/
def stepsOk (lefts rights : List Int) : List Int → Prop
  | p :: nxt :: rest =>
      0 ≤ p ∧ p < (lefts.length : Int) ∧ lefts.getD p.toNat (-1) ≠ -1 ∧
      (nxt = lefts.getD p.toNat (-1) ∨ nxt = rights.getD p.toNat (-1)) ∧
      stepsOk lefts rights (nxt :: rest)
  | _ => True

/-- Number of left decisions along a chain. -/
def leftSteps (lefts : List Int) : List Int → Nat
  | p :: nxt :: rest =>
      (if nxt = lefts.getD p.toNat (-1) then 1 else 0) + leftSteps lefts (nxt :: rest)
  | _ => 0

/-- Signed agreement score of a chain against a split-decision vector. -/
def pathScore (lefts : List Int) (s : List Rat) : List Int → Rat
  | p :: nxt :: rest =>
      (if nxt = lefts.getD p.toNat (-1) then s.getD (numInt lefts p.toNat) 0
       else -(s.getD (numInt lefts p.toNat) 0)) + pathScore lefts s (nxt :: rest)
  | _ => 0

/-- Proof-side total form of the signed row built by the inner reconstruction loop. -/
def specRowAux (lefts rights : List Int) : List Int → List Rat → List Rat
  | p :: nxt :: rest, vec =>
      specRowAux lefts rights (nxt :: rest)
        (vec.set (numInt lefts p.toNat)
          (if nxt = lefts.getD p.toNat (-1) then 1 else -1))
  | _, vec => vec

def specRow (lefts rights : List Int) (n_splits : Nat) (P : List Int) : List Rat :=
  specRowAux lefts rights P (List.replicate n_splits 0)

/-- Depth-first enumeration of root-to-leaf paths, left child first, as performed by
the stack-based loop. -/
def dfsPaths (lefts rights : List Int) : Nat → List Int → Nat → List (List Int)
  | 0, _, _ => []
  | fuel + 1, pfx, i =>
    if lefts.getD i (-1) = -1 then [pfx ++ [(i : Int)]]
    else
      dfsPaths lefts rights fuel (pfx ++ [(i : Int)]) (lefts.getD i (-1)).toNat ++
      dfsPaths lefts rights fuel (pfx ++ [(i : Int)]) (rights.getD i (-1)).toNat

/-- A node referenced as a right child never appears in the left-child array, by
unique parenthood. -/
lemma right_child_not_mem_lefts (t : TreeParameters) (hwf : WF t) (p : Nat)
    (hp : p < t.lefts.length) (hint : t.lefts.getD p (-1) ≠ -1) :
    ¬ (t.rights.getD p (-1) ∈ t.lefts) := by
  have hrlen : t.rights.length = t.lefts.length := hwf.1
  obtain ⟨⟨_, _⟩, hr1, hr2⟩ := child_bounds_of_wf hwf p hp hint
  intro hmem
  have hc : t.rights.getD p (-1) = (((t.rights.getD p (-1)).toNat : Nat) : Int) := by omega
  have hcnt := hwf.2.2.2.2.2.2.2 (t.rights.getD p (-1)).toNat (by omega) (by omega)
  rw [← hc] at hcnt
  have h1 : 0 < t.lefts.count (t.rights.getD p (-1)) := List.count_pos_iff.mpr hmem
  have h2 : 0 < t.rights.count (t.rights.getD p (-1)) := by
    apply List.count_pos_iff.mpr
    rw [List.getD_eq_getElem _ _ (show p < t.rights.length by omega)]
    exact List.getElem_mem _
  rw [List.count_append] at hcnt
  omega

/-- The inner reconstruction loop succeeds on every valid chain and produces the
proof-side row and the count of left decisions. -/
lemma leafRowAux_eq_spec (t : TreeParameters) (hwf : WF t) :
    ∀ (P : List Int) (vec : List Rat) (npos : Nat),
      stepsOk t.lefts t.rights P → vec.length = numInt t.lefts t.lefts.length →
      leafRowAux t.lefts t.rights P (vec, npos) =
        some (specRowAux t.lefts t.rights P vec, npos + leftSteps t.lefts P) := by
  intro P
  induction P with
  | nil =>
    intro vec npos _ _
    show (some (vec, npos) : Option (List Rat × Nat)) = some (vec, npos + 0)
    rw [Nat.add_zero]
  | cons p P ih =>
    intro vec npos hok hlen
    cases P with
    | nil =>
      show (some (vec, npos) : Option (List Rat × Nat)) = some (vec, npos + 0)
      rw [Nat.add_zero]
    | cons nxt rest =>
      obtain ⟨hp0, hpn, hint, hstep, hrest⟩ := hok
      have hpt : p.toNat < t.lefts.length := by omega
      have htake : pyTake t.lefts p = t.lefts.take p.toNat := by
        rw [pyTake, if_neg (by omega)]
      have hcol : p - ((t.lefts.take p.toNat).count (-1) : Nat) =
          ((numInt t.lefts p.toNat : Nat) : Int) := by
        have := count_take_le t.lefts p.toNat
        rw [numInt]
        omega
      have hcollt : numInt t.lefts p.toNat < numInt t.lefts t.lefts.length :=
        numInt_lt_of_internal t.lefts t.lefts.length le_rfl p.toNat hpt hint
      have hset : pySet vec (p - ((pyTake t.lefts p).count (-1) : Nat))
          (1 : Rat) = some (vec.set (numInt t.lefts p.toNat) 1) := by
        rw [htake, hcol, pySet, if_pos (by constructor <;> omega)]
        rw [if_neg (by omega)]
        norm_num
      have hsetm : pySet vec (p - ((pyTake t.lefts p).count (-1) : Nat))
          (-1 : Rat) = some (vec.set (numInt t.lefts p.toNat) (-1)) := by
        rw [htake, hcol, pySet, if_pos (by constructor <;> omega)]
        rw [if_neg (by omega)]
        norm_num
      rcases hstep with hL | hR
      · have hmem : nxt ∈ t.lefts := by
          rw [hL, List.getD_eq_getElem _ _ hpt]
          exact List.getElem_mem _
        rw [leafRowAux]
        rw [if_pos hmem, hset]
        show leafRowAux t.lefts t.rights (nxt :: rest)
            (vec.set (numInt t.lefts p.toNat) 1, npos + 1) =
          some (specRowAux t.lefts t.rights (p :: nxt :: rest) vec,
            npos + leftSteps t.lefts (p :: nxt :: rest))
        rw [ih (vec.set (numInt t.lefts p.toNat) 1) (npos + 1) hrest
          (by rw [List.length_set]; exact hlen)]
        rw [specRowAux, leftSteps, if_pos hL, if_pos hL]
        rw [show npos + 1 + leftSteps t.lefts (nxt :: rest) =
          npos + (1 + leftSteps t.lefts (nxt :: rest)) by omega]
      · by_cases hL : nxt = t.lefts.getD p.toNat (-1)
        · have hmem : nxt ∈ t.lefts := by
            rw [hL, List.getD_eq_getElem _ _ hpt]
            exact List.getElem_mem _
          rw [leafRowAux]
          rw [if_pos hmem, hset]
          show leafRowAux t.lefts t.rights (nxt :: rest)
              (vec.set (numInt t.lefts p.toNat) 1, npos + 1) =
            some (specRowAux t.lefts t.rights (p :: nxt :: rest) vec,
              npos + leftSteps t.lefts (p :: nxt :: rest))
          rw [ih (vec.set (numInt t.lefts p.toNat) 1) (npos + 1) hrest
            (by rw [List.length_set]; exact hlen)]
          rw [specRowAux, leftSteps, if_pos hL, if_pos hL]
          rw [show npos + 1 + leftSteps t.lefts (nxt :: rest) =
            npos + (1 + leftSteps t.lefts (nxt :: rest)) by omega]
        · have hnmem : ¬ nxt ∈ t.lefts := by
            rw [hR]
            exact right_child_not_mem_lefts t hwf p.toNat hpt hint
          have hmem : nxt ∈ t.rights := by
            rw [hR, List.getD_eq_getElem _ _ (show p.toNat < t.rights.length by
              rw [hwf.1]; omega)]
            exact List.getElem_mem _
          rw [leafRowAux]
          rw [if_neg hnmem, if_pos hmem, hsetm]
          show leafRowAux t.lefts t.rights (nxt :: rest)
              (vec.set (numInt t.lefts p.toNat) (-1), npos) =
            some (specRowAux t.lefts t.rights (p :: nxt :: rest) vec,
              npos + leftSteps t.lefts (p :: nxt :: rest))
          rw [ih (vec.set (numInt t.lefts p.toNat) (-1)) npos hrest
            (by rw [List.length_set]; exact hlen)]
          rw [specRowAux, leftSteps, if_neg hL, if_neg hL]
          rw [show npos + (0 + leftSteps t.lefts (nxt :: rest)) =
            npos + leftSteps t.lefts (nxt :: rest) by omega]

lemma leafRow_eq_spec (t : TreeParameters) (hwf : WF t) (P : List Int)
    (hok : stepsOk t.lefts t.rights P) :
    leafRow t.lefts t.rights (numInt t.lefts t.lefts.length) P =
      some (specRow t.lefts t.rights (numInt t.lefts t.lefts.length) P,
        leftSteps t.lefts P) := by
  rw [leafRow, specRow, leafRowAux_eq_spec t hwf P _ 0 hok (by simp)]
  rw [Nat.zero_add]

end TreeCommons

namespace TreeCommons

/-- The set of nodes of the subtree rooted at i, as enumerated depth first. -/
def subtreeNodes (lefts rights : List Int) : Nat → Nat → List Nat
  | 0, _ => []
  | fuel + 1, i =>
    if lefts.getD i (-1) = -1 then [i]
    else i :: (subtreeNodes lefts rights fuel (lefts.getD i (-1)).toNat ++
               subtreeNodes lefts rights fuel (rights.getD i (-1)).toNat)

lemma two_le_count_of_two_getD {l : List Int} {a : Int} (d : Int) :
    ∀ (p q : Nat), p < l.length → q < l.length → p ≠ q → l.getD p d = a →
      l.getD q d = a → 2 ≤ l.count a := by
  induction l with
  | nil =>
    intro p q hp
    simp at hp
  | cons x l ih =>
    intro p q hp hq hpq ha hb
    cases p with
    | zero =>
      cases q with
      | zero => omega
      | succ q =>
        rw [List.count_cons]
        have hq2 : q < l.length := by simpa using hq
        have hmem : a ∈ l := by
          rw [List.getD_cons_succ] at hb
          rw [← hb, List.getD_eq_getElem _ _ hq2]
          exact List.getElem_mem _
        have := List.count_pos_iff.mpr hmem
        rw [List.getD_cons_zero] at ha
        rw [if_pos (by simp [ha])]
        omega
    | succ p =>
      cases q with
      | zero =>
        rw [List.count_cons]
        have hp2 : p < l.length := by simpa using hp
        have hmem : a ∈ l := by
          rw [List.getD_cons_succ] at ha
          rw [← ha, List.getD_eq_getElem _ _ hp2]
          exact List.getElem_mem _
        have := List.count_pos_iff.mpr hmem
        rw [List.getD_cons_zero] at hb
        rw [if_pos (by simp [hb])]
        omega
      | succ q =>
        rw [List.count_cons]
        have := ih p q (by simpa using hp) (by simpa using hq) (by omega)
          (by simpa using ha) (by simpa using hb)
        omega

/-- Parenthood relation on node indices. -/
def isParent (t : TreeParameters) (p m : Nat) : Prop :=
  t.lefts.getD p (-1) = (m : Int) ∨ t.rights.getD p (-1) = (m : Int)

lemma parent_lt (t : TreeParameters) (hwf : WF t) (p m : Nat) (hp : p < t.lefts.length)
    (hm : 0 < m) (h : isParent t p m) : p < m ∧ t.lefts.getD p (-1) ≠ -1 := by
  have hleaf := hwf.2.2.2.2.2.1
  rcases h with h | h
  · have hint : t.lefts.getD p (-1) ≠ -1 := by rw [h]; omega
    obtain ⟨⟨h1, _⟩, _⟩ := child_bounds_of_wf hwf p hp hint
    rw [h] at h1
    exact ⟨by omega, hint⟩
  · have hint : t.lefts.getD p (-1) ≠ -1 := by
      intro hc
      have := (hleaf p hp).1 hc
      rw [h] at this
      omega
    obtain ⟨_, h1, _⟩ := child_bounds_of_wf hwf p hp hint
    rw [h] at h1
    exact ⟨by omega, hint⟩

lemma parent_unique (t : TreeParameters) (hwf : WF t) (m p q : Nat) (hm : 0 < m)
    (hmn : m < t.lefts.length) (hp : p < t.lefts.length) (hq : q < t.lefts.length)
    (h1 : isParent t p m) (h2 : isParent t q m) : p = q := by
  by_contra hpq
  have hrlen : t.rights.length = t.lefts.length := hwf.1
  have hcnt := hwf.2.2.2.2.2.2.2 m hm hmn
  rw [List.count_append] at hcnt
  have hgl : ∀ r : Nat, r < t.lefts.length → t.lefts.getD r (-1) = (m : Int) →
      0 < t.lefts.count ((m : Nat) : Int) := by
    intro r hr h
    apply List.count_pos_iff.mpr
    rw [← h, List.getD_eq_getElem _ _ hr]
    exact List.getElem_mem _
  have hgr : ∀ r : Nat, r < t.lefts.length → t.rights.getD r (-1) = (m : Int) →
      0 < t.rights.count ((m : Nat) : Int) := by
    intro r hr h
    apply List.count_pos_iff.mpr
    rw [← h, List.getD_eq_getElem _ _ (show r < t.rights.length by omega)]
    exact List.getElem_mem _
  rcases h1 with h1 | h1 <;> rcases h2 with h2 | h2
  · have h2c : 2 ≤ t.lefts.count ((m : Nat) : Int) := by
      exact two_le_count_of_two_getD (-1) p q hp hq hpq h1 h2
    omega
  · have := hgl p hp h1
    have := hgr q hq h2
    omega
  · have := hgl q hq h2
    have := hgr p hp h1
    omega
  · have h2c : 2 ≤ t.rights.count ((m : Nat) : Int) := by
      exact two_le_count_of_two_getD (-1) p q (by omega) (by omega) hpq h1 h2
    omega

lemma children_distinct (t : TreeParameters) (hwf : WF t) (i : Nat)
    (hi : i < t.lefts.length) (hint : t.lefts.getD i (-1) ≠ -1) :
    t.lefts.getD i (-1) ≠ t.rights.getD i (-1) := by
  intro hc
  obtain ⟨⟨h1, h2⟩, _, _⟩ := child_bounds_of_wf hwf i hi hint
  have hm : t.lefts.getD i (-1) = (((t.lefts.getD i (-1)).toNat : Nat) : Int) := by omega
  have hcnt := hwf.2.2.2.2.2.2.2 (t.lefts.getD i (-1)).toNat (by omega) (by omega)
  rw [← hm, List.count_append] at hcnt
  have hcl : 0 < t.lefts.count (t.lefts.getD i (-1)) := by
    apply List.count_pos_iff.mpr
    rw [List.getD_eq_getElem _ _ hi]
    exact List.getElem_mem _
  have hcr : 0 < t.rights.count (t.lefts.getD i (-1)) := by
    apply List.count_pos_iff.mpr
    rw [hc, List.getD_eq_getElem _ _ (show i < t.rights.length by rw [hwf.1]; omega)]
    exact List.getElem_mem _
  omega

end TreeCommons

namespace TreeCommons

lemma subtree_mem_bounds (t : TreeParameters) (hwf : WF t) :
    ∀ fuel i, i < t.lefts.length → ∀ m ∈ subtreeNodes t.lefts t.rights fuel i,
      i ≤ m ∧ m < t.lefts.length := by
  intro fuel
  induction fuel with
  | zero =>
    intro i _ m hm
    simp [subtreeNodes] at hm
  | succ fuel ih =>
    intro i hi m hm
    rw [subtreeNodes] at hm
    by_cases hint : t.lefts.getD i (-1) = -1
    · rw [if_pos hint] at hm
      have : m = i := by simpa using hm
      omega
    · rw [if_neg hint] at hm
      obtain ⟨⟨hl1, hl2⟩, hr1, hr2⟩ := child_bounds_of_wf hwf i hi hint
      rcases List.mem_cons.mp hm with h | h
      · omega
      · rcases List.mem_append.mp h with h | h
        · have := ih _ (by omega) m h
          omega
        · have := ih _ (by omega) m h
          omega

lemma subtree_self (lefts rights : List Int) (fuel i : Nat) (hf : 0 < fuel) :
    i ∈ subtreeNodes lefts rights fuel i := by
  cases fuel with
  | zero => omega
  | succ fuel =>
    rw [subtreeNodes]
    by_cases hint : lefts.getD i (-1) = -1
    · rw [if_pos hint]
      exact List.mem_singleton.mpr rfl
    · rw [if_neg hint]
      exact List.mem_cons_self _ _

lemma subtree_congr (t : TreeParameters) (hwf : WF t) :
    ∀ f1 f2 i, i < t.lefts.length → t.lefts.length - i ≤ f1 →
      t.lefts.length - i ≤ f2 →
      subtreeNodes t.lefts t.rights f1 i = subtreeNodes t.lefts t.rights f2 i := by
  intro f1
  induction f1 with
  | zero =>
    intro f2 i hi h1 h2
    omega
  | succ f1 ih =>
    intro f2 i hi h1 h2
    cases f2 with
    | zero => omega
    | succ f2 =>
      by_cases hint : t.lefts.getD i (-1) = -1
      · rw [subtreeNodes, subtreeNodes, if_pos hint, if_pos hint]
      · obtain ⟨⟨hl1, hl2⟩, hr1, hr2⟩ := child_bounds_of_wf hwf i hi hint
        rw [subtreeNodes, subtreeNodes, if_neg hint, if_neg hint]
        rw [ih f2 (t.lefts.getD i (-1)).toNat (by omega) (by omega) (by omega)]
        rw [ih f2 (t.rights.getD i (-1)).toNat (by omega) (by omega) (by omega)]

lemma subtree_parent (t : TreeParameters) (hwf : WF t) :
    ∀ fuel a, a < t.lefts.length → ∀ m ∈ subtreeNodes t.lefts t.rights fuel a, m ≠ a →
      ∃ p, p ∈ subtreeNodes t.lefts t.rights fuel a ∧ isParent t p m ∧
        p < t.lefts.length := by
  intro fuel
  induction fuel with
  | zero =>
    intro a _ m hm
    simp [subtreeNodes] at hm
  | succ fuel ih =>
    intro a ha m hm hne
    rw [subtreeNodes] at hm
    by_cases hint : t.lefts.getD a (-1) = -1
    · rw [if_pos hint] at hm
      have : m = a := by simpa using hm
      exact absurd this hne
    · rw [if_neg hint] at hm
      obtain ⟨⟨hl1, hl2⟩, hr1, hr2⟩ := child_bounds_of_wf hwf a ha hint
      rcases List.mem_cons.mp hm with h | h
      · exact absurd h hne
      · rcases List.mem_append.mp h with h | h
        · by_cases hml : m = (t.lefts.getD a (-1)).toNat
          · refine ⟨a, ?_, Or.inl (by omega), ha⟩
            rw [subtreeNodes, if_neg hint]
            exact List.mem_cons_self _ _
          · obtain ⟨p, hp1, hp2, hp3⟩ := ih _ (by omega) m h hml
            refine ⟨p, ?_, hp2, hp3⟩
            rw [subtreeNodes, if_neg hint]
            exact List.mem_cons_of_mem _ (List.mem_append.mpr (Or.inl hp1))
        · by_cases hmr : m = (t.rights.getD a (-1)).toNat
          · refine ⟨a, ?_, Or.inr (by omega), ha⟩
            rw [subtreeNodes, if_neg hint]
            exact List.mem_cons_self _ _
          · obtain ⟨p, hp1, hp2, hp3⟩ := ih _ (by omega) m h hmr
            refine ⟨p, ?_, hp2, hp3⟩
            rw [subtreeNodes, if_neg hint]
            exact List.mem_cons_of_mem _ (List.mem_append.mpr (Or.inr hp1))

lemma subtree_sibling_disjoint (t : TreeParameters) (hwf : WF t) :
    ∀ m f1 f2 i, i < t.lefts.length → t.lefts.getD i (-1) ≠ -1 →
      m ∈ subtreeNodes t.lefts t.rights f1 (t.lefts.getD i (-1)).toNat →
      m ∈ subtreeNodes t.lefts t.rights f2 (t.rights.getD i (-1)).toNat → False := by
  intro m
  induction m using Nat.strong_induction_on with
  | _ m ihm =>
    intro f1 f2 i hi hint hml hmr
    obtain ⟨⟨hl1, hl2⟩, hr1, hr2⟩ := child_bounds_of_wf hwf i hi hint
    have hbl := subtree_mem_bounds t hwf f1 _ (by omega) m hml
    have hbr := subtree_mem_bounds t hwf f2 _ (by omega) m hmr
    by_cases hmL : m = (t.lefts.getD i (-1)).toNat
    · by_cases hmR : m = (t.rights.getD i (-1)).toNat
      · exact children_distinct t hwf i hi hint (by omega)
      · obtain ⟨p, hp1, hp2, hp3⟩ := subtree_parent t hwf f2 _ (by omega) m hmr hmR
        have hpi : p = i := parent_unique t hwf m p i (by omega) (by omega) hp3 hi hp2
          (Or.inl (by omega))
        have := subtree_mem_bounds t hwf f2 _ (by omega) p hp1
        omega
    · by_cases hmR : m = (t.rights.getD i (-1)).toNat
      · obtain ⟨p, hp1, hp2, hp3⟩ := subtree_parent t hwf f1 _ (by omega) m hml hmL
        have hpi : p = i := parent_unique t hwf m p i (by omega) (by omega) hp3 hi hp2
          (Or.inr (by omega))
        have := subtree_mem_bounds t hwf f1 _ (by omega) p hp1
        omega
      · obtain ⟨p1, hp11, hp12, hp13⟩ := subtree_parent t hwf f1 _ (by omega) m hml hmL
        obtain ⟨p2, hp21, hp22, hp23⟩ := subtree_parent t hwf f2 _ (by omega) m hmr hmR
        have hpp : p1 = p2 := parent_unique t hwf m p1 p2 (by omega) (by omega) hp13 hp23
          hp12 hp22
        subst hpp
        have hplt := parent_lt t hwf p1 m hp13 (by omega) hp12
        exact ihm p1 (by omega) f1 f2 i hi hint hp11 hp21

end TreeCommons

namespace TreeCommons

lemma pyGet_eq {α : Type} (l : List α) (j : Int) (d : α) (h0 : 0 ≤ j)
    (h : j.toNat < l.length) : pyGet l j = some (l.getD j.toNat d) := by
  rw [pyGet]
  simp only [if_neg (show ¬ j < 0 by omega), if_pos h0]
  rw [List.getElem?_eq_getElem h, List.getD_eq_getElem _ _ h]

lemma pySet_eq {α : Type} (l : List α) (j : Int) (a : α) (h0 : 0 ≤ j)
    (h : j.toNat < l.length) : pySet l j a = some (l.set j.toNat a) := by
  rw [pySet]
  rw [if_neg (show ¬ j < 0 by omega), if_pos (by omega)]

/-- The class column contributed by node i: the leaf value, normalized when the value
array's last axis exceeds one. -/
def probaOf (values : List (List Rat)) (i : Nat) : List Rat :=
  if 1 < npShapeLast values then
    (values.getD i []).map (fun x => x / (values.getD i []).sum)
  else values.getD i []

lemma nodes5_get (t : TreeParameters) (hr : t.rights.length = t.lefts.length)
    (hf : t.features.length = t.lefts.length) (hth : t.thresholds.length = t.lefts.length)
    (hv : t.values.length = t.lefts.length) (i : Nat) (hi : i < t.lefts.length) :
    (t.lefts.zip (t.rights.zip (t.features.zip (t.thresholds.zip t.values))))[i]? =
      some (t.lefts.getD i (-1), t.rights.getD i (-1), t.features.getD i (-1),
        t.thresholds.getD i 0, t.values.getD i []) := by
  have h4 : i < (t.thresholds.zip t.values).length := by
    rw [List.length_zip]; omega
  have h3 : i < (t.features.zip (t.thresholds.zip t.values)).length := by
    rw [List.length_zip]; omega
  have h2 : i < (t.rights.zip (t.features.zip (t.thresholds.zip t.values))).length := by
    rw [List.length_zip]; omega
  rw [getElem?_zip_pair t.lefts _ i (-1)
    ((-1 : Int), (-1 : Int), (0 : Rat), ([] : List Rat)) (by omega) h2]
  rw [getD_zip_pair t.rights _ i (-1) ((-1 : Int), (0 : Rat), ([] : List Rat))
    (by omega) h3]
  rw [getD_zip_pair t.features _ i (-1) ((0 : Rat), ([] : List Rat)) (by omega) h4]
  rw [getD_zip_pair t.thresholds t.values i 0 [] (by omega) (by omega)]

end TreeCommons

namespace TreeCommons

lemma pyGet_nonneg {α : Type} (l : List α) (j : Int) (h0 : 0 ≤ j) :
    pyGet l j = l[j.toNat]? := by
  rw [pyGet]
  simp only [if_neg (show ¬ j < 0 by omega), if_pos h0]

lemma gemmStep_leaf (t : TreeParameters) (hwf : WF t)
    (nodes : List (Int × Int × Int × Rat × List Rat))
    (hnodes : ∀ k, k < t.lefts.length → nodes[k]? = some (t.lefts.getD k (-1),
      t.rights.getD k (-1), t.features.getD k (-1), t.thresholds.getD k 0,
      t.values.getD k []))
    (P : List Int) (i : Nat) (visited : List Bool) (hw : List (List Rat)) (hb : List Rat)
    (cp : List (List Rat)) (hi : i < t.lefts.length)
    (hvl : visited.length = t.lefts.length)
    (hleafi : t.lefts.getD i (-1) = -1) (hrleafi : t.rights.getD i (-1) = -1)
    (hok : stepsOk t.lefts t.rights (P ++ [(i : Int)])) :
    gemmStep t.lefts t.rights t.values (numInt t.lefts t.lefts.length) nodes
      ⟨P ++ [(i : Int)], visited, hw, hb, cp⟩ =
      some ⟨P, visited.set i true,
        hw ++ [specRow t.lefts t.rights (numInt t.lefts t.lefts.length)
          (P ++ [(i : Int)])],
        hb ++ [(leftSteps t.lefts (P ++ [(i : Int)]) : Rat)],
        cp ++ [probaOf t.values i]⟩ := by
  have hset := pySet_eq visited (i : Int) true (by omega)
    (by rw [Int.toNat_natCast]; omega)
  have hget := pyGet_nonneg nodes (i : Int) (by omega)
  have hlr := leafRow_eq_spec t hwf (P ++ [(i : Int)]) hok
  have hgv := pyGet_eq t.values (i : Int) [] (by omega)
    (by rw [Int.toNat_natCast, hwf.2.2.2.1]; omega)
  simp only [gemmStep, List.getLast?_concat, hset, hget, Int.toNat_natCast, hnodes i hi]
  rw [if_pos ⟨hleafi, hrleafi⟩]
  simp only [hlr, hgv, Int.toNat_natCast, List.dropLast_concat, probaOf]

end TreeCommons

namespace TreeCommons

lemma gemmStep_push_left (t : TreeParameters) (hwf : WF t)
    (nodes : List (Int × Int × Int × Rat × List Rat))
    (hnodes : ∀ k, k < t.lefts.length → nodes[k]? = some (t.lefts.getD k (-1),
      t.rights.getD k (-1), t.features.getD k (-1), t.thresholds.getD k 0,
      t.values.getD k []))
    (P : List Int) (i : Nat) (visited : List Bool) (hw : List (List Rat)) (hb : List Rat)
    (cp : List (List Rat)) (hi : i < t.lefts.length)
    (hvl : visited.length = t.lefts.length)
    (hint : t.lefts.getD i (-1) ≠ -1)
    (hnotvis : (visited.set i true).getD (t.lefts.getD i (-1)).toNat false = false) :
    gemmStep t.lefts t.rights t.values (numInt t.lefts t.lefts.length) nodes
      ⟨P ++ [(i : Int)], visited, hw, hb, cp⟩ =
      some ⟨(P ++ [(i : Int)]) ++ [t.lefts.getD i (-1)], visited.set i true,
        hw, hb, cp⟩ := by
  obtain ⟨⟨hl1, hl2⟩, hr1, hr2⟩ := child_bounds_of_wf hwf i hi hint
  have hset := pySet_eq visited (i : Int) true (by omega)
    (by rw [Int.toNat_natCast]; omega)
  have hget := pyGet_nonneg nodes (i : Int) (by omega)
  have hgvl := pyGet_eq (visited.set i true) (t.lefts.getD i (-1)) false (by omega)
    (by rw [List.length_set]; omega)
  simp only [gemmStep, List.getLast?_concat, hset, hget, Int.toNat_natCast, hnodes i hi]
  rw [if_neg (by tauto)]
  simp only [hgvl, hnotvis]
  rw [if_pos trivial]

lemma gemmStep_push_right (t : TreeParameters) (hwf : WF t)
    (nodes : List (Int × Int × Int × Rat × List Rat))
    (hnodes : ∀ k, k < t.lefts.length → nodes[k]? = some (t.lefts.getD k (-1),
      t.rights.getD k (-1), t.features.getD k (-1), t.thresholds.getD k 0,
      t.values.getD k []))
    (P : List Int) (i : Nat) (visited : List Bool) (hw : List (List Rat)) (hb : List Rat)
    (cp : List (List Rat)) (hi : i < t.lefts.length)
    (hvl : visited.length = t.lefts.length)
    (hint : t.lefts.getD i (-1) ≠ -1)
    (hvisl : (visited.set i true).getD (t.lefts.getD i (-1)).toNat false = true)
    (hnotvisr : (visited.set i true).getD (t.rights.getD i (-1)).toNat false = false) :
    gemmStep t.lefts t.rights t.values (numInt t.lefts t.lefts.length) nodes
      ⟨P ++ [(i : Int)], visited, hw, hb, cp⟩ =
      some ⟨(P ++ [(i : Int)]) ++ [t.rights.getD i (-1)], visited.set i true,
        hw, hb, cp⟩ := by
  obtain ⟨⟨hl1, hl2⟩, hr1, hr2⟩ := child_bounds_of_wf hwf i hi hint
  have hset := pySet_eq visited (i : Int) true (by omega)
    (by rw [Int.toNat_natCast]; omega)
  have hget := pyGet_nonneg nodes (i : Int) (by omega)
  have hgvl := pyGet_eq (visited.set i true) (t.lefts.getD i (-1)) false (by omega)
    (by rw [List.length_set]; omega)
  have hgvr := pyGet_eq (visited.set i true) (t.rights.getD i (-1)) false (by omega)
    (by rw [List.length_set]; omega)
  simp only [gemmStep, List.getLast?_concat, hset, hget, Int.toNat_natCast, hnodes i hi]
  rw [if_neg (by tauto)]
  simp only [hgvl, hvisl]
  rw [if_neg (by decide)]
  simp only [hgvr, hnotvisr]
  rw [if_pos trivial]

lemma gemmStep_pop (t : TreeParameters) (hwf : WF t)
    (nodes : List (Int × Int × Int × Rat × List Rat))
    (hnodes : ∀ k, k < t.lefts.length → nodes[k]? = some (t.lefts.getD k (-1),
      t.rights.getD k (-1), t.features.getD k (-1), t.thresholds.getD k 0,
      t.values.getD k []))
    (P : List Int) (i : Nat) (visited : List Bool) (hw : List (List Rat)) (hb : List Rat)
    (cp : List (List Rat)) (hi : i < t.lefts.length)
    (hvl : visited.length = t.lefts.length)
    (hint : t.lefts.getD i (-1) ≠ -1)
    (hvisl : (visited.set i true).getD (t.lefts.getD i (-1)).toNat false = true)
    (hvisr : (visited.set i true).getD (t.rights.getD i (-1)).toNat false = true) :
    gemmStep t.lefts t.rights t.values (numInt t.lefts t.lefts.length) nodes
      ⟨P ++ [(i : Int)], visited, hw, hb, cp⟩ =
      some ⟨P, visited.set i true, hw, hb, cp⟩ := by
  obtain ⟨⟨hl1, hl2⟩, hr1, hr2⟩ := child_bounds_of_wf hwf i hi hint
  have hset := pySet_eq visited (i : Int) true (by omega)
    (by rw [Int.toNat_natCast]; omega)
  have hget := pyGet_nonneg nodes (i : Int) (by omega)
  have hgvl := pyGet_eq (visited.set i true) (t.lefts.getD i (-1)) false (by omega)
    (by rw [List.length_set]; omega)
  have hgvr := pyGet_eq (visited.set i true) (t.rights.getD i (-1)) false (by omega)
    (by rw [List.length_set]; omega)
  simp only [gemmStep, List.getLast?_concat, hset, hget, Int.toNat_natCast, hnodes i hi]
  rw [if_neg (by tauto)]
  simp only [hgvl, hvisl]
  rw [if_neg (by decide)]
  simp only [hgvr, hvisr]
  rw [if_neg (by decide)]
  simp only [List.dropLast_concat]

end TreeCommons

namespace TreeCommons

lemma stepsOk_snoc (lefts rights : List Int) :
    ∀ (A : List Int) (p c : Int),
      stepsOk lefts rights (A ++ [p]) →
      0 ≤ p → p < (lefts.length : Int) → lefts.getD p.toNat (-1) ≠ -1 →
      (c = lefts.getD p.toNat (-1) ∨ c = rights.getD p.toNat (-1)) →
      stepsOk lefts rights ((A ++ [p]) ++ [c]) := by
  intro A
  induction A with
  | nil =>
    intro p c _ h1 h2 h3 h4
    exact ⟨h1, h2, h3, h4, trivial⟩
  | cons a A ih =>
    intro p c hok h1 h2 h3 h4
    cases A with
    | nil =>
      obtain ⟨g1, g2, g3, g4, g5⟩ := hok
      exact ⟨g1, g2, g3, g4, ih p c g5 h1 h2 h3 h4⟩
    | cons b A =>
      obtain ⟨g1, g2, g3, g4, g5⟩ := hok
      exact ⟨g1, g2, g3, g4, ih p c g5 h1 h2 h3 h4⟩

lemma gemmLoop_step (lefts rights : List Int) (values : List (List Rat)) (ns : Nat)
    (nodes : List (Int × Int × Int × Rat × List Rat)) (st st2 : GemmState)
    (hne : st.path ≠ [])
    (hstep : gemmStep lefts rights values ns nodes st = some st2) :
    ∀ fuel, gemmLoop lefts rights values ns nodes (fuel + 1) st =
      gemmLoop lefts rights values ns nodes fuel st2 := by
  intro fuel
  rw [gemmLoop, if_neg hne]
  show (match gemmStep lefts rights values ns nodes st with
        | none => none
        | some s => gemmLoop lefts rights values ns nodes fuel s) = _
  rw [hstep]

end TreeCommons

namespace TreeCommons

/-- Main invariant of the depth-first stack loop: started on the root of an entirely
unvisited subtree, after a bounded number of iterations the loop pops back to the
enclosing stack, marks exactly the subtree visited, and appends one row, bias and
class column per root-to-leaf path of the subtree, in depth-first order. -/
lemma gemmDFS_subtree (t : TreeParameters) (hwf : WF t)
    (nodes : List (Int × Int × Int × Rat × List Rat))
    (hnodes : ∀ k, k < t.lefts.length → nodes[k]? = some (t.lefts.getD k (-1),
      t.rights.getD k (-1), t.features.getD k (-1), t.thresholds.getD k 0,
      t.values.getD k [])) :
    ∀ (d i : Nat) (P : List Int) (visited : List Bool) (hw : List (List Rat))
      (hb : List Rat) (cp : List (List Rat)),
      i < t.lefts.length → t.lefts.length - i ≤ d →
      visited.length = t.lefts.length →
      stepsOk t.lefts t.rights (P ++ [(i : Int)]) →
      (∀ m ∈ subtreeNodes t.lefts t.rights d i, visited.getD m false = false) →
      ∃ steps : Nat, steps ≤ 3 * (subtreeNodes t.lefts t.rights d i).length ∧
        ∃ visited2 : List Bool,
          visited2.length = t.lefts.length ∧
          (∀ m : Nat, visited2.getD m false = true ↔
            (visited.getD m false = true ∨ m ∈ subtreeNodes t.lefts t.rights d i)) ∧
          ∀ fuel : Nat,
            gemmLoop t.lefts t.rights t.values (numInt t.lefts t.lefts.length) nodes
              (steps + fuel) ⟨P ++ [(i : Int)], visited, hw, hb, cp⟩ =
            gemmLoop t.lefts t.rights t.values (numInt t.lefts t.lefts.length) nodes
              fuel ⟨P, visited2,
                hw ++ (dfsPaths t.lefts t.rights d P i).map
                  (specRow t.lefts t.rights (numInt t.lefts t.lefts.length)),
                hb ++ (dfsPaths t.lefts t.rights d P i).map
                  (fun Q => ((leftSteps t.lefts Q : Nat) : Rat)),
                cp ++ (dfsPaths t.lefts t.rights d P i).map
                  (fun Q => probaOf t.values (Q.getLastD 0).toNat)⟩ := by
  intro d
  induction d with
  | zero =>
    intro i P visited hw hb cp hi hd _ _ _
    exact absurd hi (by omega)
  | succ d ih =>
    intro i P visited hw hb cp hi hd hvl hok hunvis
    by_cases hint : t.lefts.getD i (-1) = -1
    · have hrleaf : t.rights.getD i (-1) = -1 := (hwf.2.2.2.2.2.1 i hi).mp hint
      have hsub : subtreeNodes t.lefts t.rights (d + 1) i = [i] := by
        rw [subtreeNodes, if_pos hint]
      have hdfs : dfsPaths t.lefts t.rights (d + 1) P i = [P ++ [(i : Int)]] := by
        rw [dfsPaths, if_pos hint]
      refine ⟨1, by simp [hsub], visited.set i true,
        by rw [List.length_set, hvl], ?_, ?_⟩
      · intro m
        rw [hsub]
        by_cases hm : m = i
        · subst hm
          rw [getD_set_self _ _ _ _ (by omega)]
          simp
        · rw [getD_set_ne _ _ _ _ _ (Ne.symm hm)]
          simp [hm]
      · intro fuel
        rw [show 1 + fuel = fuel + 1 by omega]
        rw [gemmLoop_step _ _ _ _ _ _ _ (by simp)
          (gemmStep_leaf t hwf nodes hnodes P i visited hw hb cp hi hvl hint hrleaf hok) fuel]
        rw [hdfs]
        simp only [List.map_cons, List.map_nil, List.getLastD_concat, Int.toNat_natCast]
    · obtain ⟨⟨hl1, hl2⟩, hr1, hr2⟩ := child_bounds_of_wf hwf i hi hint
      have hLc : (((t.lefts.getD i (-1)).toNat : Nat) : Int) = t.lefts.getD i (-1) := by
        omega
      have hRc : (((t.rights.getD i (-1)).toNat : Nat) : Int) = t.rights.getD i (-1) := by
        omega
      have hlcn : (t.lefts.getD i (-1)).toNat < t.lefts.length := by omega
      have hrcn : (t.rights.getD i (-1)).toNat < t.lefts.length := by omega
      have hilc : i < (t.lefts.getD i (-1)).toNat := by omega
      have hirc : i < (t.rights.getD i (-1)).toNat := by omega
      have hdl : 0 < d := by omega
      have hsub : subtreeNodes t.lefts t.rights (d + 1) i =
          i :: (subtreeNodes t.lefts t.rights d (t.lefts.getD i (-1)).toNat ++
            subtreeNodes t.lefts t.rights d (t.rights.getD i (-1)).toNat) := by
        rw [subtreeNodes, if_neg hint]
      have hdfs : dfsPaths t.lefts t.rights (d + 1) P i =
          dfsPaths t.lefts t.rights d (P ++ [(i : Int)]) (t.lefts.getD i (-1)).toNat ++
          dfsPaths t.lefts t.rights d (P ++ [(i : Int)]) (t.rights.getD i (-1)).toNat := by
        rw [dfsPaths, if_neg hint]
      have hmemL : (t.lefts.getD i (-1)).toNat ∈
          subtreeNodes t.lefts t.rights d (t.lefts.getD i (-1)).toNat :=
        subtree_self _ _ _ _ hdl
      have hmemR : (t.rights.getD i (-1)).toNat ∈
          subtreeNodes t.lefts t.rights d (t.rights.getD i (-1)).toNat :=
        subtree_self _ _ _ _ hdl
      have hokL : stepsOk t.lefts t.rights ((P ++ [(i : Int)]) ++ [t.lefts.getD i (-1)]) :=
        stepsOk_snoc t.lefts t.rights P (i : Int) (t.lefts.getD i (-1)) hok
          (by omega) (by omega) (by rw [Int.toNat_natCast]; exact hint)
          (Or.inl (by rw [Int.toNat_natCast]))
      have hokR : stepsOk t.lefts t.rights ((P ++ [(i : Int)]) ++ [t.rights.getD i (-1)]) :=
        stepsOk_snoc t.lefts t.rights P (i : Int) (t.rights.getD i (-1)) hok
          (by omega) (by omega) (by rw [Int.toNat_natCast]; exact hint)
          (Or.inr (by rw [Int.toNat_natCast]))
      have hunvisL : ∀ m ∈ subtreeNodes t.lefts t.rights d (t.lefts.getD i (-1)).toNat,
          (visited.set i true).getD m false = false := by
        intro m hm
        have hmb := subtree_mem_bounds t hwf d _ hlcn m hm
        rw [getD_set_ne _ _ _ _ _ (by omega)]
        exact hunvis m (by
          rw [hsub]
          exact List.mem_cons_of_mem _ (List.mem_append.mpr (Or.inl hm)))
      obtain ⟨sL, hsL, vL, hvLlen, hvLchar, hloopL⟩ := ih (t.lefts.getD i (-1)).toNat
        (P ++ [(i : Int)]) (visited.set i true) hw hb cp hlcn (by omega)
        (by rw [List.length_set, hvl]) (by rw [hLc]; exact hokL) hunvisL
      rw [hLc] at hloopL
      have hrcvL : vL.getD (t.rights.getD i (-1)).toNat false = false := by
        cases h : vL.getD (t.rights.getD i (-1)).toNat false
        · rfl
        · exfalso
          rcases (hvLchar _).mp h with h1 | h1
          · rw [getD_set_ne _ _ _ _ _ (by omega)] at h1
            have h2 := hunvis (t.rights.getD i (-1)).toNat (by
              rw [hsub]
              exact List.mem_cons_of_mem _ (List.mem_append.mpr (Or.inr hmemR)))
            rw [h2] at h1
            exact Bool.false_ne_true h1
          · exact subtree_sibling_disjoint t hwf _ d d i hi hint h1 hmemR
      have hvislL : (vL.set i true).getD (t.lefts.getD i (-1)).toNat false = true := by
        rw [getD_set_ne _ _ _ _ _ (by omega)]
        exact (hvLchar _).mpr (Or.inr hmemL)
      have hnotvisR : (vL.set i true).getD (t.rights.getD i (-1)).toNat false = false := by
        rw [getD_set_ne _ _ _ _ _ (by omega)]
        exact hrcvL
      have hunvisR : ∀ m ∈ subtreeNodes t.lefts t.rights d (t.rights.getD i (-1)).toNat,
          (vL.set i true).getD m false = false := by
        intro m hm
        have hmb := subtree_mem_bounds t hwf d _ hrcn m hm
        rw [getD_set_ne _ _ _ _ _ (by omega)]
        cases h : vL.getD m false
        · rfl
        · exfalso
          rcases (hvLchar _).mp h with h1 | h1
          · rw [getD_set_ne _ _ _ _ _ (by omega)] at h1
            have h2 := hunvis m (by
              rw [hsub]
              exact List.mem_cons_of_mem _ (List.mem_append.mpr (Or.inr hm)))
            rw [h2] at h1
            exact Bool.false_ne_true h1
          · exact subtree_sibling_disjoint t hwf m d d i hi hint h1 hm
      obtain ⟨sR, hsR, vR, hvRlen, hvRchar, hloopR⟩ := ih (t.rights.getD i (-1)).toNat
        (P ++ [(i : Int)]) (vL.set i true)
        (hw ++ (dfsPaths t.lefts t.rights d (P ++ [(i : Int)])
            (t.lefts.getD i (-1)).toNat).map
          (specRow t.lefts t.rights (numInt t.lefts t.lefts.length)))
        (hb ++ (dfsPaths t.lefts t.rights d (P ++ [(i : Int)])
            (t.lefts.getD i (-1)).toNat).map
          (fun Q => ((leftSteps t.lefts Q : Nat) : Rat)))
        (cp ++ (dfsPaths t.lefts t.rights d (P ++ [(i : Int)])
            (t.lefts.getD i (-1)).toNat).map
          (fun Q => probaOf t.values (Q.getLastD 0).toNat))
        hrcn (by omega) (by rw [List.length_set, hvLlen]) (by rw [hRc]; exact hokR) hunvisR
      rw [hRc] at hloopR
      have hvislR : (vR.set i true).getD (t.lefts.getD i (-1)).toNat false = true := by
        rw [getD_set_ne _ _ _ _ _ (by omega)]
        exact (hvRchar _).mpr (Or.inl hvislL)
      have hvisrR : (vR.set i true).getD (t.rights.getD i (-1)).toNat false = true := by
        rw [getD_set_ne _ _ _ _ _ (by omega)]
        exact (hvRchar _).mpr (Or.inr hmemR)
      have hnotvisL : (visited.set i true).getD (t.lefts.getD i (-1)).toNat false = false := by
        rw [getD_set_ne _ _ _ _ _ (by omega)]
        exact hunvis _ (by
          rw [hsub]
          exact List.mem_cons_of_mem _ (List.mem_append.mpr (Or.inl hmemL)))
      refine ⟨sL + sR + 3, by rw [hsub, List.length_cons, List.length_append]; omega,
        vR.set i true, by rw [List.length_set, hvRlen], ?_, ?_⟩
      · intro m
        by_cases hm : m = i
        · subst hm
          rw [getD_set_self _ _ _ _ (by omega)]
          simp [hsub]
        · rw [getD_set_ne _ _ _ _ _ (Ne.symm hm)]
          rw [hvRchar m]
          rw [getD_set_ne _ _ _ _ _ (Ne.symm hm)]
          rw [hvLchar m]
          rw [getD_set_ne _ _ _ _ _ (Ne.symm hm)]
          rw [hsub]
          constructor
          · rintro ((h | h) | h)
            · exact Or.inl h
            · exact Or.inr (List.mem_cons_of_mem _ (List.mem_append.mpr (Or.inl h)))
            · exact Or.inr (List.mem_cons_of_mem _ (List.mem_append.mpr (Or.inr h)))
          · rintro (h | h)
            · exact Or.inl (Or.inl h)
            · rcases List.mem_cons.mp h with h | h
              · exact absurd h hm
              · rcases List.mem_append.mp h with h | h
                · exact Or.inl (Or.inr h)
                · exact Or.inr h
      · intro fuel
        rw [show sL + sR + 3 + fuel = (sL + ((sR + (fuel + 1)) + 1)) + 1 by omega]
        rw [gemmLoop_step _ _ _ _ _ _ _ (by simp)
          (gemmStep_push_left t hwf nodes hnodes P i visited hw hb cp hi hvl hint hnotvisL)
          (sL + ((sR + (fuel + 1)) + 1))]
        rw [hloopL ((sR + (fuel + 1)) + 1)]
        rw [gemmLoop_step _ _ _ _ _ _ _ (by simp)
          (gemmStep_push_right t hwf nodes hnodes P i vL _ _ _ hi hvLlen hint hvislL hnotvisR)
          (sR + (fuel + 1))]
        rw [hloopR (fuel + 1)]
        rw [gemmLoop_step _ _ _ _ _ _ _ (by simp)
          (gemmStep_pop t hwf nodes hnodes P i vR _ _ _ hi hvRlen hint hvislR hvisrR) fuel]
        rw [hdfs, List.map_append, List.map_append, List.map_append]
        rw [List.append_assoc, List.append_assoc, List.append_assoc]

end TreeCommons

namespace TreeCommons

lemma subtree_nodup (t : TreeParameters) (hwf : WF t) :
    ∀ d i, i < t.lefts.length → (subtreeNodes t.lefts t.rights d i).Nodup := by
  intro d
  induction d with
  | zero =>
    intro i _
    simp [subtreeNodes]
  | succ d ih =>
    intro i hi
    by_cases hint : t.lefts.getD i (-1) = -1
    · rw [subtreeNodes, if_pos hint]
      simp
    · rw [subtreeNodes, if_neg hint]
      obtain ⟨⟨hl1, hl2⟩, hr1, hr2⟩ := child_bounds_of_wf hwf i hi hint
      rw [List.nodup_cons]
      refine ⟨?_, ?_⟩
      · intro hmem
        rcases List.mem_append.mp hmem with h | h
        · have := subtree_mem_bounds t hwf d _ (by omega) i h
          omega
        · have := subtree_mem_bounds t hwf d _ (by omega) i h
          omega
      · apply List.Nodup.append (ih _ (by omega)) (ih _ (by omega))
        intro a ha hb
        exact subtree_sibling_disjoint t hwf a d d i hi hint ha hb

lemma subtree_length_le (t : TreeParameters) (hwf : WF t) (d i : Nat)
    (hi : i < t.lefts.length) :
    (subtreeNodes t.lefts t.rights d i).length ≤ t.lefts.length := by
  have hnd := subtree_nodup t hwf d i hi
  rw [← List.toFinset_card_of_nodup hnd]
  have hsub : (subtreeNodes t.lefts t.rights d i).toFinset ⊆
      Finset.range t.lefts.length := by
    intro m hm
    rw [List.mem_toFinset] at hm
    exact Finset.mem_range.mpr (subtree_mem_bounds t hwf d i hi m hm).2
  calc (subtreeNodes t.lefts t.rights d i).toFinset.card
      ≤ (Finset.range t.lefts.length).card := Finset.card_le_card hsub
    _ = t.lefts.length := Finset.card_range _

lemma getD_replicate_self {α : Type} (n m : Nat) (a : α) :
    (List.replicate n a).getD m a = a := by
  rcases Nat.lt_or_ge m n with h | h
  · rw [List.getD_eq_getElem _ _ (by simpa using h), List.getElem_replicate]
  · rw [List.getD_eq_default _ _ (by simpa using h)]

end TreeCommons

namespace TreeCommons

lemma corrected_length_ne_one (t0 : TreeParameters) :
    ¬ (correct_single_leaf t0).lefts.length = 1 := by
  by_cases h : t0.lefts.length = 1
  · rw [correct_single_leaf, if_pos h]
    show ¬ ([1, -1, -1] : List Int).length = 1
    decide
  · rw [correct_single_leaf_of_ne t0 h]
    exact h

lemma gemmLoop_nil (lefts rights : List Int) (values : List (List Rat)) (ns : Nat)
    (nodes : List (Int × Int × Int × Rat × List Rat)) (fuel : Nat) (st : GemmState)
    (h : st.path = []) :
    gemmLoop lefts rights values ns nodes fuel st = some st := by
  cases fuel with
  | zero => rw [gemmLoop, if_pos h]
  | succ fuel => rw [gemmLoop, if_pos h]

lemma gemm_common_correct (t0 : TreeParameters) (nf : Nat) :
    get_parameters_for_gemm_common t0 nf =
      get_parameters_for_gemm_common (correct_single_leaf t0) nf := by
  rw [get_parameters_for_gemm_common, get_parameters_for_gemm_common,
    correct_single_leaf_of_ne _ (corrected_length_ne_one t0)]

/-- Closed form of the three GEMM layers on a well-formed tree needing no single-leaf
correction: the comparison layer from the internal nodes in index order, the path
layer with one signed row and one positive-count bias per depth-first root-to-leaf
path, and the transposed class matrix with one (possibly normalized) leaf-value
column per path. -/
lemma gemm_common_spec (t : TreeParameters) (hwf : WF t) (hn : t.lefts.length ≠ 1)
    (nf : Nat) :
    get_parameters_for_gemm_common t nf =
      some ⟨[(gemmLayer1 t.lefts t.features t.thresholds nf).1,
             (dfsPaths t.lefts t.rights t.lefts.length [] 0).map
               (specRow t.lefts t.rights (numInt t.lefts t.lefts.length)),
             npTranspose ((dfsPaths t.lefts t.rights t.lefts.length [] 0).map
               (fun Q => probaOf t.values (Q.getLastD 0).toNat))],
            [some (gemmLayer1 t.lefts t.features t.thresholds nf).2,
             some ((dfsPaths t.lefts t.rights t.lefts.length [] 0).map
               (fun Q => ((leftSteps t.lefts Q : Nat) : Rat))),
             none]⟩ := by
  have hcorr := correct_single_leaf_of_ne t hn
  have hpos : 0 < t.lefts.length := hwf.2.2.2.2.1
  have hnodes : ∀ k, k < t.lefts.length →
      (t.lefts.zip (t.rights.zip (t.features.zip (t.thresholds.zip t.values))))[k]? =
      some (t.lefts.getD k (-1), t.rights.getD k (-1), t.features.getD k (-1),
        t.thresholds.getD k 0, t.values.getD k []) :=
    fun k hk => nodes5_get t hwf.1 hwf.2.1 hwf.2.2.1 hwf.2.2.2.1 k hk
  have hns : (gemmLayer1 t.lefts t.features t.thresholds nf).1.length =
      numInt t.lefts t.lefts.length :=
    (gemmLayer1_spec t.lefts t.features t.thresholds nf hwf.2.1 hwf.2.2.1).1
  obtain ⟨steps, hsteps, v2, hv2len, hv2char, hloop⟩ :=
    gemmDFS_subtree t hwf _ hnodes t.lefts.length 0 []
      (List.replicate t.lefts.length false) [] [] [] hpos (by omega) (by simp) trivial
      (fun m _ => getD_replicate_self _ _ _)
  simp only [List.nil_append, Nat.cast_zero] at hloop
  have hbound := subtree_length_le t hwf t.lefts.length 0 hpos
  rw [get_parameters_for_gemm_common]
  simp only [hcorr, hns]
  rw [show 4 * t.lefts.length + 1 = steps + (4 * t.lefts.length + 1 - steps) by omega]
  rw [hloop (4 * t.lefts.length + 1 - steps)]
  rw [gemmLoop_nil _ _ _ _ _ _ _ rfl]

end TreeCommons

namespace TreeCommons

/-- The consecutive (parent, chosen child) pairs of a stack path, exactly the pairs
enumerated by zip(path[:-1], path[1:]) in the reconstruction loop. -/
def pathPairs : List Int → List (Int × Int)
  | p :: nxt :: rest => (p, nxt) :: pathPairs (nxt :: rest)
  | _ => []

lemma count_cons_ite {α : Type} [DecidableEq α] (y b : α) (l : List α) :
    (y :: l).count b = l.count b + (if y = b then 1 else 0) := by
  rcases eq_or_ne y b with h | h
  · subst h
    rw [List.count_cons_self, if_pos rfl]
  · rw [List.count_cons_of_ne (Ne.symm h), if_neg h, Nat.add_zero]

lemma count_set_add {α : Type} [DecidableEq α] :
    ∀ (l : List α) (i : Nat) (a b d : α), i < l.length →
      (l.set i a).count b + (if l.getD i d = b then 1 else 0) =
        l.count b + (if a = b then 1 else 0) := by
  intro l
  induction l with
  | nil =>
    intro i a b d hi
    simp at hi
  | cons x l ih =>
    intro i a b d hi
    cases i with
    | zero =>
      show (a :: l).count b + (if x = b then 1 else 0) =
        (x :: l).count b + (if a = b then 1 else 0)
      rw [count_cons_ite, count_cons_ite]
      omega
    | succ i =>
      show (x :: l.set i a).count b + (if l.getD i d = b then 1 else 0) =
        (x :: l).count b + (if a = b then 1 else 0)
      rw [count_cons_ite, count_cons_ite]
      have := ih i a b d (by simpa using hi)
      omega

/-- Every pair of a valid chain is a parent with one of its two children. -/
lemma pathPairs_ok (lefts rights : List Int) :
    ∀ Q, stepsOk lefts rights Q → ∀ pr ∈ pathPairs Q,
      0 ≤ pr.1 ∧ pr.1 < (lefts.length : Int) ∧ lefts.getD pr.1.toNat (-1) ≠ -1 ∧
      (pr.2 = lefts.getD pr.1.toNat (-1) ∨ pr.2 = rights.getD pr.1.toNat (-1)) := by
  intro Q
  induction Q with
  | nil =>
    intro _ pr hpr
    simp [pathPairs] at hpr
  | cons p Q ih =>
    intro hok pr hpr
    cases Q with
    | nil =>
      simp [pathPairs] at hpr
    | cons nxt rest =>
      obtain ⟨h1, h2, h3, h4, h5⟩ := hok
      rcases List.mem_cons.mp hpr with h | h
      · subst h
        exact ⟨h1, h2, h3, h4⟩
      · exact ih h5 pr h

/-- Along a valid chain of a well-formed tree every later pair's parent is at least
the head node (children always carry larger ids). -/
lemma pathPairs_firsts_ge (t : TreeParameters) (hwf : WF t) :
    ∀ Q x, stepsOk t.lefts t.rights (x :: Q) → ∀ pr ∈ pathPairs (x :: Q), x ≤ pr.1 := by
  intro Q
  induction Q with
  | nil =>
    intro x _ pr hpr
    simp [pathPairs] at hpr
  | cons y Q ih =>
    intro x hok pr hpr
    obtain ⟨h1, h2, h3, h4, h5⟩ := hok
    have hxq : x.toNat < t.lefts.length := by omega
    obtain ⟨⟨hl1, hl2⟩, hr1, hr2⟩ := child_bounds_of_wf hwf x.toNat hxq h3
    have hxy : x < y := by
      rcases h4 with h | h <;> omega
    rcases List.mem_cons.mp hpr with h | h
    · subst h
      exact le_refl x
    · have := ih y h5 pr h
      omega

/-- Columns not set by any pair of the chain are left unchanged. -/
lemma specRowAux_untouched (lefts rights : List Int) :
    ∀ (Q : List Int) (vec : List Rat) (c : Nat),
      (∀ pr ∈ pathPairs Q, numInt lefts pr.1.toNat ≠ c) →
      (specRowAux lefts rights Q vec).getD c 0 = vec.getD c 0 := by
  intro Q
  induction Q with
  | nil =>
    intro vec c _
    rfl
  | cons p Q ih =>
    intro vec c hout
    cases Q with
    | nil => rfl
    | cons nxt rest =>
      show (specRowAux lefts rights (nxt :: rest)
          (vec.set (numInt lefts p.toNat)
            (if nxt = lefts.getD p.toNat (-1) then 1 else -1))).getD c 0 = vec.getD c 0
      rw [ih _ c (fun pr hpr => hout pr (List.mem_cons_of_mem _ hpr))]
      rw [getD_set_ne _ _ _ _ _ (hout (p, nxt) (List.mem_cons_self _ _))]

lemma specRowAux_length (lefts rights : List Int) :
    ∀ (Q : List Int) (vec : List Rat),
      (specRowAux lefts rights Q vec).length = vec.length := by
  intro Q
  induction Q with
  | nil => intro vec; rfl
  | cons p Q ih =>
    intro vec
    cases Q with
    | nil => rfl
    | cons nxt rest =>
      show (specRowAux lefts rights (nxt :: rest) _).length = _
      rw [ih]
      exact List.length_set _ _ _

end TreeCommons

namespace TreeCommons

/-- Entrywise characterization of the signed path row: the column of internal node q
holds 1 when the chain steps from q to its left child, -1 when it steps to its right
child, and the prior content (0 for the zero-initialized row) when q is not stepped
through. -/
lemma specRowAux_getD (t : TreeParameters) (hwf : WF t) :
    ∀ (Q : List Int) (vec : List Rat) (q : Nat),
      stepsOk t.lefts t.rights Q →
      vec.length = numInt t.lefts t.lefts.length →
      q < t.lefts.length → t.lefts.getD q (-1) ≠ -1 →
      (specRowAux t.lefts t.rights Q vec).getD (numInt t.lefts q) 0 =
        if ((q : Int), t.lefts.getD q (-1)) ∈ pathPairs Q then 1
        else if ((q : Int), t.rights.getD q (-1)) ∈ pathPairs Q then -1
        else vec.getD (numInt t.lefts q) 0 := by
  intro Q
  induction Q with
  | nil =>
    intro vec q _ _ _ _
    rfl
  | cons p Q ih =>
    intro vec q hok hlen hq hint
    cases Q with
    | nil => rfl
    | cons nxt rest =>
      obtain ⟨h1, h2, h3, h4, h5⟩ := hok
      obtain ⟨⟨hql1, hql2⟩, hqr1, hqr2⟩ := child_bounds_of_wf hwf q hq hint
      have hcq : numInt t.lefts q < numInt t.lefts t.lefts.length :=
        numInt_lt_of_internal t.lefts t.lefts.length le_rfl q hq hint
      by_cases hpq : p = (q : Int)
      · subst hpq
        have hptn : ((q : Int)).toNat = q := Int.toNat_natCast q
        have hnxtgt : (q : Int) < nxt := by
          rw [hptn] at h4
          rcases h4 with h | h <;> omega
        have huntouched : ∀ pr ∈ pathPairs (nxt :: rest),
            numInt t.lefts pr.1.toNat ≠ numInt t.lefts q := by
          intro pr hpr
          have hge := pathPairs_firsts_ge t hwf rest nxt h5 pr hpr
          obtain ⟨hp1, hp2, hp3, _⟩ := pathPairs_ok t.lefts t.rights (nxt :: rest) h5 pr hpr
          have hlt : q < pr.1.toNat := by omega
          have := numInt_lt_of_internal t.lefts pr.1.toNat (by omega) q hlt hint
          omega
        rcases h4 with hnl | hnr
        · rw [hptn] at hnl
          rw [if_pos (by
            rw [show pathPairs ((q : Int) :: nxt :: rest) =
              ((q : Int), nxt) :: pathPairs (nxt :: rest) from rfl, ← hnl]
            exact List.mem_cons_self _ _)]
          show (specRowAux t.lefts t.rights (nxt :: rest)
            (vec.set (numInt t.lefts ((q : Int)).toNat)
              (if nxt = t.lefts.getD ((q : Int)).toNat (-1) then 1 else -1))).getD
              (numInt t.lefts q) 0 = 1
          rw [specRowAux_untouched _ _ _ _ _ huntouched]
          rw [hptn, if_pos hnl, getD_set_self _ _ _ _ (by omega)]
        · rw [hptn] at hnr
          have hlcrc : t.lefts.getD q (-1) ≠ t.rights.getD q (-1) := by
            intro hcon
            exact children_distinct t hwf q hq hint (by omega)
          have hnotl : ¬ (((q : Int), t.lefts.getD q (-1)) ∈
              pathPairs ((q : Int) :: nxt :: rest)) := by
            intro hmem
            rcases List.mem_cons.mp hmem with h | h
            · have := congrArg Prod.snd h
              simp only at this
              rw [hnr] at this
              exact hlcrc this
            · have hge := pathPairs_firsts_ge t hwf rest nxt h5 _ h
              simp only at hge
              omega
          rw [if_neg hnotl]
          rw [if_pos (by
            rw [show pathPairs ((q : Int) :: nxt :: rest) =
              ((q : Int), nxt) :: pathPairs (nxt :: rest) from rfl]
            rw [hnr]
            exact List.mem_cons_self _ _)]
          show (specRowAux t.lefts t.rights (nxt :: rest)
            (vec.set (numInt t.lefts ((q : Int)).toNat)
              (if nxt = t.lefts.getD ((q : Int)).toNat (-1) then 1 else -1))).getD
              (numInt t.lefts q) 0 = -1
          rw [specRowAux_untouched _ _ _ _ _ huntouched]
          rw [hptn, if_neg (by rw [hnr]; exact Ne.symm hlcrc),
            getD_set_self _ _ _ _ (by omega)]
      · have hptq : p.toNat ≠ q := by omega
        have hcpq : numInt t.lefts p.toNat ≠ numInt t.lefts q := by
          rcases Nat.lt_or_ge p.toNat q with h | h
          · have := numInt_lt_of_internal t.lefts q (by omega) p.toNat h h3
            omega
          · have hlt : q < p.toNat := by omega
            have := numInt_lt_of_internal t.lefts p.toNat (by omega) q hlt hint
            omega
        have hm1 : (((q : Int), t.lefts.getD q (-1)) ∈ pathPairs (p :: nxt :: rest)) ↔
            (((q : Int), t.lefts.getD q (-1)) ∈ pathPairs (nxt :: rest)) := by
          rw [show pathPairs (p :: nxt :: rest) = (p, nxt) :: pathPairs (nxt :: rest)
            from rfl, List.mem_cons]
          constructor
          · rintro (h | h)
            · exact absurd (congrArg Prod.fst h).symm hpq
            · exact h
          · exact fun h => Or.inr h
        have hm2 : (((q : Int), t.rights.getD q (-1)) ∈ pathPairs (p :: nxt :: rest)) ↔
            (((q : Int), t.rights.getD q (-1)) ∈ pathPairs (nxt :: rest)) := by
          rw [show pathPairs (p :: nxt :: rest) = (p, nxt) :: pathPairs (nxt :: rest)
            from rfl, List.mem_cons]
          constructor
          · rintro (h | h)
            · exact absurd (congrArg Prod.fst h).symm hpq
            · exact h
          · exact fun h => Or.inr h
        simp only [hm1, hm2]
        show (specRowAux t.lefts t.rights (nxt :: rest)
          (vec.set (numInt t.lefts p.toNat)
            (if nxt = t.lefts.getD p.toNat (-1) then 1 else -1))).getD
            (numInt t.lefts q) 0 = _
        rw [ih _ q h5 (by rw [List.length_set]; exact hlen) hq hint]
        rw [getD_set_ne _ _ _ _ _ hcpq]

end TreeCommons

namespace TreeCommons

/-- The number of 1 entries written by the signed-row construction equals the number
of left decisions of the chain, provided the columns from the head's column on are
still zero (each step writes a fresh, strictly later column). -/
lemma specRowAux_count (t : TreeParameters) (hwf : WF t) :
    ∀ (Q : List Int) (vec : List Rat) (lo : Nat),
      stepsOk t.lefts t.rights Q →
      vec.length = numInt t.lefts t.lefts.length →
      (∀ p nxt rest, Q = p :: nxt :: rest → lo ≤ numInt t.lefts p.toNat) →
      (∀ c, lo ≤ c → vec.getD c 0 = 0) →
      (specRowAux t.lefts t.rights Q vec).count 1 =
        vec.count 1 + leftSteps t.lefts Q := by
  intro Q
  induction Q with
  | nil =>
    intro vec lo _ _ _ _
    rfl
  | cons p Q ih =>
    intro vec lo hok hlen hlo hzero
    cases Q with
    | nil => rfl
    | cons nxt rest =>
      obtain ⟨h1, h2, h3, h4, h5⟩ := hok
      have hcp : numInt t.lefts p.toNat < numInt t.lefts t.lefts.length :=
        numInt_lt_of_internal t.lefts t.lefts.length le_rfl p.toNat (by omega) h3
      have hlocp : lo ≤ numInt t.lefts p.toNat := hlo p nxt rest rfl
      have hcp0 : vec.getD (numInt t.lefts p.toNat) 0 = 0 := hzero _ hlocp
      obtain ⟨⟨hl1, hl2⟩, hr1, hr2⟩ := child_bounds_of_wf hwf p.toNat (by omega) h3
      have hpn : p < nxt := by
        rcases h4 with h | h <;> omega
      have hboundrec : ∀ p2 nxt2 rest2, (nxt :: rest : List Int) = p2 :: nxt2 :: rest2 →
          numInt t.lefts p.toNat + 1 ≤ numInt t.lefts p2.toNat := by
        intro p2 nxt2 rest2 heq
        cases heq
        obtain ⟨g1, g2, g3, _⟩ := h5
        have hlt : p.toNat < nxt.toNat := by omega
        have := numInt_lt_of_internal t.lefts nxt.toNat (by omega) p.toNat hlt h3
        omega
      by_cases hnl : nxt = t.lefts.getD p.toNat (-1)
      · show (specRowAux t.lefts t.rights (nxt :: rest)
            (vec.set (numInt t.lefts p.toNat)
              (if nxt = t.lefts.getD p.toNat (-1) then 1 else -1))).count 1 = _
        rw [if_pos hnl]
        rw [ih (vec.set (numInt t.lefts p.toNat) 1) (numInt t.lefts p.toNat + 1) h5
          (by rw [List.length_set]; exact hlen) hboundrec
          (by
            intro c hc
            rw [getD_set_ne _ _ _ _ _ (by omega)]
            exact hzero c (by omega))]
        have hcs := count_set_add vec (numInt t.lefts p.toNat) (1 : Rat) 1 0 (by omega)
        rw [hcp0, if_neg (by norm_num), if_pos rfl] at hcs
        rw [show leftSteps t.lefts (p :: nxt :: rest) =
          (if nxt = t.lefts.getD p.toNat (-1) then 1 else 0) +
            leftSteps t.lefts (nxt :: rest) from rfl, if_pos hnl]
        omega
      · show (specRowAux t.lefts t.rights (nxt :: rest)
            (vec.set (numInt t.lefts p.toNat)
              (if nxt = t.lefts.getD p.toNat (-1) then 1 else -1))).count 1 = _
        rw [if_neg hnl]
        rw [ih (vec.set (numInt t.lefts p.toNat) (-1)) (numInt t.lefts p.toNat + 1) h5
          (by rw [List.length_set]; exact hlen) hboundrec
          (by
            intro c hc
            rw [getD_set_ne _ _ _ _ _ (by omega)]
            exact hzero c (by omega))]
        have hcs := count_set_add vec (numInt t.lefts p.toNat) (-1 : Rat) 1 0 (by omega)
        rw [hcp0, if_neg (by norm_num), if_neg (by norm_num)] at hcs
        rw [show leftSteps t.lefts (p :: nxt :: rest) =
          (if nxt = t.lefts.getD p.toNat (-1) then 1 else 0) +
            leftSteps t.lefts (nxt :: rest) from rfl, if_neg hnl]
        omega

/-- The signed row of a valid chain holds exactly one 1 per left decision. -/
lemma specRow_count (t : TreeParameters) (hwf : WF t) (Q : List Int)
    (hok : stepsOk t.lefts t.rights Q) :
    (specRow t.lefts t.rights (numInt t.lefts t.lefts.length) Q).count 1 =
      leftSteps t.lefts Q := by
  rw [specRow, specRowAux_count t hwf Q _ 0 hok (by simp) (fun _ _ _ _ => Nat.zero_le _)
    (fun c _ => getD_replicate_self _ _ _)]
  rw [List.count_replicate, if_neg (by norm_num), Nat.zero_add]

end TreeCommons

namespace TreeCommons

lemma specRow_length (lefts rights : List Int) (ns : Nat) (Q : List Int) :
    (specRow lefts rights ns Q).length = ns := by
  rw [specRow, specRowAux_length, List.length_replicate]

lemma getD_map {α β : Type} (f : α → β) (l : List α) (j : Nat) (d : α) (db : β)
    (h : j < l.length) : (l.map f).getD j db = f (l.getD j d) := by
  rw [List.getD_eq_getElem _ _ (by rw [List.length_map]; omega),
    List.getD_eq_getElem _ _ h, List.getElem_map]

/-- Every column index below the split count is the column of exactly the internal
nodes; here: each one is hit by some internal node. -/
lemma numInt_surj (lefts : List Int) :
    ∀ m, m ≤ lefts.length → ∀ c, c < numInt lefts m →
      ∃ q, q < m ∧ lefts.getD q (-1) ≠ -1 ∧ numInt lefts q = c := by
  intro m
  induction m with
  | zero =>
    intro _ c hc
    rw [numInt] at hc
    omega
  | succ m ih =>
    intro hm c hc
    rw [numInt_succ lefts m (by omega)] at hc
    by_cases hint : lefts.getD m (-1) = -1
    · rw [if_pos hint] at hc
      obtain ⟨q, hq1, hq2, hq3⟩ := ih (by omega) c (by omega)
      exact ⟨q, by omega, hq2, hq3⟩
    · rw [if_neg hint] at hc
      rcases Nat.lt_or_ge c (numInt lefts m) with h | h
      · obtain ⟨q, hq1, hq2, hq3⟩ := ih (by omega) c h
        exact ⟨q, by omega, hq2, hq3⟩
      · exact ⟨m, by omega, hint, by omega⟩

/-- Every path enumerated by the depth-first traversal of a subtree extends the given
stack prefix by a valid parent-child chain from the subtree root down to a leaf. -/
lemma dfsPaths_mem (t : TreeParameters) (hwf : WF t) :
    ∀ (d i : Nat) (pfx Q : List Int), i < t.lefts.length → t.lefts.length - i ≤ d →
      stepsOk t.lefts t.rights (pfx ++ [(i : Int)]) →
      Q ∈ dfsPaths t.lefts t.rights d pfx i →
      stepsOk t.lefts t.rights Q ∧ (∃ S, Q = pfx ++ [(i : Int)] ++ S) ∧
        0 ≤ Q.getLastD 0 ∧ Q.getLastD 0 < (t.lefts.length : Int) ∧
        t.lefts.getD (Q.getLastD 0).toNat (-1) = -1 := by
  intro d
  induction d with
  | zero =>
    intro i pfx Q hi hd
    omega
  | succ d ih =>
    intro i pfx Q hi hd hok hQ
    rw [dfsPaths] at hQ
    by_cases hint : t.lefts.getD i (-1) = -1
    · rw [if_pos hint] at hQ
      have hQe : Q = pfx ++ [(i : Int)] := by simpa using hQ
      subst hQe
      refine ⟨hok, ⟨[], by rw [List.append_nil]⟩, ?_, ?_, ?_⟩
      · rw [List.getLastD_concat]; omega
      · rw [List.getLastD_concat]; omega
      · rw [List.getLastD_concat, Int.toNat_natCast]; exact hint
    · rw [if_neg hint] at hQ
      obtain ⟨⟨hl1, hl2⟩, hr1, hr2⟩ := child_bounds_of_wf hwf i hi hint
      have hLc : (((t.lefts.getD i (-1)).toNat : Nat) : Int) = t.lefts.getD i (-1) := by
        omega
      have hRc : (((t.rights.getD i (-1)).toNat : Nat) : Int) = t.rights.getD i (-1) := by
        omega
      have hokL : stepsOk t.lefts t.rights ((pfx ++ [(i : Int)]) ++
          [(((t.lefts.getD i (-1)).toNat : Nat) : Int)]) := by
        rw [hLc]
        exact stepsOk_snoc t.lefts t.rights pfx (i : Int) (t.lefts.getD i (-1)) hok
          (by omega) (by omega) (by rw [Int.toNat_natCast]; exact hint)
          (Or.inl (by rw [Int.toNat_natCast]))
      have hokR : stepsOk t.lefts t.rights ((pfx ++ [(i : Int)]) ++
          [(((t.rights.getD i (-1)).toNat : Nat) : Int)]) := by
        rw [hRc]
        exact stepsOk_snoc t.lefts t.rights pfx (i : Int) (t.rights.getD i (-1)) hok
          (by omega) (by omega) (by rw [Int.toNat_natCast]; exact hint)
          (Or.inr (by rw [Int.toNat_natCast]))
      rcases List.mem_append.mp hQ with h | h
      · obtain ⟨hs, ⟨S, hS⟩, hg1, hg2, hg3⟩ := ih (t.lefts.getD i (-1)).toNat
          (pfx ++ [(i : Int)]) Q (by omega) (by omega) hokL h
        refine ⟨hs, ⟨[(((t.lefts.getD i (-1)).toNat : Nat) : Int)] ++ S, ?_⟩,
          hg1, hg2, hg3⟩
        rw [hS, List.append_assoc]
      · obtain ⟨hs, ⟨S, hS⟩, hg1, hg2, hg3⟩ := ih (t.rights.getD i (-1)).toNat
          (pfx ++ [(i : Int)]) Q (by omega) (by omega) hokR h
        refine ⟨hs, ⟨[(((t.rights.getD i (-1)).toNat : Nat) : Int)] ++ S, ?_⟩,
          hg1, hg2, hg3⟩
        rw [hS, List.append_assoc]

end TreeCommons

namespace TreeCommons

/-- C3: in the GEMM path layer of get_parameters_for_gemm_common on a well-formed
binary tree, there is one weight row and one bias per depth-first root-to-leaf path;
each row holds, at the column of an internal split q, the value 1 exactly when the
path steps from q to its left child, -1 exactly when it steps to its right child, and
0 when q is not stepped through (and every column belongs to some internal split);
the leaf's bias equals the number of +1 entries of its row, which is the number of
left decisions on its path. -/
theorem gemm_path_layer_signs (t : TreeParameters) (hwf : WF t)
    (hn : t.lefts.length ≠ 1) (nf : Nat) :
    ∃ gp : GemmParams, get_parameters_for_gemm_common t nf = some gp ∧
      ∃ paths : List (List Int), ∃ b2 : List Rat,
        gp.weights.getD 1 [] = paths.map
          (specRow t.lefts t.rights (numInt t.lefts t.lefts.length)) ∧
        gp.biases.getD 1 none = some b2 ∧
        b2.length = paths.length ∧
        (∀ c : Nat, c < numInt t.lefts t.lefts.length →
          ∃ q, q < t.lefts.length ∧ t.lefts.getD q (-1) ≠ -1 ∧ numInt t.lefts q = c) ∧
        ∀ j : Nat, j < paths.length →
          stepsOk t.lefts t.rights (paths.getD j []) ∧
          (paths.getD j []).getD 0 0 = 0 ∧
          t.lefts.getD ((paths.getD j []).getLastD 0).toNat (-1) = -1 ∧
          (specRow t.lefts t.rights (numInt t.lefts t.lefts.length)
            (paths.getD j [])).length = numInt t.lefts t.lefts.length ∧
          (∀ q : Nat, q < t.lefts.length → t.lefts.getD q (-1) ≠ -1 →
            (specRow t.lefts t.rights (numInt t.lefts t.lefts.length)
                (paths.getD j [])).getD (numInt t.lefts q) 0 =
              if ((q : Int), t.lefts.getD q (-1)) ∈ pathPairs (paths.getD j []) then 1
              else if ((q : Int), t.rights.getD q (-1)) ∈ pathPairs (paths.getD j [])
                then -1 else 0) ∧
          b2.getD j 0 = (((specRow t.lefts t.rights (numInt t.lefts t.lefts.length)
            (paths.getD j [])).count 1 : Nat) : Rat) ∧
          (specRow t.lefts t.rights (numInt t.lefts t.lefts.length)
            (paths.getD j [])).count 1 = leftSteps t.lefts (paths.getD j []) := by
  have hpos : 0 < t.lefts.length := hwf.2.2.2.2.1
  refine ⟨_, gemm_common_spec t hwf hn nf,
    dfsPaths t.lefts t.rights t.lefts.length [] 0,
    (dfsPaths t.lefts t.rights t.lefts.length [] 0).map
      (fun Q => ((leftSteps t.lefts Q : Nat) : Rat)), rfl, rfl,
    by rw [List.length_map], numInt_surj t.lefts t.lefts.length le_rfl, ?_⟩
  intro j hj
  have hmem : (dfsPaths t.lefts t.rights t.lefts.length [] 0).getD j [] ∈
      dfsPaths t.lefts t.rights t.lefts.length [] 0 := by
    rw [List.getD_eq_getElem _ _ hj]
    exact List.getElem_mem _
  obtain ⟨hs, ⟨S, hS⟩, hg1, hg2, hg3⟩ := dfsPaths_mem t hwf t.lefts.length 0 []
    ((dfsPaths t.lefts t.rights t.lefts.length [] 0).getD j []) hpos (by omega)
    trivial hmem
  refine ⟨hs, ?_, hg3, specRow_length _ _ _ _, ?_, ?_, specRow_count t hwf _ hs⟩
  · rw [hS]
    simp
  · intro q hq hqint
    rw [specRow, specRowAux_getD t hwf _ _ q hs (by simp) hq hqint,
      getD_replicate_self]
  · rw [getD_map (fun Q => ((leftSteps t.lefts Q : Nat) : Rat)) _ j [] 0 hj,
      specRow_count t hwf _ hs]

end TreeCommons

namespace TreeCommons

/-- A concrete well-formed three-node tree used by the witnesses: an internal root
with two leaf children carrying single-value leaves. -/
def tree3a : TreeParameters :=
  ⟨[1, -1, -1], [2, -1, -1], [0, 0, 0], [0, 0, 0], [[0], [1], [2]]⟩

lemma tree3a_wf : WF tree3a := by
  show WF ⟨[1, -1, -1], [2, -1, -1], [0, 0, 0], [0, 0, 0], [[0], [1], [2]]⟩
  refine ⟨rfl, rfl, rfl, rfl, by norm_num, ?_, ?_, ?_⟩
  · show ∀ i, i < ([1, -1, -1] : List Int).length →
      (([1, -1, -1] : List Int).getD i (-1) = -1 ↔
       ([2, -1, -1] : List Int).getD i (-1) = -1)
    decide
  · show ∀ i, i < ([1, -1, -1] : List Int).length →
      ([1, -1, -1] : List Int).getD i (-1) ≠ -1 →
      (((i : Int) < ([1, -1, -1] : List Int).getD i (-1) ∧
        ([1, -1, -1] : List Int).getD i (-1) < (([1, -1, -1] : List Int).length : Int)) ∧
       ((i : Int) < ([2, -1, -1] : List Int).getD i (-1) ∧
        ([2, -1, -1] : List Int).getD i (-1) < (([1, -1, -1] : List Int).length : Int)) ∧
       0 ≤ ([0, 0, 0] : List Int).getD i 0)
    decide
  · show ∀ j, 0 < j → j < ([1, -1, -1] : List Int).length →
      (([1, -1, -1] : List Int) ++ [2, -1, -1]).count ((j : Nat) : Int) = 1
    intro j hj hjn
    have hj3 : j < 3 := by simpa using hjn
    interval_cases j
    · decide
    · decide

/-- C3 witness: the path-layer sign characterization instantiated on the concrete
three-node tree with one input feature. -/
theorem gemm_path_layer_signs_witness :
    ∃ gp : GemmParams, get_parameters_for_gemm_common tree3a 1 = some gp ∧
      ∃ paths : List (List Int), ∃ b2 : List Rat,
        gp.weights.getD 1 [] = paths.map
          (specRow tree3a.lefts tree3a.rights
            (numInt tree3a.lefts tree3a.lefts.length)) ∧
        gp.biases.getD 1 none = some b2 ∧
        b2.length = paths.length ∧
        (∀ c : Nat, c < numInt tree3a.lefts tree3a.lefts.length →
          ∃ q, q < tree3a.lefts.length ∧ tree3a.lefts.getD q (-1) ≠ -1 ∧
            numInt tree3a.lefts q = c) ∧
        ∀ j : Nat, j < paths.length →
          stepsOk tree3a.lefts tree3a.rights (paths.getD j []) ∧
          (paths.getD j []).getD 0 0 = 0 ∧
          tree3a.lefts.getD ((paths.getD j []).getLastD 0).toNat (-1) = -1 ∧
          (specRow tree3a.lefts tree3a.rights (numInt tree3a.lefts tree3a.lefts.length)
            (paths.getD j [])).length = numInt tree3a.lefts tree3a.lefts.length ∧
          (∀ q : Nat, q < tree3a.lefts.length → tree3a.lefts.getD q (-1) ≠ -1 →
            (specRow tree3a.lefts tree3a.rights (numInt tree3a.lefts tree3a.lefts.length)
                (paths.getD j [])).getD (numInt tree3a.lefts q) 0 =
              if ((q : Int), tree3a.lefts.getD q (-1)) ∈ pathPairs (paths.getD j [])
                then 1
              else if ((q : Int), tree3a.rights.getD q (-1)) ∈
                  pathPairs (paths.getD j []) then -1 else 0) ∧
          b2.getD j 0 = (((specRow tree3a.lefts tree3a.rights
            (numInt tree3a.lefts tree3a.lefts.length)
            (paths.getD j [])).count 1 : Nat) : Rat) ∧
          (specRow tree3a.lefts tree3a.rights (numInt tree3a.lefts tree3a.lefts.length)
            (paths.getD j [])).count 1 = leftSteps tree3a.lefts (paths.getD j []) :=
  gemm_path_layer_signs tree3a tree3a_wf (by decide) 1

end TreeCommons

namespace TreeCommons

lemma npShapeLast_uniform (values : List (List Rat)) (k : Nat)
    (hk : ∀ v ∈ values, v.length = k) (hne : values ≠ []) :
    npShapeLast values = k := by
  cases values with
  | nil => exact absurd rfl hne
  | cons v vs =>
    rw [npShapeLast]
    rw [if_pos (by
      rw [List.all_eq_true]
      intro w hw
      rw [beq_iff_eq, hk w (List.mem_cons_of_mem _ hw), hk v (List.mem_cons_self _ _)])]
    exact hk v (List.mem_cons_self _ _)

lemma sum_map_div (v : List Rat) (s : Rat) :
    (v.map (fun x => x / s)).sum = v.sum / s := by
  induction v with
  | nil => simp
  | cons a v ih =>
    rw [List.map_cons, List.sum_cons, List.sum_cons, ih, add_div]

/-- C4: in the GEMM class layer, each column is the value of a leaf; with more than
one class it is the leaf value divided by its sum (so the column sums to 1 whenever
that sum is nonzero), with a single value it is the raw leaf value; the class layer
is the third layer and its bias slot is empty. -/
theorem gemm_class_layer (t : TreeParameters) (hwf : WF t) (hn : t.lefts.length ≠ 1)
    (nf k : Nat) (hk : ∀ v ∈ t.values, v.length = k) :
    ∃ gp : GemmParams, get_parameters_for_gemm_common t nf = some gp ∧
      gp.weights.length = 3 ∧ gp.biases.length = 3 ∧
      gp.biases.getD 2 (some []) = none ∧
      ∃ cols : List (List Rat),
        gp.weights.getD 2 [] = npTranspose cols ∧
        ∀ j : Nat, j < cols.length →
          ∃ m : Nat, m < t.lefts.length ∧ t.lefts.getD m (-1) = -1 ∧
            cols.getD j [] =
              (if 1 < k then (t.values.getD m []).map
                  (fun x => x / (t.values.getD m []).sum)
                else t.values.getD m []) ∧
            (1 < k → (t.values.getD m []).sum ≠ 0 → (cols.getD j []).sum = 1) := by
  have hpos : 0 < t.lefts.length := hwf.2.2.2.2.1
  have hvne : t.values ≠ [] := by
    have : 0 < t.values.length := by rw [hwf.2.2.2.1]; omega
    exact List.ne_nil_of_length_pos this
  have hshape : npShapeLast t.values = k := npShapeLast_uniform t.values k hk hvne
  refine ⟨_, gemm_common_spec t hwf hn nf, rfl, rfl, rfl, ?_⟩
  refine ⟨(dfsPaths t.lefts t.rights t.lefts.length [] 0).map
      (fun Q : List Int => probaOf t.values (Q.getLastD 0).toNat), rfl, ?_⟩
  intro j hj
  rw [List.length_map] at hj
  have hmem : (dfsPaths t.lefts t.rights t.lefts.length [] 0).getD j [] ∈
      dfsPaths t.lefts t.rights t.lefts.length [] 0 := by
    rw [List.getD_eq_getElem _ _ hj]
    exact List.getElem_mem _
  obtain ⟨hs, _, hg1, hg2, hg3⟩ := dfsPaths_mem t hwf t.lefts.length 0 []
    ((dfsPaths t.lefts t.rights t.lefts.length [] 0).getD j []) hpos (by omega)
    trivial hmem
  have hcol : ((dfsPaths t.lefts t.rights t.lefts.length [] 0).map
      (fun Q => probaOf t.values (Q.getLastD 0).toNat)).getD j [] =
      probaOf t.values
        ((((dfsPaths t.lefts t.rights t.lefts.length [] 0).getD j []).getLastD 0)).toNat := by
    exact getD_map _ _ j [] [] hj
  refine ⟨_, by omega, hg3, ?_, ?_⟩
  · rw [hcol, probaOf, hshape]
  · intro hk1 hsum
    rw [hcol, probaOf, hshape, if_pos hk1, sum_map_div, div_self hsum]

end TreeCommons

namespace TreeCommons

/-- A concrete well-formed three-node tree with two-class leaf values summing to 1. -/
def tree3b : TreeParameters :=
  ⟨[1, -1, -1], [2, -1, -1], [0, 0, 0], [0, 0, 0],
   [[1, 1], [1, 0], [0, 1]]⟩

lemma tree3b_wf : WF tree3b := by
  show WF ⟨[1, -1, -1], [2, -1, -1], [0, 0, 0], [0, 0, 0], [[1, 1], [1, 0], [0, 1]]⟩
  refine ⟨rfl, rfl, rfl, rfl, by norm_num, ?_, ?_, ?_⟩
  · show ∀ i, i < ([1, -1, -1] : List Int).length →
      (([1, -1, -1] : List Int).getD i (-1) = -1 ↔
       ([2, -1, -1] : List Int).getD i (-1) = -1)
    decide
  · show ∀ i, i < ([1, -1, -1] : List Int).length →
      ([1, -1, -1] : List Int).getD i (-1) ≠ -1 →
      (((i : Int) < ([1, -1, -1] : List Int).getD i (-1) ∧
        ([1, -1, -1] : List Int).getD i (-1) < (([1, -1, -1] : List Int).length : Int)) ∧
       ((i : Int) < ([2, -1, -1] : List Int).getD i (-1) ∧
        ([2, -1, -1] : List Int).getD i (-1) < (([1, -1, -1] : List Int).length : Int)) ∧
       0 ≤ ([0, 0, 0] : List Int).getD i 0)
    decide
  · show ∀ j, 0 < j → j < ([1, -1, -1] : List Int).length →
      (([1, -1, -1] : List Int) ++ [2, -1, -1]).count ((j : Nat) : Int) = 1
    intro j hj hjn
    have hj3 : j < 3 := by simpa using hjn
    interval_cases j
    · decide
    · decide

/-- C4 witness: the class-layer characterization instantiated on the concrete
two-class three-node tree. -/
theorem gemm_class_layer_witness :
    ∃ gp : GemmParams, get_parameters_for_gemm_common tree3b 1 = some gp ∧
      gp.weights.length = 3 ∧ gp.biases.length = 3 ∧
      gp.biases.getD 2 (some []) = none ∧
      ∃ cols : List (List Rat),
        gp.weights.getD 2 [] = npTranspose cols ∧
        ∀ j : Nat, j < cols.length →
          ∃ m : Nat, m < tree3b.lefts.length ∧ tree3b.lefts.getD m (-1) = -1 ∧
            cols.getD j [] =
              (if 1 < 2 then (tree3b.values.getD m []).map
                  (fun x => x / (tree3b.values.getD m []).sum)
                else tree3b.values.getD m []) ∧
            (1 < 2 → (tree3b.values.getD m []).sum ≠ 0 → (cols.getD j []).sum = 1) :=
  gemm_class_layer tree3b tree3b_wf (by decide) 1 2 (by decide)

end TreeCommons

namespace TreeCommons

lemma dot_replicate_zero (s : List Rat) (k : Nat) :
    dot s (List.replicate k 0) = 0 := by
  induction s generalizing k with
  | nil => simp [dot]
  | cons a s ih =>
    cases k with
    | zero => simp [dot]
    | succ k =>
      rw [List.replicate_succ, dot_cons, ih, mul_zero, add_zero]

/-- The dot product of a decision vector with the signed row accumulates the
per-step signed agreement score. -/
lemma dot_specRowAux (t : TreeParameters) (hwf : WF t) (s : List Rat)
    (hs : s.length = numInt t.lefts t.lefts.length) :
    ∀ (Q : List Int) (vec : List Rat) (lo : Nat),
      stepsOk t.lefts t.rights Q →
      vec.length = numInt t.lefts t.lefts.length →
      (∀ p nxt rest, Q = p :: nxt :: rest → lo ≤ numInt t.lefts p.toNat) →
      (∀ c, lo ≤ c → vec.getD c 0 = 0) →
      dot s (specRowAux t.lefts t.rights Q vec) =
        dot s vec + pathScore t.lefts s Q := by
  intro Q
  induction Q with
  | nil =>
    intro vec lo _ _ _ _
    show dot s vec = dot s vec + 0
    rw [add_zero]
  | cons p Q ih =>
    intro vec lo hok hlen hlo hzero
    cases Q with
    | nil =>
      show dot s vec = dot s vec + 0
      rw [add_zero]
    | cons nxt rest =>
      obtain ⟨h1, h2, h3, h4, h5⟩ := hok
      have hcp : numInt t.lefts p.toNat < numInt t.lefts t.lefts.length :=
        numInt_lt_of_internal t.lefts t.lefts.length le_rfl p.toNat (by omega) h3
      have hlocp : lo ≤ numInt t.lefts p.toNat := hlo p nxt rest rfl
      have hcp0 : vec.getD (numInt t.lefts p.toNat) 0 = 0 := hzero _ hlocp
      obtain ⟨⟨hl1, hl2⟩, hr1, hr2⟩ := child_bounds_of_wf hwf p.toNat (by omega) h3
      have hboundrec : ∀ p2 nxt2 rest2, (nxt :: rest : List Int) = p2 :: nxt2 :: rest2 →
          numInt t.lefts p.toNat + 1 ≤ numInt t.lefts p2.toNat := by
        intro p2 nxt2 rest2 heq
        cases heq
        obtain ⟨g1, g2, g3, _⟩ := h5
        have hlt : p.toNat < nxt.toNat := by omega
        have := numInt_lt_of_internal t.lefts nxt.toNat (by omega) p.toNat hlt h3
        omega
      show dot s (specRowAux t.lefts t.rights (nxt :: rest)
          (vec.set (numInt t.lefts p.toNat)
            (if nxt = t.lefts.getD p.toNat (-1) then 1 else -1))) = _
      rw [ih (vec.set (numInt t.lefts p.toNat)
          (if nxt = t.lefts.getD p.toNat (-1) then 1 else -1))
        (numInt t.lefts p.toNat + 1) h5 (by rw [List.length_set]; exact hlen) hboundrec
        (by
          intro c hc
          rw [getD_set_ne _ _ _ _ _ (by omega)]
          exact hzero c (by omega))]
      rw [dot_set s vec _ _ (by omega) (by omega), hcp0]
      rw [show pathScore t.lefts s (p :: nxt :: rest) =
        (if nxt = t.lefts.getD p.toNat (-1) then s.getD (numInt t.lefts p.toNat) 0
         else -(s.getD (numInt t.lefts p.toNat) 0)) +
          pathScore t.lefts s (nxt :: rest) from rfl]
      by_cases hnl : nxt = t.lefts.getD p.toNat (-1)
      · rw [if_pos hnl, if_pos hnl]
        ring
      · rw [if_neg hnl, if_neg hnl]
        ring

lemma dot_specRow (t : TreeParameters) (hwf : WF t) (s : List Rat)
    (hs : s.length = numInt t.lefts t.lefts.length) (Q : List Int)
    (hok : stepsOk t.lefts t.rights Q) :
    dot s (specRow t.lefts t.rights (numInt t.lefts t.lefts.length) Q) =
      pathScore t.lefts s Q := by
  rw [specRow, dot_specRowAux t hwf s hs Q _ 0 hok (by simp)
    (fun _ _ _ _ => Nat.zero_le _) (fun c _ => getD_replicate_self _ _ _)]
  rw [dot_replicate_zero, zero_add]

/-- With a 0/1 decision vector the signed agreement score is at most the number of
left decisions, with equality exactly when the chain follows the decisions. -/
lemma pathScore_le_iff (t : TreeParameters) (hwf : WF t) (s : List Rat)
    (hs01 : ∀ q, q < t.lefts.length → t.lefts.getD q (-1) ≠ -1 →
      s.getD (numInt t.lefts q) 0 = 0 ∨ s.getD (numInt t.lefts q) 0 = 1) :
    ∀ Q, stepsOk t.lefts t.rights Q →
      pathScore t.lefts s Q ≤ (leftSteps t.lefts Q : Rat) ∧
      (pathScore t.lefts s Q = (leftSteps t.lefts Q : Rat) ↔
        ∀ pr ∈ pathPairs Q,
          (pr.2 = t.lefts.getD pr.1.toNat (-1) →
            s.getD (numInt t.lefts pr.1.toNat) 0 = 1) ∧
          (¬ pr.2 = t.lefts.getD pr.1.toNat (-1) →
            s.getD (numInt t.lefts pr.1.toNat) 0 = 0)) := by
  intro Q
  induction Q with
  | nil =>
    intro _
    refine ⟨by norm_num [pathScore, leftSteps], ?_⟩
    constructor
    · intro _ pr hpr
      simp [pathPairs] at hpr
    · intro _
      norm_num [pathScore, leftSteps]
  | cons p Q ih =>
    intro hok
    cases Q with
    | nil =>
      refine ⟨by norm_num [pathScore, leftSteps], ?_⟩
      constructor
      · intro _ pr hpr
        simp [pathPairs] at hpr
      · intro _
        norm_num [pathScore, leftSteps]
    | cons nxt rest =>
      obtain ⟨h1, h2, h3, h4, h5⟩ := hok
      obtain ⟨hle, hiff⟩ := ih h5
      have hsp := hs01 p.toNat (by omega) h3
      have hps : pathScore t.lefts s (p :: nxt :: rest) =
          (if nxt = t.lefts.getD p.toNat (-1) then s.getD (numInt t.lefts p.toNat) 0
           else -(s.getD (numInt t.lefts p.toNat) 0)) +
            pathScore t.lefts s (nxt :: rest) := rfl
      have hls : (leftSteps t.lefts (p :: nxt :: rest) : Rat) =
          (if nxt = t.lefts.getD p.toNat (-1) then 1 else 0) +
            (leftSteps t.lefts (nxt :: rest) : Rat) := by
        rw [show leftSteps t.lefts (p :: nxt :: rest) =
          (if nxt = t.lefts.getD p.toNat (-1) then 1 else 0) +
            leftSteps t.lefts (nxt :: rest) from rfl]
        push_cast
        by_cases hnl : nxt = t.lefts.getD p.toNat (-1)
        · rw [if_pos hnl]
        · rw [if_neg hnl]
      have hpairs : pathPairs (p :: nxt :: rest) =
          (p, nxt) :: pathPairs (nxt :: rest) := rfl
      have hhead : (if nxt = t.lefts.getD p.toNat (-1)
            then s.getD (numInt t.lefts p.toNat) 0
            else -(s.getD (numInt t.lefts p.toNat) 0)) ≤
          (if nxt = t.lefts.getD p.toNat (-1) then (1 : Rat) else 0) := by
        by_cases hnl : nxt = t.lefts.getD p.toNat (-1)
        · rw [if_pos hnl, if_pos hnl]
          rcases hsp with h | h <;> rw [h] <;> norm_num
        · rw [if_neg hnl, if_neg hnl]
          rcases hsp with h | h <;> rw [h] <;> norm_num
      refine ⟨by rw [hps, hls]; exact add_le_add hhead hle, ?_⟩
      constructor
      · intro heq pr hpr
        have hheq : (if nxt = t.lefts.getD p.toNat (-1)
              then s.getD (numInt t.lefts p.toNat) 0
              else -(s.getD (numInt t.lefts p.toNat) 0)) =
            (if nxt = t.lefts.getD p.toNat (-1) then (1 : Rat) else 0) ∧
            pathScore t.lefts s (nxt :: rest) =
              (leftSteps t.lefts (nxt :: rest) : Rat) := by
          rw [hps, hls] at heq
          constructor <;> linarith
        rw [hpairs] at hpr
        rcases List.mem_cons.mp hpr with h | h
        · subst h
          constructor
          · intro hnl
            have := hheq.1
            rw [if_pos hnl, if_pos hnl] at this
            exact this
          · intro hnl
            have := hheq.1
            rw [if_neg hnl, if_neg hnl] at this
            rcases hsp with h | h
            · exact h
            · rw [h] at this
              norm_num at this
        · exact hiff.mp hheq.2 pr h
      · intro hagree
        rw [hps, hls]
        have hh := hagree (p, nxt) (by rw [hpairs]; exact List.mem_cons_self _ _)
        have htail : pathScore t.lefts s (nxt :: rest) =
            (leftSteps t.lefts (nxt :: rest) : Rat) := by
          rw [hiff]
          intro pr hpr
          exact hagree pr (by rw [hpairs]; exact List.mem_cons_of_mem _ hpr)
        rw [htail]
        by_cases hnl : nxt = t.lefts.getD p.toNat (-1)
        · rw [if_pos hnl, if_pos hnl, hh.1 hnl]
        · rw [if_neg hnl, if_neg hnl, hh.2 hnl, neg_zero]

end TreeCommons

namespace TreeCommons

/-- The root-to-leaf chain of node ids followed by the spec's evaluator on input x:
at each internal node, go left exactly when the input feature value is at most the
threshold. -/
def evalChain (lefts rights features : List Int) (thresholds : List Rat)
    (x : List Rat) : Nat → Nat → List Int
  | 0, i => [(i : Int)]
  | fuel + 1, i =>
    if lefts.getD i (-1) = -1 then [(i : Int)]
    else (i : Int) ::
      (if x.getD (features.getD i 0).toNat 0 ≤ thresholds.getD i 0 then
        evalChain lefts rights features thresholds x fuel (lefts.getD i (-1)).toNat
      else
        evalChain lefts rights features thresholds x fuel (rights.getD i (-1)).toNat)

lemma evalChain_cons (lefts rights features : List Int) (thresholds : List Rat)
    (x : List Rat) : ∀ (fuel i : Nat), ∃ T,
    evalChain lefts rights features thresholds x fuel i = (i : Int) :: T := by
  intro fuel i
  cases fuel with
  | zero => exact ⟨[], rfl⟩
  | succ fuel =>
    by_cases hleaf : lefts.getD i (-1) = -1
    · exact ⟨[], by rw [evalChain, if_pos hleaf]⟩
    · refine ⟨_, by rw [evalChain, if_neg hleaf]⟩

/-- The tree evaluator returns the value of the last node of the evaluation chain. -/
lemma treeEvalFrom_eq_chain (lefts rights features : List Int) (thresholds : List Rat)
    (values : List (List Rat)) (x : List Rat) : ∀ (fuel i : Nat),
    treeEvalFrom lefts rights features thresholds values x fuel i =
      values.getD
        ((evalChain lefts rights features thresholds x fuel i).getLastD 0).toNat [] := by
  intro fuel
  induction fuel with
  | zero =>
    intro i
    show values.getD i [] = values.getD (([(i : Int)].getLastD 0)).toNat []
    rw [show ([(i : Int)].getLastD 0) = (i : Int) from rfl, Int.toNat_natCast]
  | succ fuel ih =>
    intro i
    by_cases hleaf : lefts.getD i (-1) = -1
    · rw [treeEvalFrom, if_pos hleaf, evalChain, if_pos hleaf]
      rw [show ([(i : Int)].getLastD 0) = (i : Int) from rfl, Int.toNat_natCast]
    · rw [treeEvalFrom, if_neg hleaf, evalChain, if_neg hleaf]
      by_cases hcond : x.getD (features.getD i 0).toNat 0 ≤ thresholds.getD i 0
      · rw [if_pos hcond, if_pos hcond, ih]
        obtain ⟨T, hT⟩ := evalChain_cons lefts rights features thresholds x fuel
          (lefts.getD i (-1)).toNat
        rw [hT, List.getLastD_cons, List.getLastD_cons, List.getLastD_cons]
      · rw [if_neg hcond, if_neg hcond, ih]
        obtain ⟨T, hT⟩ := evalChain_cons lefts rights features thresholds x fuel
          (rights.getD i (-1)).toNat
        rw [hT, List.getLastD_cons, List.getLastD_cons, List.getLastD_cons]

end TreeCommons

namespace TreeCommons

/-- The evaluation chain agrees with any decision vector that encodes the input's
split outcomes. -/
lemma evalChain_agree (t : TreeParameters) (hwf : WF t) (x s : List Rat)
    (hchar : ∀ q, q < t.lefts.length → t.lefts.getD q (-1) ≠ -1 →
      s.getD (numInt t.lefts q) 0 =
        if x.getD (t.features.getD q 0).toNat 0 ≤ t.thresholds.getD q 0 then 1 else 0) :
    ∀ d i, i < t.lefts.length →
      ∀ pr ∈ pathPairs (evalChain t.lefts t.rights t.features t.thresholds x d i),
        (pr.2 = t.lefts.getD pr.1.toNat (-1) →
          s.getD (numInt t.lefts pr.1.toNat) 0 = 1) ∧
        (¬ pr.2 = t.lefts.getD pr.1.toNat (-1) →
          s.getD (numInt t.lefts pr.1.toNat) 0 = 0) := by
  intro d
  induction d with
  | zero =>
    intro i _ pr hpr
    simp [evalChain, pathPairs] at hpr
  | succ d ih =>
    intro i hi pr hpr
    by_cases hleaf : t.lefts.getD i (-1) = -1
    · rw [evalChain, if_pos hleaf] at hpr
      simp [pathPairs] at hpr
    · rw [evalChain, if_neg hleaf] at hpr
      obtain ⟨⟨hl1, hl2⟩, hr1, hr2⟩ := child_bounds_of_wf hwf i hi hleaf
      by_cases hcond : x.getD (t.features.getD i 0).toNat 0 ≤ t.thresholds.getD i 0
      · rw [if_pos hcond] at hpr
        obtain ⟨T, hT⟩ := evalChain_cons t.lefts t.rights t.features t.thresholds x d
          (t.lefts.getD i (-1)).toNat
        rw [hT] at hpr
        rcases List.mem_cons.mp hpr with h | h
        · subst h
          simp only [Int.toNat_natCast]
          constructor
          · intro _
            rw [hchar i hi hleaf, if_pos hcond]
          · intro habs
            exact absurd (by omega) habs
        · exact ih (t.lefts.getD i (-1)).toNat (by omega) pr (by rw [hT]; exact h)
      · rw [if_neg hcond] at hpr
        obtain ⟨T, hT⟩ := evalChain_cons t.lefts t.rights t.features t.thresholds x d
          (t.rights.getD i (-1)).toNat
        rw [hT] at hpr
        rcases List.mem_cons.mp hpr with h | h
        · subst h
          simp only [Int.toNat_natCast]
          constructor
          · intro habs
            have hd := children_distinct t hwf i hi hleaf
            have : t.rights.getD i (-1) = t.lefts.getD i (-1) := by omega
            exact absurd this.symm hd
          · intro _
            rw [hchar i hi hleaf, if_neg hcond]
        · exact ih (t.rights.getD i (-1)).toNat (by omega) pr (by rw [hT]; exact h)

/-- A valid root-to-leaf chain agreeing with the decision vector of x is exactly the
evaluation chain of x. -/
lemma agree_imp_evalChain (t : TreeParameters) (hwf : WF t) (x s : List Rat)
    (hchar : ∀ q, q < t.lefts.length → t.lefts.getD q (-1) ≠ -1 →
      s.getD (numInt t.lefts q) 0 =
        if x.getD (t.features.getD q 0).toNat 0 ≤ t.thresholds.getD q 0 then 1 else 0) :
    ∀ (Q : List Int) (i d : Nat), i < t.lefts.length → t.lefts.length - i ≤ d →
      stepsOk t.lefts t.rights ((i : Int) :: Q) →
      t.lefts.getD (((i : Int) :: Q).getLastD 0).toNat (-1) = -1 →
      (∀ pr ∈ pathPairs ((i : Int) :: Q),
        (pr.2 = t.lefts.getD pr.1.toNat (-1) →
          s.getD (numInt t.lefts pr.1.toNat) 0 = 1) ∧
        (¬ pr.2 = t.lefts.getD pr.1.toNat (-1) →
          s.getD (numInt t.lefts pr.1.toNat) 0 = 0)) →
      (i : Int) :: Q = evalChain t.lefts t.rights t.features t.thresholds x d i := by
  intro Q
  induction Q with
  | nil =>
    intro i d hi hd hok hlast hagree
    have hleaf : t.lefts.getD i (-1) = -1 := by
      rw [show (([(i : Int)]).getLastD 0) = (i : Int) from rfl, Int.toNat_natCast] at hlast
      exact hlast
    cases d with
    | zero => rfl
    | succ d => rw [evalChain, if_pos hleaf]
  | cons nxt Q ih =>
    intro i d hi hd hok hlast hagree
    obtain ⟨h1, h2, h3, h4, h5⟩ := hok
    rw [Int.toNat_natCast] at h3 h4
    obtain ⟨⟨hl1, hl2⟩, hr1, hr2⟩ := child_bounds_of_wf hwf i hi h3
    obtain ⟨d2, rfl⟩ : ∃ d2, d = d2 + 1 := ⟨d - 1, by omega⟩
    rw [evalChain, if_neg h3]
    have hh := hagree ((i : Int), nxt) (List.mem_cons_self _ _)
    simp only [Int.toNat_natCast] at hh
    have hs_i := hchar i hi h3
    rw [List.getLastD_cons, List.getLastD_cons] at hlast
    by_cases hcond : x.getD (t.features.getD i 0).toNat 0 ≤ t.thresholds.getD i 0
    · rw [if_pos hcond] at hs_i
      have hnl : nxt = t.lefts.getD i (-1) := by
        by_contra hne
        have h0 := hh.2 hne
        rw [h0] at hs_i
        exact absurd hs_i (by norm_num)
      have hc : t.lefts.getD i (-1) = (((t.lefts.getD i (-1)).toNat : Nat) : Int) := by
        omega
      have hQeq : ((((t.lefts.getD i (-1)).toNat : Nat) : Int) : Int) :: Q = nxt :: Q := by
        rw [show ((((t.lefts.getD i (-1)).toNat : Nat) : Int)) = nxt from by omega]
      have htail : (((t.lefts.getD i (-1)).toNat : Nat) : Int) :: Q =
          evalChain t.lefts t.rights t.features t.thresholds x d2
            (t.lefts.getD i (-1)).toNat := by
        apply ih (t.lefts.getD i (-1)).toNat d2 (by omega) (by omega)
        · rw [hQeq]
          exact h5
        · rw [List.getLastD_cons]
          rw [show Q.getLastD (((t.lefts.getD i (-1)).toNat : Nat) : Int) =
            Q.getLastD nxt by
              rw [show ((((t.lefts.getD i (-1)).toNat : Nat) : Int)) = nxt from by omega]]
          exact hlast
        · intro pr hpr
          apply hagree
          rw [show pathPairs ((i : Int) :: nxt :: Q) =
            ((i : Int), nxt) :: pathPairs (nxt :: Q) from rfl]
          apply List.mem_cons_of_mem
          rw [← hQeq]
          exact hpr
      rw [if_pos hcond, ← htail,
        show nxt = ((((t.lefts.getD i (-1)).toNat : Nat)) : Int) from by omega]
    · rw [if_neg hcond] at hs_i
      have hnr : nxt = t.rights.getD i (-1) := by
        rcases h4 with h | h
        · have h0 := hh.1 h
          rw [h0] at hs_i
          exact absurd hs_i.symm (by norm_num)
        · exact h
      have hc : t.rights.getD i (-1) = (((t.rights.getD i (-1)).toNat : Nat) : Int) := by
        omega
      have hQeq : ((((t.rights.getD i (-1)).toNat : Nat) : Int) : Int) :: Q = nxt :: Q := by
        rw [show ((((t.rights.getD i (-1)).toNat : Nat) : Int)) = nxt from by omega]
      have htail : (((t.rights.getD i (-1)).toNat : Nat) : Int) :: Q =
          evalChain t.lefts t.rights t.features t.thresholds x d2
            (t.rights.getD i (-1)).toNat := by
        apply ih (t.rights.getD i (-1)).toNat d2 (by omega) (by omega)
        · rw [hQeq]
          exact h5
        · rw [List.getLastD_cons]
          rw [show Q.getLastD (((t.rights.getD i (-1)).toNat : Nat) : Int) =
            Q.getLastD nxt by
              rw [show ((((t.rights.getD i (-1)).toNat : Nat) : Int)) = nxt from by omega]]
          exact hlast
        · intro pr hpr
          apply hagree
          rw [show pathPairs ((i : Int) :: nxt :: Q) =
            ((i : Int), nxt) :: pathPairs (nxt :: Q) from rfl]
          apply List.mem_cons_of_mem
          rw [← hQeq]
          exact hpr
      rw [if_neg hcond, ← htail,
        show nxt = ((((t.rights.getD i (-1)).toNat : Nat)) : Int) from by omega]

end TreeCommons

namespace TreeCommons

/-- The depth-first enumeration contains the evaluation chain of x exactly once. -/
lemma dfs_count_evalChain (t : TreeParameters) (hwf : WF t) (x : List Rat) :
    ∀ (d i : Nat) (pfx : List Int), i < t.lefts.length → t.lefts.length - i ≤ d →
      stepsOk t.lefts t.rights (pfx ++ [(i : Int)]) →
      (dfsPaths t.lefts t.rights d pfx i).count
        (pfx ++ evalChain t.lefts t.rights t.features t.thresholds x d i) = 1 := by
  intro d
  induction d with
  | zero =>
    intro i pfx hi hd
    omega
  | succ d ih =>
    intro i pfx hi hd hok
    by_cases hleaf : t.lefts.getD i (-1) = -1
    · rw [dfsPaths, if_pos hleaf, evalChain, if_pos hleaf]
      simp
    · rw [dfsPaths, if_neg hleaf, evalChain, if_neg hleaf, List.count_append]
      obtain ⟨⟨hl1, hl2⟩, hr1, hr2⟩ := child_bounds_of_wf hwf i hi hleaf
      have hokL : stepsOk t.lefts t.rights ((pfx ++ [(i : Int)]) ++
          [(((t.lefts.getD i (-1)).toNat : Nat) : Int)]) := by
        rw [show ((((t.lefts.getD i (-1)).toNat : Nat)) : Int) = t.lefts.getD i (-1)
          from by omega]
        exact stepsOk_snoc t.lefts t.rights pfx (i : Int) (t.lefts.getD i (-1)) hok
          (by omega) (by omega) (by rw [Int.toNat_natCast]; exact hleaf)
          (Or.inl (by rw [Int.toNat_natCast]))
      have hokR : stepsOk t.lefts t.rights ((pfx ++ [(i : Int)]) ++
          [(((t.rights.getD i (-1)).toNat : Nat) : Int)]) := by
        rw [show ((((t.rights.getD i (-1)).toNat : Nat)) : Int) = t.rights.getD i (-1)
          from by omega]
        exact stepsOk_snoc t.lefts t.rights pfx (i : Int) (t.rights.getD i (-1)) hok
          (by omega) (by omega) (by rw [Int.toNat_natCast]; exact hleaf)
          (Or.inr (by rw [Int.toNat_natCast]))
      by_cases hcond : x.getD (t.features.getD i 0).toNat 0 ≤ t.thresholds.getD i 0
      · rw [if_pos hcond]
        have harr : pfx ++ ((i : Int) ::
            evalChain t.lefts t.rights t.features t.thresholds x d
              (t.lefts.getD i (-1)).toNat) =
            (pfx ++ [(i : Int)]) ++
              evalChain t.lefts t.rights t.features t.thresholds x d
                (t.lefts.getD i (-1)).toNat := by
          simp
        rw [harr]
        rw [ih (t.lefts.getD i (-1)).toNat (pfx ++ [(i : Int)]) (by omega) (by omega) hokL]
        have hnot : ¬ ((pfx ++ [(i : Int)]) ++
            evalChain t.lefts t.rights t.features t.thresholds x d
              (t.lefts.getD i (-1)).toNat) ∈
            dfsPaths t.lefts t.rights d (pfx ++ [(i : Int)])
              (t.rights.getD i (-1)).toNat := by
          intro hmem
          obtain ⟨_, ⟨S, hS⟩, _, _, _⟩ := dfsPaths_mem t hwf d
            (t.rights.getD i (-1)).toNat (pfx ++ [(i : Int)]) _ (by omega) (by omega)
            hokR hmem
          obtain ⟨T, hT⟩ := evalChain_cons t.lefts t.rights t.features t.thresholds x d
            (t.lefts.getD i (-1)).toNat
          rw [hT] at hS
          simp only [List.append_assoc] at hS
          have hcanc := List.append_cancel_left (List.append_cancel_left hS)
          rw [List.singleton_append] at hcanc
          injection hcanc with hhead _
          exact absurd (show t.lefts.getD i (-1) = t.rights.getD i (-1) from by omega)
            (children_distinct t hwf i hi hleaf)
        rw [List.count_eq_zero.mpr hnot]
      · rw [if_neg hcond]
        have harr : pfx ++ ((i : Int) ::
            evalChain t.lefts t.rights t.features t.thresholds x d
              (t.rights.getD i (-1)).toNat) =
            (pfx ++ [(i : Int)]) ++
              evalChain t.lefts t.rights t.features t.thresholds x d
                (t.rights.getD i (-1)).toNat := by
          simp
        rw [harr]
        rw [ih (t.rights.getD i (-1)).toNat (pfx ++ [(i : Int)]) (by omega) (by omega) hokR]
        have hnot : ¬ ((pfx ++ [(i : Int)]) ++
            evalChain t.lefts t.rights t.features t.thresholds x d
              (t.rights.getD i (-1)).toNat) ∈
            dfsPaths t.lefts t.rights d (pfx ++ [(i : Int)])
              (t.lefts.getD i (-1)).toNat := by
          intro hmem
          obtain ⟨_, ⟨S, hS⟩, _, _, _⟩ := dfsPaths_mem t hwf d
            (t.lefts.getD i (-1)).toNat (pfx ++ [(i : Int)]) _ (by omega) (by omega)
            hokL hmem
          obtain ⟨T, hT⟩ := evalChain_cons t.lefts t.rights t.features t.thresholds x d
            (t.rights.getD i (-1)).toNat
          rw [hT] at hS
          simp only [List.append_assoc] at hS
          have hcanc := List.append_cancel_left (List.append_cancel_left hS)
          rw [List.singleton_append] at hcanc
          injection hcanc with hhead _
          exact absurd (show t.lefts.getD i (-1) = t.rights.getD i (-1) from by omega)
            (children_distinct t hwf i hi hleaf)
        rw [List.count_eq_zero.mpr hnot]

end TreeCommons

namespace TreeCommons

lemma dot_zero_of_all_ne (Qstar : List Int) (f : List Int → Rat) :
    ∀ paths : List (List Int), (∀ Q ∈ paths, Q ≠ Qstar) →
      dot (paths.map (fun Q => if Q = Qstar then (1 : Rat) else 0)) (paths.map f) = 0 := by
  intro paths
  induction paths with
  | nil =>
    intro _
    rfl
  | cons P ps ih =>
    intro hall
    rw [List.map_cons, List.map_cons, dot_cons]
    rw [if_neg (hall P (List.mem_cons_self _ _)), zero_mul, zero_add,
      ih (fun Q hQ => hall Q (List.mem_cons_of_mem _ hQ))]

/-- A dot product against the one-hot indicator of an element occurring exactly once
selects that element's image. -/
lemma dot_indicator (Qstar : List Int) (f : List Int → Rat) :
    ∀ paths : List (List Int), paths.count Qstar = 1 →
      dot (paths.map (fun Q => if Q = Qstar then (1 : Rat) else 0)) (paths.map f) =
        f Qstar := by
  intro paths
  induction paths with
  | nil =>
    intro h
    simp at h
  | cons P ps ih =>
    intro hc
    rw [List.map_cons, List.map_cons, dot_cons]
    by_cases hP : P = Qstar
    · subst hP
      have h0 : ps.count P = 0 := by
        rw [List.count_cons_self] at hc
        omega
      have hall : ∀ Q ∈ ps, Q ≠ P := by
        intro Q hQ hEq
        rw [hEq] at hQ
        have := List.count_pos_iff.mpr hQ
        omega
      rw [if_pos rfl, one_mul, dot_zero_of_all_ne P f ps hall, add_zero]
    · rw [if_neg hP, zero_mul, zero_add]
      apply ih
      rw [List.count_cons_of_ne (Ne.symm hP)] at hc
      exact hc

lemma range_map_getD (v : List Rat) :
    (List.range v.length).map (fun c => v.getD c 0) = v := by
  apply List.ext_getElem
  · rw [List.length_map, List.length_range]
  · intro i h1 h2
    rw [List.getElem_map, List.getElem_range, List.getD_eq_getElem _ _ h2]

/-- Multiplying the transposed class matrix by the one-hot indicator of the unique
selected path recovers that path's class column. -/
lemma dot_indicator_transpose (paths : List (List Int)) (Qstar : List Int)
    (g : List Int → List Rat) (k : Nat) (hcount : paths.count Qstar = 1)
    (hlen : ∀ Q ∈ paths, (g Q).length = k) :
    (npTranspose (paths.map g)).map
      (fun row => dot (paths.map (fun Q => if Q = Qstar then (1 : Rat) else 0)) row) =
      g Qstar := by
  cases paths with
  | nil => simp at hcount
  | cons P ps =>
    have hQmem : Qstar ∈ P :: ps := List.count_pos_iff.mp (by omega)
    rw [npTranspose]
    rw [show ((List.map g (P :: ps)).headD []) = g P from rfl]
    rw [hlen P (List.mem_cons_self _ _)]
    rw [List.map_map]
    have hcongr : ∀ c ∈ List.range k,
        ((fun row => dot (List.map (fun Q => if Q = Qstar then (1 : Rat) else 0)
            (P :: ps)) row) ∘
          (fun c => (List.map g (P :: ps)).map (fun row => row.getD c 0))) c =
        (g Qstar).getD c 0 := by
      intro c _
      show dot (List.map (fun Q => if Q = Qstar then (1 : Rat) else 0) (P :: ps))
        ((List.map g (P :: ps)).map (fun row => row.getD c 0)) = _
      rw [List.map_map]
      exact dot_indicator Qstar (fun Q => (g Q).getD c 0) (P :: ps) hcount
    rw [List.map_congr_left hcongr]
    rw [← hlen Qstar hQmem, range_map_getD]

end TreeCommons

namespace TreeCommons

/-- The first GEMM layer thresholded at zero computes, at each internal node's
column, exactly the spec's split decision for input x. -/
lemma gemm_s_char (t : TreeParameters) (hwf : WF t) (nf : Nat) (x : List Rat)
    (hx : x.length = nf) :
    ∀ q, q < t.lefts.length → t.lefts.getD q (-1) ≠ -1 →
      (List.zipWith (fun row th => if dot x row - th ≤ 0 then (1 : Rat) else 0)
        (gemmLayer1 t.lefts t.features t.thresholds nf).1
        (gemmLayer1 t.lefts t.features t.thresholds nf).2).getD (numInt t.lefts q) 0 =
      if x.getD (t.features.getD q 0).toNat 0 ≤ t.thresholds.getD q 0 then 1 else 0 := by
  intro q hq hint
  obtain ⟨hW1len, hB1len, hcols⟩ :=
    gemmLayer1_spec t.lefts t.features t.thresholds nf hwf.2.1 hwf.2.2.1
  obtain ⟨hWq, hBq⟩ := hcols q hq hint
  have hcq : numInt t.lefts q < numInt t.lefts t.lefts.length :=
    numInt_lt_of_internal t.lefts t.lefts.length le_rfl q hq hint
  rw [zipWith_getD _ _ _ _ [] 0 0 (by omega) (by omega)]
  rw [hWq, hBq]
  have hf0 : t.features.getD q (-1) = t.features.getD q 0 := by
    rw [List.getD_eq_getElem _ _ (show q < t.features.length by rw [hwf.2.1]; omega),
      List.getD_eq_getElem _ _ (show q < t.features.length by rw [hwf.2.1]; omega)]
  rw [hf0, dot_oneHot x nf (t.features.getD q 0) hx]
  have hfpos : 0 ≤ t.features.getD q 0 := (hwf.2.2.2.2.2.2.1 q hq hint).2.2
  by_cases hfk : (t.features.getD q 0).toNat < nf
  · rw [if_pos (show 0 ≤ t.features.getD q 0 ∧ (t.features.getD q 0).toNat < nf
      from ⟨hfpos, hfk⟩)]
    by_cases hcond : x.getD (t.features.getD q 0).toNat 0 ≤ t.thresholds.getD q 0
    · rw [if_pos hcond, if_pos (show x.getD (t.features.getD q 0).toNat 0 -
        t.thresholds.getD q 0 ≤ 0 from by linarith)]
    · rw [if_neg hcond, if_neg (show ¬ (x.getD (t.features.getD q 0).toNat 0 -
        t.thresholds.getD q 0 ≤ 0) from fun h => hcond (by linarith))]
  · rw [if_neg (show ¬ (0 ≤ t.features.getD q 0 ∧ (t.features.getD q 0).toNat < nf)
      from fun h => hfk h.2)]
    have hxf : x.getD (t.features.getD q 0).toNat 0 = 0 := by
      rw [List.getD_eq_default]
      rw [hx]
      omega
    rw [hxf]
    by_cases hcond : (0 : Rat) ≤ t.thresholds.getD q 0
    · rw [if_pos hcond, if_pos (show (0 : Rat) - t.thresholds.getD q 0 ≤ 0
        from by linarith)]
    · rw [if_neg hcond, if_neg (show ¬ ((0 : Rat) - t.thresholds.getD q 0 ≤ 0)
        from fun h => hcond (by linarith))]

/-- On a tree needing no correction, the traversal evaluator over the returned
self-referencing arrays computes the plain tree evaluator. -/
lemma travEvalFrom_eq_treeEvalFrom (t : TreeParameters) (hwf : WF t) (r : TravResult)
    (hl : ∀ k : Nat, k < t.lefts.length → r.lefts.getD k (-1) =
      (if t.lefts.getD k (-1) = -1 then (k : Int) else t.lefts.getD k (-1)))
    (hr : ∀ k : Nat, k < t.lefts.length → r.rights.getD k (-1) =
      (if t.rights.getD k (-1) = -1 then (k : Int) else t.rights.getD k (-1)))
    (hfe : r.features = t.features) (hth : r.thresholds = t.thresholds)
    (hv : r.values = t.values) (x : List Rat) :
    ∀ fuel i, i < t.lefts.length →
      travEvalFrom r.lefts r.rights r.features r.thresholds r.values x fuel i =
      treeEvalFrom t.lefts t.rights t.features t.thresholds t.values x fuel i := by
  intro fuel
  induction fuel with
  | zero =>
    intro i _
    show r.values.getD i [] = t.values.getD i []
    rw [hv]
  | succ fuel ih =>
    intro i hi
    rw [hfe, hth] at ih
    by_cases hleaf : t.lefts.getD i (-1) = -1
    · rw [travEvalFrom, if_pos (show r.lefts.getD i (-1) = (i : Int) by
        rw [hl i hi, if_pos hleaf]), treeEvalFrom, if_pos hleaf, hv]
    · obtain ⟨⟨hl1, hl2⟩, hr1, hr2⟩ := child_bounds_of_wf hwf i hi hleaf
      have hrleaf : t.rights.getD i (-1) ≠ -1 := fun hcon =>
        hleaf ((hwf.2.2.2.2.2.1 i hi).mpr hcon)
      have hrl : r.lefts.getD i (-1) = t.lefts.getD i (-1) := by
        rw [hl i hi, if_neg hleaf]
      have hrr : r.rights.getD i (-1) = t.rights.getD i (-1) := by
        rw [hr i hi, if_neg hrleaf]
      rw [travEvalFrom, if_neg (show ¬ r.lefts.getD i (-1) = (i : Int) by
        rw [hrl]; omega)]
      rw [treeEvalFrom, if_neg hleaf]
      rw [hfe, hth, hrl, hrr]
      by_cases hcond : x.getD (t.features.getD i 0).toNat 0 ≤ t.thresholds.getD i 0
      · rw [if_pos hcond, if_pos hcond]
        exact ih (t.lefts.getD i (-1)).toNat (by omega)
      · rw [if_neg hcond, if_neg hcond]
        exact ih (t.rights.getD i (-1)).toNat (by omega)

lemma travEval_eq_treeEval (t : TreeParameters) (hwf : WF t)
    (hn : t.lefts.length ≠ 1) (x : List Rat) :
    ∃ r, get_parameters_for_tree_trav_common t = some r ∧
      travEval r x = treeEval t x := by
  obtain ⟨r, hget, hids, hmap, hll, hrl, hlc, hrc, hfe, hth, hv⟩ :=
    tree_trav_common_spec t hwf
  have hcorr := correct_single_leaf_of_ne t hn
  rw [hcorr] at hll hlc hrc hfe hth hv
  refine ⟨r, hget, ?_⟩
  rw [travEval, treeEval, hll]
  exact travEvalFrom_eq_treeEvalFrom t hwf r hlc hrc hfe hth hv x t.lefts.length 0
    hwf.2.2.2.2.1

end TreeCommons

namespace TreeCommons

lemma probaOf_length (values : List (List Rat)) (i : Nat) :
    (probaOf values i).length = (values.getD i []).length := by
  rw [probaOf]
  by_cases h : 1 < npShapeLast values
  · rw [if_pos h, List.length_map]
  · rw [if_neg h]

/-- Evaluating the three compiled GEMM layers on input x yields the (possibly
normalized) value of the leaf reached by the spec's decision procedure. -/
lemma gemmEval_computed (t : TreeParameters) (hwf : WF t) (hn : t.lefts.length ≠ 1)
    (nf k : Nat) (x : List Rat) (hx : x.length = nf)
    (hk : ∀ v ∈ t.values, v.length = k) :
    ∃ gp, get_parameters_for_gemm_common t nf = some gp ∧
      gemmEval gp x = probaOf t.values
        ((evalChain t.lefts t.rights t.features t.thresholds x
          t.lefts.length 0).getLastD 0).toNat := by
  have hpos : 0 < t.lefts.length := hwf.2.2.2.2.1
  obtain ⟨hW1len, hB1len, _⟩ :=
    gemmLayer1_spec t.lefts t.features t.thresholds nf hwf.2.1 hwf.2.2.1
  have hSVlen : (List.zipWith (fun row th => if dot x row - th ≤ 0 then (1 : Rat) else 0)
      (gemmLayer1 t.lefts t.features t.thresholds nf).1
      (gemmLayer1 t.lefts t.features t.thresholds nf).2).length =
      numInt t.lefts t.lefts.length := by
    rw [List.length_zipWith, hW1len, hB1len, Nat.min_self]
  have hs01 : ∀ q, q < t.lefts.length → t.lefts.getD q (-1) ≠ -1 →
      (List.zipWith (fun row th => if dot x row - th ≤ 0 then (1 : Rat) else 0)
        (gemmLayer1 t.lefts t.features t.thresholds nf).1
        (gemmLayer1 t.lefts t.features t.thresholds nf).2).getD (numInt t.lefts q) 0 =
        0 ∨
      (List.zipWith (fun row th => if dot x row - th ≤ 0 then (1 : Rat) else 0)
        (gemmLayer1 t.lefts t.features t.thresholds nf).1
        (gemmLayer1 t.lefts t.features t.thresholds nf).2).getD (numInt t.lefts q) 0 =
        1 := by
    intro q hq hqint
    rw [gemm_s_char t hwf nf x hx q hq hqint]
    by_cases hcond : x.getD (t.features.getD q 0).toNat 0 ≤ t.thresholds.getD q 0
    · rw [if_pos hcond]
      exact Or.inr rfl
    · rw [if_neg hcond]
      exact Or.inl rfl
  have hcount : (dfsPaths t.lefts t.rights t.lefts.length [] 0).count
      (evalChain t.lefts t.rights t.features t.thresholds x t.lefts.length 0) = 1 := by
    have h := dfs_count_evalChain t hwf x t.lefts.length 0 [] hpos (by omega) trivial
    rw [List.nil_append] at h
    exact h
  have hlen : ∀ Q ∈ dfsPaths t.lefts t.rights t.lefts.length [] 0,
      ((fun Q : List Int => probaOf t.values (Q.getLastD 0).toNat) Q).length = k := by
    intro Q hQ
    obtain ⟨_, _, hg1, hg2, _⟩ := dfsPaths_mem t hwf t.lefts.length 0 [] Q hpos
      (by omega) trivial hQ
    show (probaOf t.values (Q.getLastD 0).toNat).length = k
    rw [probaOf_length]
    have hb : (Q.getLastD 0).toNat < t.values.length := by
      rw [hwf.2.2.2.1]
      omega
    rw [List.getD_eq_getElem _ _ hb]
    exact hk _ (List.getElem_mem _)
  have hpoint : ∀ Q ∈ dfsPaths t.lefts t.rights t.lefts.length [] 0,
      (if dot (List.zipWith (fun row th => if dot x row - th ≤ 0 then (1 : Rat) else 0)
          (gemmLayer1 t.lefts t.features t.thresholds nf).1
          (gemmLayer1 t.lefts t.features t.thresholds nf).2)
          (specRow t.lefts t.rights (numInt t.lefts t.lefts.length) Q) =
          ((leftSteps t.lefts Q : Nat) : Rat) then (1 : Rat) else 0) =
      (if Q = evalChain t.lefts t.rights t.features t.thresholds x t.lefts.length 0
        then (1 : Rat) else 0) := by
    intro Q hQ
    obtain ⟨hs, ⟨S, hS⟩, hg1, hg2, hg3⟩ := dfsPaths_mem t hwf t.lefts.length 0 [] Q hpos
      (by omega) trivial hQ
    have hQ0 : Q = (((0 : Nat)) : Int) :: S := by rw [hS]; simp
    rw [dot_specRow t hwf _ hSVlen Q hs]
    obtain ⟨hple, hpiff⟩ := pathScore_le_iff t hwf _ hs01 Q hs
    by_cases hQs : Q = evalChain t.lefts t.rights t.features t.thresholds x
        t.lefts.length 0
    · rw [if_pos hQs, if_pos ?_]
      rw [hpiff, hQs]
      exact evalChain_agree t hwf x _ (gemm_s_char t hwf nf x hx) t.lefts.length 0 hpos
    · rw [if_neg hQs, if_neg ?_]
      intro heq
      apply hQs
      have hagree := hpiff.mp heq
      rw [hQ0] at hs hg3 hagree ⊢
      exact agree_imp_evalChain t hwf x _ (gemm_s_char t hwf nf x hx) S 0
        t.lefts.length hpos (by omega) hs hg3 hagree
  refine ⟨_, gemm_common_spec t hwf hn nf, ?_⟩
  rw [gemmEval]
  simp only [List.getD_cons_zero, List.getD_cons_succ, Option.getD_some]
  rw [List.zipWith_map, List.zipWith_same]
  rw [List.map_congr_left hpoint]
  exact dot_indicator_transpose (dfsPaths t.lefts t.rights t.lefts.length [] 0)
    (evalChain t.lefts t.rights t.features t.thresholds x t.lefts.length 0)
    (fun Q => probaOf t.values (Q.getLastD 0).toNat) k hcount hlen

end TreeCommons

namespace TreeCommons

lemma trav_common_correct (t0 : TreeParameters) :
    get_parameters_for_tree_trav_common t0 =
      get_parameters_for_tree_trav_common (correct_single_leaf t0) := by
  rw [get_parameters_for_tree_trav_common, get_parameters_for_tree_trav_common,
    correct_single_leaf_of_ne _ (corrected_length_ne_one t0)]

lemma travEval_eq_treeEval_corrected (t : TreeParameters) (hwf : WF t) (x : List Rat) :
    ∃ r, get_parameters_for_tree_trav_common t = some r ∧
      travEval r x = treeEval (correct_single_leaf t) x := by
  obtain ⟨r, hget, hids, hmap, hll, hrl, hlc, hrc, hfe, hth, hv⟩ :=
    tree_trav_common_spec t hwf
  have hwfc := correct_single_leaf_wf t hwf
  refine ⟨r, hget, ?_⟩
  rw [travEval, treeEval, hll]
  exact travEvalFrom_eq_treeEvalFrom (correct_single_leaf t) hwfc r hlc hrc hfe hth hv
    x (correct_single_leaf t).lefts.length 0 hwfc.2.2.2.2.1

lemma corrected_values_uniform (t : TreeParameters) (hwf : WF t) (k : Nat)
    (hk : ∀ v ∈ t.values, v.length = k) (hk1 : t.lefts.length = 1 → k = 1) :
    ∀ v ∈ (correct_single_leaf t).values, v.length = k := by
  by_cases h : t.lefts.length = 1
  · rw [correct_single_leaf, if_pos h]
    intro v hv
    have hvl : t.values.length = 1 := by rw [hwf.2.2.2.1, h]
    have hmem : t.values.getD 0 [] ∈ t.values := by
      rw [List.getD_eq_getElem _ _ (by omega)]
      exact List.getElem_mem _
    have hk1' := hk1 h
    rcases List.mem_cons.mp hv with h0 | hv2
    · subst h0
      rw [hk1']
      rfl
    · rcases List.mem_cons.mp hv2 with h0 | hv3
      · subst h0
        exact hk _ hmem
      · rcases List.mem_cons.mp hv3 with h0 | hv4
        · subst h0
          exact hk _ hmem
        · simp at hv4
  · rw [correct_single_leaf_of_ne t h]
    exact hk

end TreeCommons

namespace TreeCommons

lemma strategy_equivalence_core (t : TreeParameters) (hwf : WF t)
    (hn : t.lefts.length ≠ 1) (nf k : Nat) (x : List Rat) (hx : x.length = nf)
    (hk : ∀ v ∈ t.values, v.length = k) :
    ∃ gp tr, get_parameters_for_gemm_common t nf = some gp ∧
      get_parameters_for_tree_trav_common t = some tr ∧
      ∃ m : Nat, m < t.lefts.length ∧ t.lefts.getD m (-1) = -1 ∧
        travEval tr x = t.values.getD m [] ∧
        gemmEval gp x = probaOf t.values m ∧
        (k ≤ 1 → gemmEval gp x = travEval tr x) ∧
        (1 < k →
          gemmEval gp x = (travEval tr x).map (fun a => a / (travEval tr x).sum) ∧
          ((travEval tr x).sum ≠ 0 → (gemmEval gp x).sum = 1) ∧
          ((travEval tr x).sum = 1 → gemmEval gp x = travEval tr x) ∧
          (0 < (travEval tr x).sum → ∀ c1 c2 : Nat,
            ((gemmEval gp x).getD c1 0 < (gemmEval gp x).getD c2 0 ↔
             (travEval tr x).getD c1 0 < (travEval tr x).getD c2 0))) := by
  obtain ⟨gp, hgp, hgeval⟩ := gemmEval_computed t hwf hn nf k x hx hk
  obtain ⟨tr, htr, hteval⟩ := travEval_eq_treeEval t hwf hn x
  have hpos : 0 < t.lefts.length := hwf.2.2.2.2.1
  have hcnt := dfs_count_evalChain t hwf x t.lefts.length 0 [] hpos (by omega) trivial
  rw [List.nil_append] at hcnt
  have hmem : evalChain t.lefts t.rights t.features t.thresholds x t.lefts.length 0 ∈
      dfsPaths t.lefts t.rights t.lefts.length [] 0 :=
    List.count_pos_iff.mp (by omega)
  obtain ⟨_, _, hg1, hg2, hg3⟩ := dfsPaths_mem t hwf t.lefts.length 0 [] _ hpos
    (by omega) trivial hmem
  have htev : treeEval t x = t.values.getD
      ((evalChain t.lefts t.rights t.features t.thresholds x
        t.lefts.length 0).getLastD 0).toNat [] := by
    rw [treeEval, treeEvalFrom_eq_chain]
  have htrv : travEval tr x = t.values.getD
      ((evalChain t.lefts t.rights t.features t.thresholds x
        t.lefts.length 0).getLastD 0).toNat [] := by
    rw [hteval, htev]
  have hvne : t.values ≠ [] := by
    have : 0 < t.values.length := by rw [hwf.2.2.2.1]; omega
    exact List.ne_nil_of_length_pos this
  have hshape : npShapeLast t.values = k := npShapeLast_uniform t.values k hk hvne
  refine ⟨gp, tr, hgp, htr,
    ((evalChain t.lefts t.rights t.features t.thresholds x
      t.lefts.length 0).getLastD 0).toNat, by omega, hg3, htrv, hgeval, ?_, ?_⟩
  · intro hkle
    rw [hgeval, htrv, probaOf, hshape, if_neg (by omega)]
  · intro hk2
    have hgev2 : gemmEval gp x =
        (t.values.getD ((evalChain t.lefts t.rights t.features t.thresholds x
          t.lefts.length 0).getLastD 0).toNat []).map
          (fun a => a / (t.values.getD ((evalChain t.lefts t.rights t.features
            t.thresholds x t.lefts.length 0).getLastD 0).toNat []).sum) := by
      rw [hgeval, probaOf, hshape, if_pos hk2]
    refine ⟨by rw [hgev2, htrv], ?_, ?_, ?_⟩
    · intro hsum
      rw [htrv] at hsum
      rw [hgev2, sum_map_div, div_self hsum]
    · intro hsum1
      rw [htrv] at hsum1
      rw [hgev2, hsum1, htrv]
      simp
    · intro hspos c1 c2
      have hc : ∀ c : Nat, (gemmEval gp x).getD c 0 =
          (travEval tr x).getD c 0 / (travEval tr x).sum := by
        intro c
        rw [hgev2, htrv]
        by_cases hcl : c < (t.values.getD ((evalChain t.lefts t.rights t.features
            t.thresholds x t.lefts.length 0).getLastD 0).toNat []).length
        · rw [getD_map _ _ c 0 0 hcl]
        · rw [List.getD_eq_default _ _ (by rw [List.length_map]; omega),
            List.getD_eq_default _ _ (by omega), zero_div]
      rw [hc c1, hc c2]
      exact div_lt_div_iff_of_pos_right hspos

/-- C1: on every well-formed tree (with uniform leaf-value width, width 1 in the
single-leaf case) and every input vector, GEMM compilation and traversal compilation
both succeed and evaluating the three GEMM layers agrees with stepping through the
traversal arrays: the outputs are equal for single-value leaves or pre-normalized
leaf distributions, and in general the GEMM output is the traversal output divided by
its sum, so with a positive leaf sum both strategies order the classes identically
(the same class/value is predicted). -/
theorem gemm_trav_strategy_equivalence (t : TreeParameters) (hwf : WF t)
    (nf k : Nat) (x : List Rat) (hx : x.length = nf)
    (hk : ∀ v ∈ t.values, v.length = k) (hk1 : t.lefts.length = 1 → k = 1) :
    ∃ gp tr, get_parameters_for_gemm_common t nf = some gp ∧
      get_parameters_for_tree_trav_common t = some tr ∧
      ∃ m : Nat, m < (correct_single_leaf t).lefts.length ∧
        (correct_single_leaf t).lefts.getD m (-1) = -1 ∧
        travEval tr x = (correct_single_leaf t).values.getD m [] ∧
        gemmEval gp x = probaOf (correct_single_leaf t).values m ∧
        (k ≤ 1 → gemmEval gp x = travEval tr x) ∧
        (1 < k →
          gemmEval gp x = (travEval tr x).map (fun a => a / (travEval tr x).sum) ∧
          ((travEval tr x).sum ≠ 0 → (gemmEval gp x).sum = 1) ∧
          ((travEval tr x).sum = 1 → gemmEval gp x = travEval tr x) ∧
          (0 < (travEval tr x).sum → ∀ c1 c2 : Nat,
            ((gemmEval gp x).getD c1 0 < (gemmEval gp x).getD c2 0 ↔
             (travEval tr x).getD c1 0 < (travEval tr x).getD c2 0))) := by
  obtain ⟨gp, tr, hgp, htr, m, hm1, hm2, hm3, hm4, hm5, hm6⟩ :=
    strategy_equivalence_core (correct_single_leaf t) (correct_single_leaf_wf t hwf)
      (corrected_length_ne_one t) nf k x hx (corrected_values_uniform t hwf k hk hk1)
  refine ⟨gp, tr, ?_, ?_, m, hm1, hm2, hm3, hm4, hm5, hm6⟩
  · rw [gemm_common_correct t nf]
    exact hgp
  · rw [trav_common_correct t]
    exact htr

end TreeCommons

namespace TreeCommons

/-- C1 witness: strategy equivalence instantiated on the concrete two-class
three-node tree and input vector [1/2]. -/
theorem gemm_trav_strategy_equivalence_witness :
    ∃ gp tr, get_parameters_for_gemm_common tree3b 1 = some gp ∧
      get_parameters_for_tree_trav_common tree3b = some tr ∧
      ∃ m : Nat, m < (correct_single_leaf tree3b).lefts.length ∧
        (correct_single_leaf tree3b).lefts.getD m (-1) = -1 ∧
        travEval tr [1/2] = (correct_single_leaf tree3b).values.getD m [] ∧
        gemmEval gp [1/2] = probaOf (correct_single_leaf tree3b).values m ∧
        ((2 : Nat) ≤ 1 → gemmEval gp [1/2] = travEval tr [1/2]) ∧
        ((1 : Nat) < 2 →
          gemmEval gp [1/2] = (travEval tr [1/2]).map
            (fun a => a / (travEval tr [1/2]).sum) ∧
          ((travEval tr [1/2]).sum ≠ 0 → (gemmEval gp [1/2]).sum = 1) ∧
          ((travEval tr [1/2]).sum = 1 → gemmEval gp [1/2] = travEval tr [1/2]) ∧
          (0 < (travEval tr [1/2]).sum → ∀ c1 c2 : Nat,
            ((gemmEval gp [1/2]).getD c1 0 < (gemmEval gp [1/2]).getD c2 0 ↔
             (travEval tr [1/2]).getD c1 0 < (travEval tr [1/2]).getD c2 0))) :=
  gemm_trav_strategy_equivalence tree3b tree3b_wf 1 2 [1/2] rfl (by decide) (by decide)

end TreeCommons
